import Mathlib

/-!
# The top-keys tracker of `topkeys.c`

A shallow embedding of `src/topkeys.c` and proofs about it.

The file is compiled in one of four ways, chosen by the preprocessor:
without `HOT_ITEMS` (the default, a recency list), or with `HOT_ITEMS` and one
of `LC` (Lossy Counting), `SSL` (Space-Saving), `CSM` (Count-Min-Sketch).
`Policy` names the variant; each variant's function is embedded separately.

Modelling decisions:

* The circular list with its sentinel `tk->list` is a `List dnode`, read from
  `tk->list.next` (head) to `tk->list.prev` (tail).  A node carries the address
  of the item and the item's fields.  A `dlist_t*` is a `Ref`: the sentinel or
  the address of an item.
* The hash index stores pointers: `genhash_t` maps a key to an address.
  `genhash.h` is not part of the sources, its operations follow the contract
  of the specification.
* `calloc` hands out addresses that were never handed out before
  (`topkeys_t.brk` is the next one); whether it succeeds is an input of the
  call (`Call.calloc`).
* `int` fields are mathematical integers: signed overflow is undefined in C and
  the embedding covers the runs in which no `int` leaves its range.  The sketch
  hash is computed on 32-bit patterns, modulo `2^32`.
* A call that does not return (a failed `assert`, a division by zero, a `free`
  of the sentinel, a dangling pointer) is `none`.
* `rel_time_t` is unsigned 32-bit: the ages of `tk_iterfunc` are computed
  modulo `2^32`.  The sink of `topkeys_stats` is a function on the state behind
  its cookie; the text of `val_str` is represented by the numbers printed.
* `op_time`, `gettimeofday`, the mutex and the `printf` output are not
  modelled.
-/

namespace Topkeys

/-! ## Data model -/

/-- The bytes of a key (`key`, `nkey` is the length). -/
abbrev Key := List Nat

/-- An address returned by `calloc`. -/
abbrev Ptr := Nat

/-- The fields of `topkey_item_t` that `topkeys.c` reads or writes. -/
structure topkey_item where
  key : Key
  ctime : Nat
  atime : Nat
  counter : Int
  error_value : Int
  deriving DecidableEq, Repr

/-- An item linked in the order list: its address and its contents. -/
structure dnode where
  addr : Ptr
  item : topkey_item
  deriving DecidableEq, Repr

/-- A pointer as the functions return or follow it: `NULL`, the list sentinel
`&tk->list`, or an item. -/
inductive Ref where
  | null
  | sentinel
  | item (a : Ptr)
  deriving DecidableEq, Repr

/-- The compile-time variant: `LRU` is the default (no `HOT_ITEMS`). -/
inductive Policy where
  | LRU
  | LC
  | SSL
  | CSM
  deriving DecidableEq, Repr

/-- The compile-time configuration: the variant and the sketch dimensions
`CSM_D`, `CSM_W` of `topkeys.h`. -/
structure Config where
  policy : Policy
  CSM_D : Nat
  CSM_W : Nat

/-- Modelled from the spec: the hash index of `memcached/genhash.h`, which is
not in the sources; a finite map from a key (compared byte by byte, see
`my_hash_eq`) to the stored item pointer. -/
abbrev genhash_t := Key → Option Ptr

/-- The sketch `csm_t`: `hash[i]` is the seed of row `i`, `cm[i][j]` a cell. -/
structure csm_t where
  hash : Nat → Nat
  cm : Nat → Nat → Int

/-- The tracker `topkeys_t`. `brk` is the next address `calloc` hands out. -/
structure topkeys_t where
  list : List dnode
  hash : genhash_t
  nkeys : Int
  max_keys : Int
  N : Int
  delta : Int
  csm : csm_t
  brk : Ptr

/-- The inputs of one `topkeys_item_get_or_create` call. `calloc` tells whether
the allocation in `topkey_item_init` succeeds; `stray` is the `int` found when
the list sentinel is read as an item (`((topkey_item_t *)del)->counter` with
`del == &tk->list`), which depends on the layout in `topkeys.h`. -/
structure Call where
  key : Key
  ctime : Nat
  calloc : Bool
  stray : Int

/-! ## Hash index and list primitives -/

/-- Modelled from the spec: `genhash_init` of `memcached/genhash.h`, which is
not in the sources. `topkeys_init` passes it `max_keys` and has no check of its
own, so the failure of construction for a capacity of 0 or less is the
index's; it also fails when its allocation fails. A new index is empty. -/
def genhash_init (est : Int) (ok : Bool) : Option genhash_t :=
  if 1 ≤ est ∧ ok = true then some (fun _ => none) else none

/-- Modelled from the spec: `genhash_find`, the stored pointer or `NULL`. -/
def genhash_find (h : genhash_t) (k : Key) : Option Ptr := h k

/-- Modelled from the spec: `genhash_update`, insert or replace. -/
def genhash_update (h : genhash_t) (k : Key) (a : Ptr) : genhash_t :=
  fun k1 => if k1 = k then some a else h k1

/-- Modelled from the spec: `genhash_delete`, remove the entry of a key. -/
def genhash_delete (h : genhash_t) (k : Key) : genhash_t :=
  fun k1 => if k1 = k then none else h k1

/-- The linked item at an address, if there is one. -/
def deref (l : List dnode) (a : Ptr) : Option dnode :=
  l.find? (fun n => n.addr = a)

/-- Unlinks the node at address `a` (`dlist_remove`). -/
def dlist_remove (l : List dnode) (a : Ptr) : List dnode :=
  l.filter (fun n => n.addr ≠ a)

/-- Links `n` right after the node at address `a`. -/
def link_after (a : Ptr) (n : dnode) : List dnode → List dnode
  | [] => []
  | h :: t => if h.addr = a then h :: n :: t else h :: link_after a n t

/-- Links `n` after `anchor` (`dlist_insert_after`); after the sentinel the
node becomes the head. -/
def dlist_insert_after (l : List dnode) (anchor : Ref) (n : dnode) : List dnode :=
  match anchor with
  | .sentinel => n :: l
  | .item a => link_after a n l
  | .null => l

/-- The scan `while ((p = p->next) != &tk->list) if (p->counter >= item->counter) break;`
followed by `dlist_insert_after(p->prev, &item->list)`: the node is linked
right before the first node whose counter is at least its own, at the tail when
there is none. -/
def insert_by_counter (n : dnode) : List dnode → List dnode
  | [] => [n]
  | h :: t => if h.item.counter ≥ n.item.counter then n :: h :: t else h :: insert_by_counter n t

/-- The tail `tk->list.prev`. -/
def topkeys_tail (tk : topkeys_t) : Ref :=
  match tk.list.getLast? with
  | some n => .item n.addr
  | none => .sentinel

/-- The head `tk->list.next`. -/
def topkeys_head (tk : topkeys_t) : Ref :=
  match tk.list with
  | n :: _ => .item n.addr
  | [] => .sentinel

/-- Allocates and fills an item (`topkey_item_init`); `none` when one of the
three assertions fails. The memory is zeroed by `calloc`. -/
def topkey_item_init (key : Key) (ctime : Nat) (calloc : Bool) : Option topkey_item :=
  if calloc = true ∧ key ≠ [] then
    some { key := key, ctime := ctime, atime := ctime, counter := 0, error_value := 0 }
  else none

/-- Removes an item from the index and the list (`topkeys_item_delete`); the
count is left alone under `LC`. Deleting through the sentinel or a dangling
pointer is undefined. -/
def topkeys_item_delete (p : Policy) (tk : topkeys_t) (r : Ref) : Option topkeys_t :=
  match r with
  | .item a =>
    match deref tk.list a with
    | some n =>
      some { tk with
        hash := genhash_delete tk.hash n.item.key
        list := dlist_remove tk.list a
        nkeys := if p = .LC then tk.nkeys else tk.nkeys - 1 }
    | none => none
  | _ => none

/-! ## The default variant: recency -/

/-- The body of `topkeys_item_get_or_create` without `HOT_ITEMS`. -/
def topkeys_recency (tk : topkeys_t) (c : Call) : Option (topkeys_t × Ref) :=
  match genhash_find tk.hash c.key with
  | none =>
    match topkey_item_init c.key c.ctime c.calloc with
    | none => none
    | some item =>
      let a := tk.brk
      let tk1 : topkeys_t := { tk with brk := a + 1, nkeys := tk.nkeys + 1 }
      let evicted : Option topkeys_t :=
        if tk1.nkeys > tk1.max_keys then topkeys_item_delete .LRU tk1 (topkeys_tail tk1)
        else some tk1
      match evicted with
      | none => none
      | some tk2 =>
        let tk3 : topkeys_t := { tk2 with hash := genhash_update tk2.hash item.key a }
        some ({ tk3 with list := dlist_insert_after tk3.list .sentinel ⟨a, item⟩ }, .item a)
  | some a =>
    match deref tk.list a with
    | none => none
    | some n =>
      let tk1 : topkeys_t := { tk with list := dlist_remove tk.list a }
      some ({ tk1 with list := dlist_insert_after tk1.list .sentinel n }, .item a)

/-! ## Lossy Counting -/

/-- The sweep loop of `topkeys_lossy`: while the head's counter is below
`delta`, delete the head. `fuel` bounds the iterations. -/
def lossy_sweep : Nat → topkeys_t → Option topkeys_t
  | 0, tk =>
    match tk.list with
    | [] => some tk
    | h :: _ => if h.item.counter < tk.delta then none else some tk
  | fuel + 1, tk =>
    match tk.list with
    | [] => some tk
    | h :: _ =>
      if h.item.counter < tk.delta then
        match topkeys_item_delete .LC tk (.item h.addr) with
        | none => none
        | some tk1 => lossy_sweep fuel tk1
      else some tk

/-- The part of `topkeys_lossy` after the item is found or created: sorted
insertion, the count, and the sweep when `delta` changes. -/
def lossy_finish (tk : topkeys_t) (n : dnode) : Option (topkeys_t × Ref) :=
  let tk1 : topkeys_t := { tk with list := insert_by_counter n tk.list }
  let tk2 : topkeys_t := { tk1 with nkeys := tk1.nkeys + 1 }
  if tk2.max_keys = 0 then none
  else if tk2.delta ≠ tk2.nkeys.tdiv tk2.max_keys then
    let tk3 : topkeys_t := { tk2 with delta := tk2.nkeys.tdiv tk2.max_keys }
    match lossy_sweep tk3.list.length tk3 with
    | none => none
    | some tk4 => some (tk4, .item n.addr)
  else some (tk2, .item n.addr)

/-- The function `topkeys_lossy`. -/
def topkeys_lossy (tk : topkeys_t) (c : Call) : Option (topkeys_t × Ref) :=
  let found := genhash_find tk.hash c.key
  let tk0 : topkeys_t := { tk with N := tk.N + 1 }
  match found with
  | none =>
    match topkey_item_init c.key c.ctime c.calloc with
    | none => none
    | some item0 =>
      let item : topkey_item := { item0 with counter := tk0.delta + 1 }
      let a := tk0.brk
      let tk1 : topkeys_t :=
        { tk0 with brk := a + 1, hash := genhash_update tk0.hash item.key a }
      lossy_finish tk1 ⟨a, item⟩
  | some a =>
    match deref tk0.list a with
    | none => none
    | some n =>
      let item : topkey_item := { n.item with counter := n.item.counter + 1 }
      let tk1 : topkeys_t := { tk0 with list := dlist_remove tk0.list a }
      lossy_finish tk1 ⟨a, item⟩

/-! ## Space-Saving -/

/-- The function `topkeys_space_saving`. -/
def topkeys_space_saving (tk : topkeys_t) (c : Call) : Option (topkeys_t × Ref) :=
  let found := genhash_find tk.hash c.key
  let tk0 : topkeys_t := { tk with N := tk.N + 1 }
  match found with
  | none =>
    match topkey_item_init c.key c.ctime c.calloc with
    | none => none
    | some item0 =>
      let a := tk0.brk
      let tk1 : topkeys_t :=
        { tk0 with brk := a + 1, hash := genhash_update tk0.hash item0.key a,
                   nkeys := tk0.nkeys + 1 }
      if tk1.nkeys ≤ tk1.max_keys then
        let item : topkey_item := { item0 with counter := 1 }
        some ({ tk1 with list := insert_by_counter ⟨a, item⟩ tk1.list }, .item a)
      else
        match tk1.list with
        | [] => none
        | p :: _ =>
          let item : topkey_item :=
            { item0 with error_value := p.item.counter, counter := p.item.counter + 1 }
          match topkeys_item_delete .SSL tk1 (.item p.addr) with
          | none => none
          | some tk2 =>
            some ({ tk2 with list := insert_by_counter ⟨a, item⟩ tk2.list }, .item a)
  | some a =>
    match deref tk0.list a with
    | none => none
    | some n =>
      let item : topkey_item := { n.item with counter := n.item.counter + 1 }
      let tk1 : topkeys_t := { tk0 with list := dlist_remove tk0.list a }
      some ({ tk1 with list := insert_by_counter ⟨a, item⟩ tk1.list }, .item a)

/-! ## Count-Min-Sketch -/

/-- The value of `str[i]` as a 32-bit pattern: `char` is signed and is
sign-extended when promoted to `int`. -/
def char_bits (b : Nat) : Nat :=
  if b % 256 < 128 then b % 256 else b % 256 + (2 ^ 32 - 256)

/-- The string hash `genhash_string_hash_csm` on 32-bit patterns:
`rv = ((rv << 1) + rv) ^ str[i]` for every byte. -/
def genhash_string_hash_csm (key : Key) (rv : Nat) : Nat :=
  key.foldl (fun r b => (((r * 2) % 2 ^ 32 + r) % 2 ^ 32) ^^^ char_bits b) rv

/-- The column of row `i` for a key: the hash masked with `CSM_W - 1`. -/
def csm_index (cfg : Config) (csm : csm_t) (i : Nat) (key : Key) : Nat :=
  genhash_string_hash_csm key (csm.hash i) &&& ((cfg.CSM_W + 2 ^ 32 - 1) % 2 ^ 32)

/-- The sketch after `csm_init`: seeds `323 << (i + 1)`, zeroed cells;
`none` when `calloc` fails. -/
def csm_init (cfg : Config) (ok : Bool) : Option csm_t :=
  if ok then
    some { hash := fun i => if i < cfg.CSM_D then (323 * 2 ^ (i + 1)) % 2 ^ 32 else 0
           cm := fun _ _ => 0 }
  else none

/-- One iteration of the loop of `add_count`: `cm[i][val] += 1`. -/
def bump_cell (cfg : Config) (key : Key) (s : csm_t) (i : Nat) : csm_t :=
  { s with cm := fun r col =>
      if r = i ∧ col = csm_index cfg s i key then s.cm r col + 1 else s.cm r col }

/-- The function `add_count`: one cell per row is incremented. -/
def add_count (cfg : Config) (csm : csm_t) (key : Key) : csm_t :=
  (List.range cfg.CSM_D).foldl (bump_cell cfg key) csm

/-- The function `estimate_count`: the least of the key's cells, starting from
`0x7fffffff`. -/
def estimate_count (cfg : Config) (csm : csm_t) (key : Key) : Int :=
  (List.range cfg.CSM_D).foldl
    (fun m i => if m > csm.cm i (csm_index cfg csm i key) then csm.cm i (csm_index cfg csm i key) else m)
    0x7fffffff

/-- The function `topkeys_count_sketch_min`. -/
def topkeys_count_sketch_min (cfg : Config) (tk : topkeys_t) (c : Call) :
    Option (topkeys_t × Ref) :=
  let found := genhash_find tk.hash c.key
  let tk0 : topkeys_t := { tk with csm := add_count cfg tk.csm c.key, N := tk.N + 1 }
  match found with
  | none =>
    match topkey_item_init c.key c.ctime c.calloc with
    | none => none
    | some item0 =>
      let a := tk0.brk
      let tk1 : topkeys_t := { tk0 with brk := a + 1, nkeys := tk0.nkeys + 1 }
      if tk1.nkeys < tk1.max_keys then
        let tk2 : topkeys_t := { tk1 with hash := genhash_update tk1.hash item0.key a }
        let item : topkey_item := { item0 with counter := estimate_count cfg tk2.csm c.key }
        some ({ tk2 with list := insert_by_counter ⟨a, item⟩ tk2.list }, .item a)
      else
        let del : Ref := topkeys_head tk1
        let del_counter : Int :=
          match tk1.list with
          | p :: _ => p.item.counter
          | [] => c.stray
        if del_counter < item0.counter then
          let tk2 : topkeys_t := { tk1 with hash := genhash_update tk1.hash item0.key a }
          let item : topkey_item := { item0 with counter := estimate_count cfg tk2.csm c.key }
          match topkeys_item_delete .CSM tk2 del with
          | none => none
          | some tk3 =>
            some ({ tk3 with list := insert_by_counter ⟨a, item⟩ tk3.list }, .item a)
        else
          some ({ tk1 with nkeys := tk1.nkeys - 1 }, del)
  | some a =>
    match deref tk0.list a with
    | none => none
    | some n =>
      let item : topkey_item := { n.item with counter := n.item.counter + 1 }
      let tk1 : topkeys_t := { tk0 with list := dlist_remove tk0.list a }
      some ({ tk1 with list := insert_by_counter ⟨a, item⟩ tk1.list }, .item a)

/-! ## Entry points -/

/-- The function `topkeys_init`: the zeroed tracker with an empty list, the
sketch under `CSM`, and a new hash index; `NULL` when an allocation fails. -/
def topkeys_init (cfg : Config) (max_keys : Int) (calloc_tk calloc_csm genhash_ok : Bool) :
    Option topkeys_t :=
  if calloc_tk then
    let zero_csm : csm_t := { hash := fun _ => 0, cm := fun _ _ => 0 }
    match (if cfg.policy = .CSM then csm_init cfg calloc_csm else some zero_csm) with
    | none => none
    | some csm =>
      match genhash_init max_keys genhash_ok with
      | none => none
      | some h =>
        some { list := [], hash := h, nkeys := 0, max_keys := max_keys, N := 0, delta := 0,
               csm := csm, brk := 0 }
  else none

/-- The function `topkeys_item_get_or_create`: the variant compiled in. -/
def topkeys_item_get_or_create (cfg : Config) (tk : topkeys_t) (c : Call) :
    Option (topkeys_t × Ref) :=
  match cfg.policy with
  | .LRU => topkeys_recency tk c
  | .LC => topkeys_lossy tk c
  | .SSL => topkeys_space_saving tk c
  | .CSM => topkeys_count_sketch_min cfg tk c

/-! ## Statistics -/

/-- The result code of `topkeys_stats` (`ENGINE_ERROR_CODE`; the file returns
only `ENGINE_SUCCESS`). -/
inductive ENGINE_ERROR_CODE where
  | ENGINE_SUCCESS
  deriving DecidableEq, Repr

/-- The arguments of one `add_stat` call: the key, its length, and the numbers
printed into `val_str`: the values `TK_OPS(TK_ARGS)` expands to, then the two
ages. -/
structure stat_call where
  key : Key
  nkey : Nat
  ops : List Int
  ctime : Nat
  atime : Nat
  deriving DecidableEq, Repr

/-- Subtraction of two `rel_time_t` values, which are unsigned 32-bit. -/
def rel_time_sub (a b : Nat) : Nat :=
  (a % 2 ^ 32 + 2 ^ 32 - b % 2 ^ 32) % 2 ^ 32

/-- The context `struct tk_context`: the sink `add_stat`, the `cookie` it
works on and the current time. -/
structure tk_context (σ : Type) where
  cookie : σ
  add_stat : stat_call → σ → σ
  current_time : Nat

/-- The loop `dlist_iter`: `iterfunc` on every node from the head to the
tail. -/
def dlist_iter {σ : Type} (l : List dnode) (iterfunc : dnode → σ → σ) (arg : σ) : σ :=
  l.foldl (fun s n => iterfunc n s) arg

/-- The function `tk_iterfunc`: one `add_stat` call for the item. `tk_ops`
stands for the fields the macro `TK_OPS` of `topkeys.h` lists. -/
def tk_iterfunc {σ : Type} (tk_ops : topkey_item → List Int) (n : dnode) (c : tk_context σ) :
    tk_context σ :=
  let line : stat_call :=
    { key := n.item.key
      nkey := n.item.key.length
      ops := tk_ops n.item
      ctime := rel_time_sub c.current_time n.item.ctime
      atime := rel_time_sub c.current_time n.item.atime }
  { c with cookie := c.add_stat line c.cookie }

/-- The function `topkeys_stats`: the result code, the tracker after the call
and what the sink made of the cookie. -/
def topkeys_stats {σ : Type} (tk_ops : topkey_item → List Int) (tk : topkeys_t) (cookie : σ)
    (current_time : Nat) (add_stat : stat_call → σ → σ) : ENGINE_ERROR_CODE × topkeys_t × σ :=
  let context : tk_context σ :=
    { cookie := cookie, add_stat := add_stat, current_time := current_time }
  let context1 := dlist_iter tk.list (tk_iterfunc tk_ops) context
  (.ENGINE_SUCCESS, tk, context1.cookie)

/-! ## Runs -/

/-- A sequence of calls, one after the other; `none` when one does not return. -/
def run (cfg : Config) : topkeys_t → List Call → Option topkeys_t
  | tk, [] => some tk
  | tk, c :: cs =>
    match topkeys_item_get_or_create cfg tk c with
    | none => none
    | some (tk1, _) => run cfg tk1 cs

/-- The tracker reached from `topkeys_init` (all allocations succeeding) by a
sequence of calls. -/
def reach (cfg : Config) (max_keys : Int) (calls : List Call) : Option topkeys_t :=
  match topkeys_init cfg max_keys true true true with
  | none => none
  | some tk => run cfg tk calls

/-- A call the code can serve: the key is not empty and `calloc` succeeds. -/
def Call.ok (c : Call) : Prop := c.key ≠ [] ∧ c.calloc = true

/-- The keys linked in the order list, head to tail. -/
def list_keys (tk : topkeys_t) : List Key := tk.list.map (fun n => n.item.key)

/-- The number of calls made with key `k`. -/
def true_frequency (k : Key) (calls : List Call) : Nat :=
  calls.countP (fun c => c.key = k)

/-! ## Auxiliary definitions for the proofs -/

/-- Structural well-formedness of the index and the list. -/
structure WF (l : List dnode) (h : genhash_t) (brk : Ptr) : Prop where
  addr_nodup : (l.map (fun n => n.addr)).Nodup
  key_nodup : (l.map (fun n => n.item.key)).Nodup
  hash_list : ∀ k a, h k = some a ↔ ∃ n ∈ l, n.addr = a ∧ n.item.key = k
  fresh : ∀ n ∈ l, n.addr < brk

/-- Well-formedness of a tracker. -/
def topkeys_t.wf (tk : topkeys_t) : Prop := WF tk.list tk.hash tk.brk

/-- The item `topkey_item_init` builds for a call. -/
def Call.item (c : Call) : topkey_item :=
  { key := c.key, ctime := c.ctime, atime := c.ctime, counter := 0, error_value := 0 }

/-- The distinct keys of a sequence, each kept at its last occurrence. -/
def last_occurrences : List Key → List Key
  | [] => []
  | k :: t => if k ∈ t then last_occurrences t else k :: last_occurrences t

/-- The distinct keys of an access sequence ordered by most recent access,
most recent first. -/
def recency_order (ks : List Key) : List Key := (last_occurrences ks).reverse

/-- The invariant of the default variant after the calls `hist`. -/
structure RecencyInv (tk : topkeys_t) (hist : List Call) : Prop where
  wf : tk.wf
  count : tk.nkeys = tk.list.length
  bound : tk.nkeys ≤ tk.max_keys
  order : list_keys tk = (recency_order (hist.map (fun c => c.key))).take tk.max_keys.toNat

instance (c : Call) : Decidable c.ok := by
  unfold Call.ok
  infer_instance

/-- The list `lossy_finish` leaves: the sorted insertion, swept when `delta`
changes. -/
def lossy_list (tk : topkeys_t) (n : dnode) : List dnode :=
  if tk.delta ≠ (tk.nkeys + 1).tdiv tk.max_keys then
    (insert_by_counter n tk.list).dropWhile
      (fun m => m.item.counter < (tk.nkeys + 1).tdiv tk.max_keys)
  else insert_by_counter n tk.list

/-- The node a call of `topkeys_lossy` links and the list it is linked into:
on a hit the item with its counter incremented and the list without it, on a
miss a new item with counter `delta + 1` and the whole list. -/
def lossy_node (tk : topkeys_t) (c : Call) (n : dnode) (l0 : List dnode) : Prop :=
  (∃ m ∈ tk.list, m.item.key = c.key ∧ tk.hash c.key = some m.addr ∧
      n = ⟨m.addr, { m.item with counter := m.item.counter + 1 }⟩ ∧
      l0 = dlist_remove tk.list m.addr) ∨
  (tk.hash c.key = none ∧ c.ok ∧ n = ⟨tk.brk, { c.item with counter := tk.delta + 1 }⟩ ∧
      l0 = tk.list)

/-- The capacity bound a variant keeps: below `max_keys` under the sketch
variant, at most `max_keys` otherwise. -/
def within_capacity (p : Policy) (tk : topkeys_t) : Prop :=
  if p = .CSM then tk.nkeys < tk.max_keys else tk.nkeys ≤ tk.max_keys

/-- The invariant behind the count and capacity claims. -/
structure CountInv (cfg : Config) (max_keys : Int) (tk : topkeys_t) : Prop where
  wf : tk.wf
  cap : tk.max_keys = max_keys
  count : cfg.policy ≠ .LC → tk.nkeys = tk.list.length
  bound : cfg.policy ≠ .LC → 1 ≤ max_keys → within_capacity cfg.policy tk

/-- The order list is sorted by counter, lowest first. -/
def counter_sorted (l : List dnode) : Prop :=
  l.Pairwise (fun a b => a.item.counter ≤ b.item.counter)

/-- The invariant of Space-Saving after the calls `hist`. -/
structure SpaceSavingInv (tk : topkeys_t) (hist : List Call) : Prop where
  wf : tk.wf
  count : tk.nkeys = tk.list.length
  sorted : counter_sorted tk.list
  est : ∀ n ∈ tk.list, (true_frequency n.item.key hist : Int) ≤ n.item.counter ∧
    n.item.counter ≤ true_frequency n.item.key hist + n.item.error_value
  untracked : ∀ k, tk.hash k = none →
    ((tk.list.length : Int) < tk.max_keys → true_frequency k hist = 0) ∧
    ∀ n ∈ tk.list, (true_frequency k hist : Int) ≤ n.item.counter

/-- The invariant of Lossy Counting after the calls `hist`. -/
structure LossyInv (tk : topkeys_t) (hist : List Call) : Prop where
  wf : tk.wf
  cap : 1 ≤ tk.max_keys
  nkeys_nonneg : 0 ≤ tk.nkeys
  delta_eq : tk.delta = tk.nkeys.tdiv tk.max_keys
  sorted : counter_sorted tk.list
  floor : ∀ n ∈ tk.list, tk.delta ≤ n.item.counter
  est : ∀ n ∈ tk.list, (true_frequency n.item.key hist : Int) ≤ n.item.counter ∧
    n.item.counter ≤ true_frequency n.item.key hist + tk.delta
  untracked : ∀ k, tk.hash k = none → (true_frequency k hist : Int) ≤ tk.delta
  seen : ∀ n ∈ tk.list, n.item.key ∈ hist.map (fun c => c.key)

/-- What one call of `topkeys_lossy` establishes besides the invariant. -/
structure LossyStep (tk tk1 : topkeys_t) (c : Call) (r : Ref) (hist : List Call) : Prop where
  inv : LossyInv tk1 (hist ++ [c])
  cap : tk1.max_keys = tk.max_keys
  delta_mono : tk.delta ≤ tk1.delta
  updated : ∀ m ∈ tk1.list, m.item.key = c.key →
    (true_frequency c.key (hist ++ [c]) : Int) ≤ m.item.counter ∧
    m.item.counter ≤ true_frequency c.key (hist ++ [c]) + tk.delta
  others : ∀ m ∈ tk1.list, m.item.key ≠ c.key → m ∈ tk.list
  returned : ∃ n ∈ tk1.list, r = .item n.addr ∧ n.item.key = c.key

/-- Every cell a key is hashed to counts at least the calls made with the key. -/
def sketch_covers (cfg : Config) (tk : topkeys_t) (hist : List Call) : Prop :=
  ∀ i < cfg.CSM_D, ∀ k, (true_frequency k hist : Int) ≤ tk.csm.cm i (csm_index cfg tk.csm i k)

/-- The item a result points to, when it points to a linked item. -/
def returned_item (res : topkeys_t × Ref) : Option topkey_item :=
  match res.2 with
  | .item a => (deref res.1.list a).map (fun n => n.item)
  | _ => none

/-- The `add_stat` arguments `tk_iterfunc` builds for an item at a time. -/
def stat_line (tk_ops : topkey_item → List Int) (now : Nat) (n : dnode) : stat_call :=
  { key := n.item.key
    nkey := n.item.key.length
    ops := tk_ops n.item
    ctime := rel_time_sub now n.item.ctime
    atime := rel_time_sub now n.item.atime }

/-- The invariant of the sketch variant after the calls `hist`. -/
structure SketchInv (cfg : Config) (tk : topkeys_t) (hist : List Call) : Prop where
  wf : tk.wf
  covers : sketch_covers cfg tk hist
  sorted : counter_sorted tk.list
  positive : ∀ n ∈ tk.list, 1 ≤ n.item.counter

/-- The sum of the counters of the linked items. -/
def counter_sum (l : List dnode) : Int := (l.map (fun n => n.item.counter)).sum

/-- The list `L` is `l0` with `n` linked right before the first item of `l0`
whose counter is at least the counter of `n` (at the tail when there is none). -/
def placed_before_first_ge (n : dnode) (l0 L : List dnode) : Prop :=
  ∃ before after, l0 = before ++ after ∧ L = before ++ n :: after ∧
    (∀ m ∈ before, m.item.counter < n.item.counter) ∧
    (∀ m, after.head? = some m → n.item.counter ≤ m.item.counter)

/-- A tracker of the sketch variant (sketch 2 by 4) that holds `max_keys = 1`
items: the item x with counter 1 at address 0, indexed, and a sketch that has
counted x once and y once. It is the tracker the calls x, y are meant to leave
with capacity 1; it is well formed for `topkeys_t`, but no sequence of calls
builds it, the variant never linking `max_keys` items. -/
def sketch_full_tracker : Option topkeys_t :=
  (topkeys_init ⟨.CSM, 2, 4⟩ 1 true true true).map (fun t =>
    { t with
      list := [⟨0, { key := [120], ctime := 1, atime := 1, counter := 1, error_value := 0 }⟩]
      hash := genhash_update t.hash [120] 0
      nkeys := 1
      N := 2
      brk := 1
      csm := add_count ⟨.CSM, 2, 4⟩ (add_count ⟨.CSM, 2, 4⟩ t.csm [120]) [121] })

/-! ## Lemmas on the primitives and the default variant (C1) -/

theorem mem_dlist_remove {l : List dnode} {a : Ptr} {x : dnode} :
    x ∈ dlist_remove l a ↔ x ∈ l ∧ x.addr ≠ a := by
  simp [dlist_remove, List.mem_filter]

theorem insert_by_counter_perm (n : dnode) (l : List dnode) :
    (insert_by_counter n l).Perm (n :: l) := by
  induction l with
  | nil => simp [insert_by_counter]
  | cons h t ih =>
    simp only [insert_by_counter]
    split
    · exact List.Perm.refl _
    · exact (List.Perm.cons h ih).trans (List.Perm.swap n h t)

theorem mem_insert_by_counter {n x : dnode} {l : List dnode} :
    x ∈ insert_by_counter n l ↔ x = n ∨ x ∈ l := by
  rw [(insert_by_counter_perm n l).mem_iff, List.mem_cons]

theorem length_insert_by_counter (n : dnode) (l : List dnode) :
    (insert_by_counter n l).length = l.length + 1 := by
  rw [(insert_by_counter_perm n l).length_eq, List.length_cons]

theorem deref_some {l : List dnode} {a : Ptr} {n : dnode} (h : deref l a = some n) :
    n ∈ l ∧ n.addr = a := by
  unfold deref at h
  have h1 := List.mem_of_find?_eq_some h
  have h2 := List.find?_some h
  exact ⟨h1, by simpa using h2⟩

theorem deref_none {l : List dnode} {a : Ptr} (h : deref l a = none) :
    ∀ n ∈ l, n.addr ≠ a := by
  unfold deref at h
  intro n hn
  have := List.find?_eq_none.mp h n hn
  simpa using this

theorem deref_of_mem {l : List dnode} {n : dnode} (hn : n ∈ l)
    (hnd : (l.map (fun m => m.addr)).Nodup) : deref l n.addr = some n := by
  induction l with
  | nil => cases hn
  | cons h t ih =>
    simp only [List.map_cons, List.nodup_cons, List.mem_map, not_exists, not_and] at hnd
    rcases List.mem_cons.mp hn with rfl | hn1
    · simp [deref]
    · have hne : h.addr ≠ n.addr := fun e => hnd.1 n hn1 e.symm
      have := ih hn1 hnd.2
      simp only [deref] at this ⊢
      rw [List.find?_cons]
      simp [hne, this]

theorem WF.perm {l l1 : List dnode} {h : genhash_t} {b : Ptr} (w : WF l h b)
    (p : l1.Perm l) : WF l1 h b where
  addr_nodup := (p.map _).nodup_iff.mpr w.addr_nodup
  key_nodup := (p.map _).nodup_iff.mpr w.key_nodup
  hash_list := by
    intro k a
    rw [w.hash_list]
    constructor
    · rintro ⟨n, hn, e⟩; exact ⟨n, p.mem_iff.mpr hn, e⟩
    · rintro ⟨n, hn, e⟩; exact ⟨n, p.mem_iff.mp hn, e⟩
  fresh := fun n hn => w.fresh n (p.mem_iff.mp hn)

theorem WF.brk_mono {l : List dnode} {h : genhash_t} {b b1 : Ptr} (w : WF l h b)
    (hb : b ≤ b1) : WF l h b1 :=
  { w with fresh := fun n hn => lt_of_lt_of_le (w.fresh n hn) hb }

theorem WF.nil (b : Ptr) : WF [] (fun _ => none) b where
  addr_nodup := by simp
  key_nodup := by simp
  hash_list := by simp
  fresh := by simp

theorem addr_inj {l : List dnode} {h : genhash_t} {b : Ptr} (w : WF l h b) {m n : dnode}
    (hm : m ∈ l) (hn : n ∈ l) (e : m.addr = n.addr) : m = n :=
  List.inj_on_of_nodup_map w.addr_nodup hm hn e

theorem key_inj {l : List dnode} {h : genhash_t} {b : Ptr} (w : WF l h b) {m n : dnode}
    (hm : m ∈ l) (hn : n ∈ l) (e : m.item.key = n.item.key) : m = n :=
  List.inj_on_of_nodup_map w.key_nodup hm hn e

/-- Linking a new item under a key the index does not hold. -/
theorem WF.link {l : List dnode} {h : genhash_t} {b : Ptr} (w : WF l h b)
    {k : Key} (hk : h k = none) (it : topkey_item) (hit : it.key = k) :
    WF (⟨b, it⟩ :: l) (genhash_update h k b) (b + 1) where
  addr_nodup := by
    simp only [List.map_cons, List.nodup_cons, List.mem_map, not_exists, not_and]
    refine ⟨fun n hn e => ?_, w.addr_nodup⟩
    have h1 : n.addr < b := w.fresh n hn
    exact absurd e (Nat.ne_of_lt h1)
  key_nodup := by
    simp only [List.map_cons, List.nodup_cons, List.mem_map, not_exists, not_and]
    refine ⟨fun n hn e => ?_, w.key_nodup⟩
    have : h k = some n.addr := (w.hash_list k n.addr).mpr ⟨n, hn, rfl, by rw [e, hit]⟩
    rw [hk] at this
    cases this
  hash_list := by
    intro k1 a
    simp only [genhash_update, List.mem_cons, exists_eq_or_imp]
    by_cases e : k1 = k
    · subst e
      simp only [if_true, Option.some.injEq, hit, and_true]
      constructor
      · intro e; exact Or.inl e
      · rintro (e | ⟨n, hn, -, e2⟩)
        · exact e
        · have : h k1 = some n.addr := (w.hash_list k1 n.addr).mpr ⟨n, hn, rfl, e2⟩
          rw [hk] at this
          cases this
    · simp only [if_neg e, w.hash_list]
      constructor
      · rintro ⟨n, hn, e1⟩; exact Or.inr ⟨n, hn, e1⟩
      · rintro (⟨-, e2⟩ | ⟨n, hn, e1⟩)
        · exact absurd (hit ▸ e2).symm e
        · exact ⟨n, hn, e1⟩
  fresh := by
    intro n hn
    rcases List.mem_cons.mp hn with rfl | hn
    · exact Nat.lt_succ_self _
    · exact Nat.lt_succ_of_lt (w.fresh n hn)

/-- Unlinking an item and dropping its key from the index. -/
theorem WF.unlink {l : List dnode} {h : genhash_t} {b : Ptr} (w : WF l h b)
    {n : dnode} (hn : n ∈ l) :
    WF (dlist_remove l n.addr) (genhash_delete h n.item.key) b where
  addr_nodup := (w.addr_nodup.sublist ((List.filter_sublist l).map _))
  key_nodup := (w.key_nodup.sublist ((List.filter_sublist l).map _))
  hash_list := by
    intro k a
    simp only [genhash_delete, mem_dlist_remove]
    by_cases e : k = n.item.key
    · subst e
      simp only [if_true]
      constructor
      · intro h1; cases h1
      · rintro ⟨m, ⟨hm, hne⟩, -, e2⟩
        exact absurd (congrArg dnode.addr (key_inj w hm hn e2)) hne
    · simp only [if_neg e, w.hash_list]
      constructor
      · rintro ⟨m, hm, e1, e2⟩
        refine ⟨m, ⟨hm, fun e3 => ?_⟩, e1, e2⟩
        have := addr_inj w hm hn e3
        subst this
        exact e e2.symm
      · rintro ⟨m, ⟨hm, -⟩, e1⟩; exact ⟨m, hm, e1⟩
  fresh := fun m hm => w.fresh m (mem_dlist_remove.mp hm).1

/-- Relinking an item (same address, same key, other fields changed). -/
theorem WF.relink {l : List dnode} {h : genhash_t} {b : Ptr} (w : WF l h b)
    {n : dnode} (hn : n ∈ l) (it : topkey_item) (hit : it.key = n.item.key) :
    WF (⟨n.addr, it⟩ :: dlist_remove l n.addr) h b where
  addr_nodup := by
    simp only [List.map_cons, List.nodup_cons, List.mem_map, not_exists, not_and]
    exact ⟨fun m hm e => (mem_dlist_remove.mp hm).2 e,
      w.addr_nodup.sublist ((List.filter_sublist l).map _)⟩
  key_nodup := by
    simp only [List.map_cons, List.nodup_cons, List.mem_map, not_exists, not_and]
    refine ⟨fun m hm e => ?_, w.key_nodup.sublist ((List.filter_sublist l).map _)⟩
    have hm1 := mem_dlist_remove.mp hm
    exact hm1.2 (congrArg dnode.addr (key_inj w hm1.1 hn (e.trans hit)))
  hash_list := by
    intro k a
    rw [w.hash_list]
    simp only [List.mem_cons, exists_eq_or_imp, mem_dlist_remove]
    constructor
    · rintro ⟨m, hm, e1, e2⟩
      by_cases e : m.addr = n.addr
      · have := addr_inj w hm hn e
        subst this
        exact Or.inl ⟨e1, hit.trans e2⟩
      · exact Or.inr ⟨m, ⟨hm, e⟩, e1, e2⟩
    · rintro (⟨e1, e2⟩ | ⟨m, ⟨hm, -⟩, e1⟩)
      · exact ⟨n, hn, e1, hit.symm.trans e2⟩
      · exact ⟨m, hm, e1⟩
  fresh := by
    intro m hm
    rcases List.mem_cons.mp hm with rfl | hm
    · exact w.fresh n hn
    · exact w.fresh m (mem_dlist_remove.mp hm).1

theorem item_delete_eq (p : Policy) {tk : topkeys_t} (w : tk.wf) {n : dnode} (hn : n ∈ tk.list) :
    topkeys_item_delete p tk (.item n.addr) =
      some { tk with
        hash := genhash_delete tk.hash n.item.key
        list := dlist_remove tk.list n.addr
        nkeys := if p = .LC then tk.nkeys else tk.nkeys - 1 } := by
  simp only [topkeys_item_delete, deref_of_mem hn w.addr_nodup]

theorem find_some_iff {tk : topkeys_t} (w : tk.wf) {k : Key} {a : Ptr} :
    genhash_find tk.hash k = some a ↔ ∃ n ∈ tk.list, n.addr = a ∧ n.item.key = k :=
  w.hash_list k a

theorem find_deref {tk : topkeys_t} (w : tk.wf) {k : Key} {a : Ptr}
    (h : genhash_find tk.hash k = some a) :
    ∃ n, deref tk.list a = some n ∧ n ∈ tk.list ∧ n.addr = a ∧ n.item.key = k := by
  obtain ⟨n, hn, e1, e2⟩ := (find_some_iff w).mp h
  exact ⟨n, e1 ▸ deref_of_mem hn w.addr_nodup, hn, e1, e2⟩

@[simp] theorem Call.item_key (c : Call) : c.item.key = c.key := rfl

theorem item_init_some {c : Call} {it : topkey_item}
    (h : topkey_item_init c.key c.ctime c.calloc = some it) : c.ok ∧ it = c.item := by
  unfold topkey_item_init at h
  split at h
  · rename_i hc
    exact ⟨⟨hc.2, hc.1⟩, by simpa [Call.item] using h.symm⟩
  · cases h

theorem item_init_ok {c : Call} (h : c.ok) :
    topkey_item_init c.key c.ctime c.calloc = some c.item := by
  unfold topkey_item_init
  rw [if_pos ⟨h.2, h.1⟩]
  rfl

/-- What a returning call of the default variant does. -/
theorem recency_spec {tk tk1 : topkeys_t} {c : Call} {r : Ref} (w : tk.wf)
    (h : topkeys_recency tk c = some (tk1, r)) :
    (∃ n ∈ tk.list, n.item.key = c.key ∧ tk.hash c.key = some n.addr ∧ r = .item n.addr ∧
        tk1 = { tk with list := n :: dlist_remove tk.list n.addr }) ∨
    (tk.hash c.key = none ∧ c.ok ∧ r = .item tk.brk ∧ tk.nkeys + 1 ≤ tk.max_keys ∧
        tk1 = { tk with
          brk := tk.brk + 1
          nkeys := tk.nkeys + 1
          hash := genhash_update tk.hash c.key tk.brk
          list := ⟨tk.brk, c.item⟩ :: tk.list }) ∨
    (tk.hash c.key = none ∧ c.ok ∧ r = .item tk.brk ∧ tk.max_keys < tk.nkeys + 1 ∧
      ∃ n, tk.list.getLast? = some n ∧
        tk1 = { tk with
          brk := tk.brk + 1
          nkeys := tk.nkeys + 1 - 1
          hash := genhash_update (genhash_delete tk.hash n.item.key) c.key tk.brk
          list := ⟨tk.brk, c.item⟩ :: dlist_remove tk.list n.addr }) := by
  unfold topkeys_recency at h
  cases hf : genhash_find tk.hash c.key with
  | some a =>
    obtain ⟨n, hd, hn, e1, e2⟩ := find_deref w hf
    rw [hf] at h
    simp only [hd, dlist_insert_after, Option.some.injEq, Prod.mk.injEq] at h
    left
    subst e1
    exact ⟨n, hn, e2, hf, h.2.symm, h.1.symm⟩
  | none =>
    rw [hf] at h
    right
    cases hi : topkey_item_init c.key c.ctime c.calloc with
    | none => rw [hi] at h; cases h
    | some it =>
      obtain ⟨hc, rfl⟩ := item_init_some hi
      rw [hi] at h
      simp only [] at h
      by_cases hcap : tk.nkeys + 1 > tk.max_keys
      · right
        rw [if_pos hcap] at h
        cases hl : tk.list.getLast? with
        | none =>
          simp [topkeys_tail, hl, topkeys_item_delete] at h
        | some n =>
          have hn : n ∈ tk.list := List.mem_of_getLast?_eq_some hl
          have hw1 : topkeys_t.wf { tk with brk := tk.brk + 1, nkeys := tk.nkeys + 1 } :=
            WF.brk_mono w (Nat.le_succ _)
          have hd := item_delete_eq .LRU hw1 hn
          simp only [topkeys_tail, hl] at h
          rw [hd] at h
          simp only [dlist_insert_after, Option.some.injEq, Prod.mk.injEq] at h
          refine ⟨hf, hc, h.2.symm, by omega, n, rfl, ?_⟩
          rw [← h.1]
          simp
      · left
        rw [if_neg hcap] at h
        simp only [dlist_insert_after, Option.some.injEq, Prod.mk.injEq] at h
        exact ⟨hf, hc, h.2.symm, by omega, h.1.symm⟩

theorem mem_last_occurrences {ks : List Key} {k : Key} : k ∈ last_occurrences ks ↔ k ∈ ks := by
  induction ks with
  | nil => simp [last_occurrences]
  | cons h t ih =>
    simp only [last_occurrences]
    split
    · rename_i hm
      rw [ih, List.mem_cons]
      constructor
      · exact Or.inr
      · rintro (rfl | h1)
        · exact hm
        · exact h1
    · simp [ih]

theorem last_occurrences_nodup (ks : List Key) : (last_occurrences ks).Nodup := by
  induction ks with
  | nil => simp [last_occurrences]
  | cons h t ih =>
    simp only [last_occurrences]
    split
    · exact ih
    · rename_i hm
      exact List.nodup_cons.mpr ⟨fun h1 => hm (mem_last_occurrences.mp h1), ih⟩

theorem last_occurrences_cons (h : Key) (t : List Key) :
    last_occurrences (h :: t) = if h ∈ t then last_occurrences t else h :: last_occurrences t :=
  rfl

theorem last_occurrences_snoc (ks : List Key) (k : Key) :
    last_occurrences (ks ++ [k]) = (last_occurrences ks).filter (fun x => x ≠ k) ++ [k] := by
  induction ks with
  | nil => simp [last_occurrences]
  | cons h t ih =>
    rw [List.cons_append, last_occurrences_cons, last_occurrences_cons, ih]
    by_cases hk : h = k
    · subst hk
      rw [if_pos (by simp)]
      split
      · rfl
      · rw [List.filter_cons_of_neg (by simp)]
    · by_cases ht : h ∈ t
      · rw [if_pos (by simp [ht]), if_pos ht]
      · rw [if_neg (by simp [ht, hk]), if_neg ht,
          List.filter_cons_of_pos (by simpa using hk), List.cons_append]

theorem recency_order_snoc (ks : List Key) (k : Key) :
    recency_order (ks ++ [k]) = k :: (recency_order ks).filter (fun x => x ≠ k) := by
  unfold recency_order
  rw [last_occurrences_snoc, List.reverse_append, List.filter_reverse]
  rfl

theorem recency_order_nodup (ks : List Key) : (recency_order ks).Nodup :=
  List.nodup_reverse.mpr (last_occurrences_nodup ks)

theorem filter_ne_self {α : Type} [DecidableEq α] {k : α} {l : List α} (h : k ∉ l) :
    l.filter (fun x => x ≠ k) = l := by
  rw [List.filter_eq_self]
  intro x hx
  have : x ≠ k := fun e => h (e ▸ hx)
  simpa using this

theorem take_filter_of_not_mem {k : Key} : ∀ (n : Nat) (R : List Key), k ∉ R.take n →
    (R.filter (fun x => x ≠ k)).take n = R.take n
  | 0, _, _ => by simp
  | _ + 1, [], _ => by simp
  | n + 1, h :: t, hk => by
    simp only [List.take_succ_cons, List.mem_cons, not_or] at hk
    have hne : h ≠ k := fun e => hk.1 e.symm
    rw [List.filter_cons_of_pos (by simpa using hne), List.take_succ_cons, List.take_succ_cons,
      take_filter_of_not_mem n t hk.2]

theorem take_filter_of_mem {k : Key} : ∀ (n : Nat) (R : List Key), R.Nodup → k ∈ R.take (n + 1) →
    (R.filter (fun x => x ≠ k)).take n = (R.take (n + 1)).filter (fun x => x ≠ k)
  | _, [], _, hk => by simp at hk
  | n, h :: t, hnd, hk => by
    simp only [List.take_succ_cons, List.mem_cons] at hk
    rw [List.nodup_cons] at hnd
    by_cases e : h = k
    · subst e
      have h2 : h ∉ t.take n := fun hx => hnd.1 (List.mem_of_mem_take hx)
      rw [List.take_succ_cons, List.filter_cons_of_neg (by simp),
        List.filter_cons_of_neg (by simp), filter_ne_self hnd.1, filter_ne_self h2]
    · have hk1 : k ∈ t.take n := by
        rcases hk with e1 | e1
        · exact absurd e1.symm e
        · exact e1
      cases n with
      | zero => simp at hk1
      | succ m =>
        rw [List.take_succ_cons, List.filter_cons_of_pos (by simpa using e),
          List.filter_cons_of_pos (by simpa using e), List.take_succ_cons,
          take_filter_of_mem m t hnd.2 hk1]

theorem dlist_remove_last {l : List dnode} {n : dnode}
    (hnd : (l.map (fun m => m.addr)).Nodup) (hl : l.getLast? = some n) :
    dlist_remove l n.addr = l.dropLast := by
  obtain ⟨l0, rfl⟩ : ∃ l0, l = l0 ++ [n] := by
    rcases List.eq_nil_or_concat l with rfl | ⟨l0, m, rfl⟩
    · simp at hl
    · simp only [List.concat_eq_append, List.getLast?_append, List.getLast?_singleton,
        Option.or_some, Option.some.injEq] at hl
      exact ⟨l0, by simp [hl]⟩
  simp only [List.map_append, List.map_cons, List.map_nil] at hnd
  have hd := (List.nodup_append.mp hnd).2.2
  have h0 : l0.filter (fun m => m.addr ≠ n.addr) = l0 := by
    rw [List.filter_eq_self]
    intro m hm
    have : m.addr ≠ n.addr := fun e =>
      hd (List.mem_map.mpr ⟨m, hm, rfl⟩) (by simp [e])
    simpa using this
  unfold dlist_remove
  rw [List.filter_append, h0, List.filter_cons_of_neg (by simp), List.filter_nil,
    List.append_nil, List.dropLast_concat]

theorem keys_dlist_remove {l : List dnode} {h : genhash_t} {b : Ptr} (w : WF l h b)
    {n : dnode} (hn : n ∈ l) :
    (dlist_remove l n.addr).map (fun m => m.item.key) =
      (l.map (fun m => m.item.key)).filter (fun x => x ≠ n.item.key) := by
  rw [List.filter_map, dlist_remove]
  congr 1
  apply List.filter_congr
  intro m hm
  simp only [ne_eq, decide_not, Function.comp_apply, Bool.not_eq_eq_eq_not, Bool.not_not,
    decide_eq_decide]
  constructor
  · intro e; exact congrArg (fun x => x.item.key) (addr_inj w hm hn e)
  · intro e; exact congrArg dnode.addr (key_inj w hm hn e)

theorem recency_total {tk : topkeys_t} {c : Call} (w : tk.wf) (hc : c.ok)
    (hcount : tk.nkeys = tk.list.length) (hcap : 1 ≤ tk.max_keys) :
    ∃ tk1 r, topkeys_recency tk c = some (tk1, r) := by
  unfold topkeys_recency
  cases hf : genhash_find tk.hash c.key with
  | some a =>
    obtain ⟨n, hd, -⟩ := find_deref w hf
    simp only [hd]
    exact ⟨_, _, rfl⟩
  | none =>
    simp only [item_init_ok hc]
    by_cases hfull : tk.nkeys + 1 > tk.max_keys
    · rw [if_pos hfull]
      cases hl : tk.list.getLast? with
      | none =>
        rw [List.getLast?_eq_none_iff] at hl
        rw [hl] at hcount
        simp only [List.length_nil, Nat.cast_zero] at hcount
        omega
      | some n =>
        have hn : n ∈ tk.list := List.mem_of_getLast?_eq_some hl
        have hw1 : topkeys_t.wf { tk with brk := tk.brk + 1, nkeys := tk.nkeys + 1 } :=
          WF.brk_mono w (Nat.le_succ _)
        have hd := item_delete_eq .LRU hw1 hn
        simp only [topkeys_tail, hl]
        rw [hd]
        exact ⟨_, _, rfl⟩
    · rw [if_neg hfull]
      exact ⟨_, _, rfl⟩

theorem not_mem_keys_of_find_none {tk : topkeys_t} (w : tk.wf) {k : Key}
    (h : tk.hash k = none) : k ∉ list_keys tk := by
  intro hk
  obtain ⟨n, hn, e⟩ := List.mem_map.mp hk
  have : tk.hash k = some n.addr := (w.hash_list k n.addr).mpr ⟨n, hn, rfl, e⟩
  rw [h] at this
  cases this

theorem recency_step {tk tk1 : topkeys_t} {c : Call} {r : Ref} {hist : List Call}
    (inv : RecencyInv tk hist) (hcap : 1 ≤ tk.max_keys)
    (h : topkeys_recency tk c = some (tk1, r)) :
    RecencyInv tk1 (hist ++ [c]) ∧ tk1.max_keys = tk.max_keys := by
  obtain ⟨cap, hcapeq⟩ : ∃ cap : Nat, tk.max_keys = (cap : Int) + 1 :=
    ⟨(tk.max_keys - 1).toNat, by omega⟩
  have hord := inv.order
  have hcount := inv.count
  have hbound := inv.bound
  rw [hcapeq] at hord hbound
  have htn : ((cap : Int) + 1).toNat = cap + 1 := by omega
  rw [htn] at hord
  have hR := recency_order_nodup (hist.map (fun c => c.key))
  have hgoal : (recency_order ((hist ++ [c]).map (fun c => c.key))).take (cap + 1) =
      c.key :: ((recency_order (hist.map (fun c => c.key))).filter (fun x => x ≠ c.key)).take cap := by
    rw [List.map_append, List.map_cons, List.map_nil, recency_order_snoc, List.take_succ_cons]
  rcases recency_spec inv.wf h with ⟨n, hn, hk, -, -, rfl⟩ | ⟨hf, hc, -, hle, rfl⟩ |
    ⟨hf, hc, -, hlt, n, hl, rfl⟩
  · refine ⟨⟨inv.wf.relink hn n.item rfl, ?_, inv.bound, ?_⟩, rfl⟩
    · have h1 : (dlist_remove tk.list n.addr).length + 1 = tk.list.length := by
        have := (inv.wf.relink hn n.item rfl).addr_nodup
        have hp : (n :: dlist_remove tk.list n.addr).Perm tk.list := by
          rw [List.perm_ext_iff_of_nodup (List.Nodup.of_map _ this) (List.Nodup.of_map _ inv.wf.addr_nodup)]
          intro m
          simp only [List.mem_cons, mem_dlist_remove]
          constructor
          · rintro (rfl | ⟨hm, -⟩)
            · exact hn
            · exact hm
          · intro hm
            by_cases e : m.addr = n.addr
            · exact Or.inl (addr_inj inv.wf hm hn e)
            · exact Or.inr ⟨hm, e⟩
        simpa using hp.length_eq
      simp only [List.length_cons]
      rw [hcount]
      exact_mod_cast h1.symm
    · have hkm : c.key ∈ (recency_order (hist.map (fun c => c.key))).take (cap + 1) := by
        rw [← hord, ← hk]
        exact List.mem_map.mpr ⟨n, hn, rfl⟩
      simp only [list_keys, List.map_cons]
      rw [hcapeq, htn, hgoal, take_filter_of_mem cap _ hR hkm, ← hord, hk]
      congr 1
      rw [← hk]
      exact keys_dlist_remove inv.wf hn
  · have hw : WF (⟨tk.brk, c.item⟩ :: tk.list) (genhash_update tk.hash c.key tk.brk) (tk.brk + 1) :=
      inv.wf.link hf _ rfl
    refine ⟨⟨hw, ?_, hle, ?_⟩, rfl⟩
    · simp only [List.length_cons, Nat.cast_add, Nat.cast_one]
      rw [hcount]
    · have hnk : c.key ∉ list_keys tk := not_mem_keys_of_find_none inv.wf hf
      have hlen : (list_keys tk).length ≤ cap := by
        simp only [list_keys, List.length_map]
        omega
      have hRlen : (recency_order (hist.map (fun c => c.key))).length ≤ cap := by
        by_contra hcon
        have : (list_keys tk).length = cap + 1 := by
          rw [hord, List.length_take]
          omega
        omega
      have hRe : list_keys tk = recency_order (hist.map (fun c => c.key)) := by
        rw [hord, List.take_of_length_le (by omega)]
      simp only [list_keys, List.map_cons]
      rw [hcapeq, htn, hgoal]
      congr 1
      rw [← hRe, filter_ne_self hnk, List.take_of_length_le hlen]
      rfl
  · have hn : n ∈ tk.list := List.mem_of_getLast?_eq_some hl
    have hw : WF (⟨tk.brk, c.item⟩ :: dlist_remove tk.list n.addr)
        (genhash_update (genhash_delete tk.hash n.item.key) c.key tk.brk) (tk.brk + 1) :=
      (inv.wf.unlink hn).link (by simp [genhash_delete, hf]) _ rfl
    have hlen : tk.list.length = cap + 1 := by omega
    have hrm : dlist_remove tk.list n.addr = tk.list.dropLast :=
      dlist_remove_last inv.wf.addr_nodup hl
    refine ⟨⟨hw, ?_, ?_, ?_⟩, rfl⟩
    · simp only [List.length_cons, Nat.cast_add, Nat.cast_one]
      rw [hrm, List.length_dropLast, hlen, hcount, hlen]
      simp
    · simp only
      omega
    · have hnk : c.key ∉ list_keys tk := not_mem_keys_of_find_none inv.wf hf
      have hnk1 : c.key ∉ (recency_order (hist.map (fun c => c.key))).take cap := by
        intro hm
        apply hnk
        rw [hord]
        have e : (recency_order (hist.map (fun c => c.key))).take cap =
            ((recency_order (hist.map (fun c => c.key))).take (cap + 1)).take cap := by
          rw [List.take_take, Nat.min_eq_left (Nat.le_succ cap)]
        rw [e] at hm
        exact List.mem_of_mem_take hm
      simp only [list_keys, List.map_cons]
      rw [hcapeq, htn, hgoal, take_filter_of_not_mem cap _ hnk1, hrm]
      congr 1
      have : (tk.list.dropLast).map (fun m => m.item.key) = (list_keys tk).dropLast := by
        simp [list_keys, List.map_dropLast]
      have hlk : (list_keys tk).length = cap + 1 := by simp [list_keys, hlen]
      rw [this, List.dropLast_eq_take, hlk, hord, List.take_take]
      simp

/-- An invariant of the calls is an invariant of `run`. -/
theorem run_invariant {cfg : Config} (P : topkeys_t → List Call → Prop)
    (hstep : ∀ tk hist c tk1 r, P tk hist → topkeys_item_get_or_create cfg tk c = some (tk1, r) →
      P tk1 (hist ++ [c])) :
    ∀ (calls : List Call) (tk : topkeys_t) (hist : List Call) (tk1 : topkeys_t),
      P tk hist → run cfg tk calls = some tk1 → P tk1 (hist ++ calls)
  | [], tk, hist, tk1, hp, h => by
    simp only [run, Option.some.injEq] at h
    subst h
    simpa using hp
  | c :: cs, tk, hist, tk1, hp, h => by
    simp only [run] at h
    cases hs : topkeys_item_get_or_create cfg tk c with
    | none => rw [hs] at h; cases h
    | some res =>
      obtain ⟨tk2, r⟩ := res
      rw [hs] at h
      have := run_invariant P hstep cs tk2 (hist ++ [c]) tk1 (hstep tk hist c tk2 r hp hs) h
      simpa using this

/-- When every served call returns under the invariant, `run` returns. -/
theorem run_total {cfg : Config} (P : topkeys_t → List Call → Prop)
    (hstep : ∀ tk hist c tk1 r, P tk hist → topkeys_item_get_or_create cfg tk c = some (tk1, r) →
      P tk1 (hist ++ [c]))
    (htot : ∀ tk hist c, P tk hist → c.ok → ∃ tk1 r, topkeys_item_get_or_create cfg tk c = some (tk1, r)) :
    ∀ (calls : List Call) (tk : topkeys_t) (hist : List Call),
      P tk hist → (∀ c ∈ calls, c.ok) → ∃ tk1, run cfg tk calls = some tk1
  | [], tk, _, _, _ => ⟨tk, rfl⟩
  | c :: cs, tk, hist, hp, hok => by
    obtain ⟨tk2, r, hs⟩ := htot tk hist c hp (hok c (List.mem_cons_self _ _))
    obtain ⟨tk1, h1⟩ := run_total P hstep htot cs tk2 (hist ++ [c]) (hstep tk hist c tk2 r hp hs)
      (fun d hd => hok d (List.mem_cons_of_mem _ hd))
    exact ⟨tk1, by simp only [run, hs, h1]⟩

theorem init_some (cfg : Config) (max_keys : Int) (hcap : 1 ≤ max_keys) :
    ∃ tk, topkeys_init cfg max_keys true true true = some tk ∧ tk.list = [] ∧
      tk.hash = (fun _ => none) ∧ tk.nkeys = 0 ∧ tk.max_keys = max_keys ∧ tk.N = 0 ∧
      tk.delta = 0 ∧ tk.brk = 0 ∧
      (cfg.policy = .CSM → tk.csm.cm = fun _ _ => 0) := by
  unfold topkeys_init
  by_cases hp : cfg.policy = .CSM
  · simp [hp, csm_init, genhash_init, hcap]
  · simp [hp, genhash_init, hcap]

theorem init_cap {cfg : Config} {max_keys : Int} {a b c : Bool} {tk : topkeys_t}
    (h : topkeys_init cfg max_keys a b c = some tk) : 1 ≤ max_keys := by
  by_contra hcap
  have hg : genhash_init max_keys c = none := by simp [genhash_init, hcap]
  unfold topkeys_init at h
  rw [hg] at h
  by_cases ha : a = true
  · rw [if_pos ha] at h
    cases hc : (if cfg.policy = .CSM then csm_init cfg b
        else some ({ hash := fun _ => 0, cm := fun _ _ => 0 } : csm_t)) with
    | none => simp only [hc] at h; cases h
    | some s => simp only [hc] at h; cases h
  · rw [if_neg ha] at h
    cases h

theorem reach_cap {cfg : Config} {max_keys : Int} {calls : List Call} {tk : topkeys_t}
    (h : reach cfg max_keys calls = some tk) : 1 ≤ max_keys := by
  unfold reach at h
  cases h0 : topkeys_init cfg max_keys true true true with
  | none => rw [h0] at h; cases h
  | some tk0 => exact init_cap h0

theorem init_wf {cfg : Config} {max_keys : Int} {tk : topkeys_t}
    (h : topkeys_init cfg max_keys true true true = some tk) : tk.wf := by
  obtain ⟨tk0, h0, hl, hh, -, -, -, -, hb, -⟩ := init_some cfg max_keys (init_cap h)
  rw [h0] at h
  cases h
  unfold topkeys_t.wf
  rw [hl, hh]
  exact WF.nil _

/-- C1: under the default (recency) variant with capacity at least 1, after any
sequence of served calls on a new tracker the order list, read head to tail, is
the list of the distinct keys of the sequence ordered by most recent access,
most recent first, cut to its first `max_keys` entries. -/
theorem recency_list_is_recency_order (D W : Nat) (max_keys : Int) (calls : List Call)
    (hcap : 1 ≤ max_keys) (hok : ∀ c ∈ calls, c.ok) :
    ∃ tk, reach ⟨.LRU, D, W⟩ max_keys calls = some tk ∧
      list_keys tk = (recency_order (calls.map (fun c => c.key))).take max_keys.toNat := by
  obtain ⟨tk0, h0, hl, hh, hn, hm, -, -, hb, -⟩ := init_some ⟨.LRU, D, W⟩ max_keys hcap
  have hw0 := init_wf h0
  let P : topkeys_t → List Call → Prop := fun tk hist => RecencyInv tk hist ∧ tk.max_keys = max_keys
  have hP0 : P tk0 [] := by
    refine ⟨⟨hw0, ?_, ?_, ?_⟩, hm⟩
    · rw [hn, hl]; rfl
    · rw [hn, hm]; omega
    · simp [list_keys, hl, recency_order, last_occurrences]
  have hstep : ∀ tk hist c tk1 r, P tk hist →
      topkeys_item_get_or_create ⟨.LRU, D, W⟩ tk c = some (tk1, r) → P tk1 (hist ++ [c]) := by
    intro tk hist c tk1 r hp hs
    have := recency_step hp.1 (by rw [hp.2]; exact hcap) hs
    exact ⟨this.1, this.2.trans hp.2⟩
  have htot : ∀ tk hist c, P tk hist → c.ok →
      ∃ tk1 r, topkeys_item_get_or_create ⟨.LRU, D, W⟩ tk c = some (tk1, r) := by
    intro tk hist c hp hc
    exact recency_total hp.1.wf hc hp.1.count (by rw [hp.2]; exact hcap)
  obtain ⟨tk, ht⟩ := run_total P hstep htot calls tk0 [] hP0 hok
  have hP := run_invariant P hstep calls tk0 [] tk hP0 ht
  refine ⟨tk, ?_, ?_⟩
  · simp only [reach, h0, ht]
  · have := hP.1.order
    rw [hP.2] at this
    simpa using this

theorem recency_list_is_recency_order_witness :
    (1 : Int) ≤ 2 ∧
    (∀ c ∈ [(⟨[97], 1, true, 0⟩ : Call), ⟨[98], 2, true, 0⟩, ⟨[99], 3, true, 0⟩], c.ok) ∧
    ∃ tk, reach ⟨.LRU, 0, 0⟩ 2 [⟨[97], 1, true, 0⟩, ⟨[98], 2, true, 0⟩, ⟨[99], 3, true, 0⟩] = some tk ∧
      list_keys tk =
        (recency_order ([(⟨[97], 1, true, 0⟩ : Call), ⟨[98], 2, true, 0⟩, ⟨[99], 3, true, 0⟩].map
          (fun c => c.key))).take (2 : Int).toNat :=
  ⟨by decide, by decide,
    recency_list_is_recency_order 0 0 2 [⟨[97], 1, true, 0⟩, ⟨[98], 2, true, 0⟩, ⟨[99], 3, true, 0⟩]
      (by decide) (by decide)⟩

/-- The scenario of C1: capacity 2 and accesses a, b, c leave exactly c, b. -/
theorem recency_scenario :
    (reach ⟨.LRU, 0, 0⟩ 2 [⟨[97], 1, true, 0⟩, ⟨[98], 2, true, 0⟩, ⟨[99], 3, true, 0⟩]).map list_keys
      = some [[99], [98]] := by
  decide

/-! ## What a returning call does: Space-Saving -/


theorem deref_head (p : dnode) (t : List dnode) : deref (p :: t) p.addr = some p := by
  simp [deref]

theorem dlist_remove_head {p : dnode} {t : List dnode}
    (hnd : ((p :: t).map (fun m => m.addr)).Nodup) : dlist_remove (p :: t) p.addr = t := by
  simp only [List.map_cons, List.nodup_cons, List.mem_map, not_exists, not_and] at hnd
  unfold dlist_remove
  rw [List.filter_cons_of_neg (by simp), List.filter_eq_self]
  intro m hm
  have : m.addr ≠ p.addr := fun e => hnd.1 m hm e
  simpa using this

theorem genhash_delete_update {h : genhash_t} {k k1 : Key} {a : Ptr} (hne : k1 ≠ k) :
    genhash_delete (genhash_update h k a) k1 = genhash_update (genhash_delete h k1) k a := by
  funext x
  simp only [genhash_delete, genhash_update]
  by_cases e1 : x = k1
  · subst e1
    simp [hne]
  · simp [e1]

theorem head_key_ne {tk : topkeys_t} (w : tk.wf) {k : Key} (hf : tk.hash k = none)
    {p : dnode} (hp : p ∈ tk.list) : p.item.key ≠ k := by
  intro e
  have : tk.hash k = some p.addr := (w.hash_list k p.addr).mpr ⟨p, hp, rfl, e⟩
  rw [hf] at this
  cases this

/-- What a returning call of `topkeys_space_saving` does. -/
theorem space_saving_spec {tk tk1 : topkeys_t} {c : Call} {r : Ref} (w : tk.wf)
    (h : topkeys_space_saving tk c = some (tk1, r)) :
    (∃ n ∈ tk.list, n.item.key = c.key ∧ tk.hash c.key = some n.addr ∧ r = .item n.addr ∧
        tk1 = { tk with
          N := tk.N + 1
          list := insert_by_counter ⟨n.addr, { n.item with counter := n.item.counter + 1 }⟩
            (dlist_remove tk.list n.addr) }) ∨
    (tk.hash c.key = none ∧ c.ok ∧ r = .item tk.brk ∧ tk.nkeys + 1 ≤ tk.max_keys ∧
        tk1 = { tk with
          N := tk.N + 1
          brk := tk.brk + 1
          nkeys := tk.nkeys + 1
          hash := genhash_update tk.hash c.key tk.brk
          list := insert_by_counter ⟨tk.brk, { c.item with counter := 1 }⟩ tk.list }) ∨
    (tk.hash c.key = none ∧ c.ok ∧ r = .item tk.brk ∧ tk.max_keys < tk.nkeys + 1 ∧
      ∃ p t, tk.list = p :: t ∧
        tk1 = { tk with
          N := tk.N + 1
          brk := tk.brk + 1
          nkeys := tk.nkeys + 1 - 1
          hash := genhash_update (genhash_delete tk.hash p.item.key) c.key tk.brk
          list := insert_by_counter
            ⟨tk.brk, { c.item with error_value := p.item.counter, counter := p.item.counter + 1 }⟩
            t }) := by
  unfold topkeys_space_saving at h
  cases hf : genhash_find tk.hash c.key with
  | some a =>
    obtain ⟨n, hd, hn, e1, e2⟩ := find_deref w hf
    rw [hf] at h
    simp only [hd, Option.some.injEq, Prod.mk.injEq] at h
    left
    subst e1
    exact ⟨n, hn, e2, hf, h.2.symm, h.1.symm⟩
  | none =>
    rw [hf] at h
    right
    cases hi : topkey_item_init c.key c.ctime c.calloc with
    | none => rw [hi] at h; cases h
    | some it =>
      obtain ⟨hc, rfl⟩ := item_init_some hi
      rw [hi] at h
      simp only [] at h
      by_cases hcap : tk.nkeys + 1 ≤ tk.max_keys
      · left
        rw [if_pos hcap] at h
        simp only [Option.some.injEq, Prod.mk.injEq, Call.item_key] at h
        exact ⟨hf, hc, h.2.symm, hcap, h.1.symm⟩
      · right
        rw [if_neg hcap] at h
        cases hl : tk.list with
        | nil => simp [hl] at h
        | cons p t =>
          simp only [hl, topkeys_item_delete, deref_head, Option.some.injEq, Prod.mk.injEq,
            Call.item_key] at h
          have hnd : ((p :: t).map (fun m => m.addr)).Nodup := hl ▸ w.addr_nodup
          have hne : p.item.key ≠ c.key := head_key_ne w hf (hl ▸ List.mem_cons_self p t)
          rw [dlist_remove_head hnd, genhash_delete_update hne] at h
          refine ⟨hf, hc, h.2.symm, by omega, p, t, rfl, ?_⟩
          rw [← h.1]
          simp

/-! ## What a returning call does: Count-Min-Sketch -/


/-- What a returning call of `topkeys_count_sketch_min` does. -/
theorem count_sketch_min_spec {cfg : Config} {tk tk1 : topkeys_t} {c : Call} {r : Ref}
    (w : tk.wf) (h : topkeys_count_sketch_min cfg tk c = some (tk1, r)) :
    (∃ n ∈ tk.list, n.item.key = c.key ∧ tk.hash c.key = some n.addr ∧ r = .item n.addr ∧
        tk1 = { tk with
          csm := add_count cfg tk.csm c.key
          N := tk.N + 1
          list := insert_by_counter ⟨n.addr, { n.item with counter := n.item.counter + 1 }⟩
            (dlist_remove tk.list n.addr) }) ∨
    (tk.hash c.key = none ∧ c.ok ∧ r = .item tk.brk ∧ tk.nkeys + 1 < tk.max_keys ∧
        tk1 = { tk with
          csm := add_count cfg tk.csm c.key
          N := tk.N + 1
          brk := tk.brk + 1
          nkeys := tk.nkeys + 1
          hash := genhash_update tk.hash c.key tk.brk
          list := insert_by_counter
            ⟨tk.brk, { c.item with counter := estimate_count cfg (add_count cfg tk.csm c.key) c.key }⟩
            tk.list }) ∨
    (tk.hash c.key = none ∧ c.ok ∧ r = .item tk.brk ∧ tk.max_keys ≤ tk.nkeys + 1 ∧
      ∃ p t, tk.list = p :: t ∧ p.item.counter < 0 ∧
        tk1 = { tk with
          csm := add_count cfg tk.csm c.key
          N := tk.N + 1
          brk := tk.brk + 1
          nkeys := tk.nkeys + 1 - 1
          hash := genhash_update (genhash_delete tk.hash p.item.key) c.key tk.brk
          list := insert_by_counter
            ⟨tk.brk, { c.item with counter := estimate_count cfg (add_count cfg tk.csm c.key) c.key }⟩
            t }) ∨
    (tk.hash c.key = none ∧ c.ok ∧ r = topkeys_head tk ∧ tk.max_keys ≤ tk.nkeys + 1 ∧
      (∀ p t, tk.list = p :: t → 0 ≤ p.item.counter) ∧ (tk.list = [] → 0 ≤ c.stray) ∧
        tk1 = { tk with
          csm := add_count cfg tk.csm c.key
          N := tk.N + 1
          brk := tk.brk + 1
          nkeys := tk.nkeys + 1 - 1 }) := by
  unfold topkeys_count_sketch_min at h
  cases hf : genhash_find tk.hash c.key with
  | some a =>
    obtain ⟨n, hd, hn, e1, e2⟩ := find_deref w hf
    rw [hf] at h
    simp only [hd, Option.some.injEq, Prod.mk.injEq] at h
    left
    subst e1
    exact ⟨n, hn, e2, hf, h.2.symm, h.1.symm⟩
  | none =>
    rw [hf] at h
    right
    cases hi : topkey_item_init c.key c.ctime c.calloc with
    | none => rw [hi] at h; cases h
    | some it =>
      obtain ⟨hc, rfl⟩ := item_init_some hi
      rw [hi] at h
      simp only [] at h
      by_cases hcap : tk.nkeys + 1 < tk.max_keys
      · left
        rw [if_pos hcap] at h
        simp only [Option.some.injEq, Prod.mk.injEq, Call.item_key] at h
        exact ⟨hf, hc, h.2.symm, hcap, h.1.symm⟩
      · right
        rw [if_neg hcap] at h
        have hic : c.item.counter = 0 := rfl
        cases hl : tk.list with
        | nil =>
          right
          simp only [hl, hic] at h
          by_cases hs : c.stray < 0
          · rw [if_pos hs] at h
            simp [topkeys_head, topkeys_item_delete] at h
          · rw [if_neg hs] at h
            simp only [Option.some.injEq, Prod.mk.injEq] at h
            refine ⟨hf, hc, ?_, by omega, ?_, fun _ => by omega, ?_⟩
            · rw [← h.2]; simp [topkeys_head, hl]
            · intro p t e; cases e
            · rw [← h.1]
        | cons p t =>
          simp only [hl, hic] at h
          by_cases hs : p.item.counter < 0
          · left
            rw [if_pos hs] at h
            simp only [topkeys_head, topkeys_item_delete, deref_head, Option.some.injEq,
              Prod.mk.injEq, Call.item_key] at h
            have hnd : ((p :: t).map (fun m => m.addr)).Nodup := hl ▸ w.addr_nodup
            have hne : p.item.key ≠ c.key := head_key_ne w hf (hl ▸ List.mem_cons_self p t)
            rw [dlist_remove_head hnd, genhash_delete_update hne] at h
            refine ⟨hf, hc, h.2.symm, by omega, p, t, rfl, hs, ?_⟩
            rw [← h.1]
            simp
          · right
            rw [if_neg hs] at h
            simp only [Option.some.injEq, Prod.mk.injEq] at h
            refine ⟨hf, hc, ?_, by omega, ?_, ?_, ?_⟩
            · rw [← h.2]; simp [topkeys_head, hl]
            · intro p1 t1 e
              cases e
              omega
            · intro e; cases e
            · rw [← h.1]

/-! ## What a returning call does: Lossy Counting -/

/-- The sweep returns, keeps the tracker well formed and drops exactly the
leading items whose counter is below `delta`. -/
theorem lossy_sweep_spec : ∀ (fuel : Nat) (tk : topkeys_t), tk.wf → tk.list.length ≤ fuel →
    ∃ tk1, lossy_sweep fuel tk = some tk1 ∧ tk1.wf ∧
      tk1.list = tk.list.dropWhile (fun n => n.item.counter < tk.delta) ∧
      tk1.nkeys = tk.nkeys ∧ tk1.max_keys = tk.max_keys ∧ tk1.N = tk.N ∧
      tk1.delta = tk.delta ∧ tk1.csm = tk.csm ∧ tk1.brk = tk.brk
  | 0, tk, w, hl => by
    have hnil : tk.list = [] := List.length_eq_zero.mp (Nat.le_zero.mp hl)
    refine ⟨tk, ?_, w, ?_, rfl, rfl, rfl, rfl, rfl, rfl⟩
    · simp [lossy_sweep, hnil]
    · simp [hnil]
  | fuel + 1, tk, w, hl => by
    cases hlist : tk.list with
    | nil =>
      refine ⟨tk, ?_, w, ?_, rfl, rfl, rfl, rfl, rfl, rfl⟩
      · simp [lossy_sweep, hlist]
      · simp [hlist]
    | cons p t =>
      by_cases hc : p.item.counter < tk.delta
      · have hp : p ∈ tk.list := hlist ▸ List.mem_cons_self p t
        have hnd : ((p :: t).map (fun m => m.addr)).Nodup := hlist ▸ w.addr_nodup
        have hw1 : topkeys_t.wf { tk with
            hash := genhash_delete tk.hash p.item.key
            list := dlist_remove tk.list p.addr } := WF.unlink w hp
        have hrm : dlist_remove tk.list p.addr = t := by
          rw [hlist]; exact dlist_remove_head hnd
        have hlen : t.length ≤ fuel := by
          rw [hlist] at hl
          simp only [List.length_cons] at hl
          omega
        obtain ⟨tk1, h1, hw, hl1, h2, h3, h4, h5, h6, h7⟩ :=
          lossy_sweep_spec fuel { tk with
            hash := genhash_delete tk.hash p.item.key
            list := dlist_remove tk.list p.addr } hw1 (by simpa [hrm] using hlen)
        refine ⟨tk1, ?_, hw, ?_, h2, h3, h4, h5, h6, h7⟩
        · simp only [lossy_sweep, hlist, hc, if_true, topkeys_item_delete, deref_head]
          rw [← h1]
          simp [hlist]
        · rw [hl1]
          simp only [hrm]
          rw [List.dropWhile_cons_of_pos (by simpa using hc)]
      · refine ⟨tk, ?_, w, ?_, rfl, rfl, rfl, rfl, rfl, rfl⟩
        · simp [lossy_sweep, hlist, hc]
        · rw [List.dropWhile_cons_of_neg (by simpa using hc)]
          exact hlist

theorem lossy_finish_spec {tk tk1 : topkeys_t} {n : dnode} {r : Ref}
    (w : WF (insert_by_counter n tk.list) tk.hash tk.brk)
    (h : lossy_finish tk n = some (tk1, r)) :
    r = .item n.addr ∧ tk.max_keys ≠ 0 ∧ tk1.wf ∧ tk1.list = lossy_list tk n ∧
      tk1.nkeys = tk.nkeys + 1 ∧ tk1.max_keys = tk.max_keys ∧ tk1.N = tk.N ∧
      tk1.delta = (tk.nkeys + 1).tdiv tk.max_keys ∧ tk1.csm = tk.csm ∧ tk1.brk = tk.brk := by
  unfold lossy_finish at h
  simp only [] at h
  by_cases hm : tk.max_keys = 0
  · rw [if_pos hm] at h; cases h
  · rw [if_neg hm] at h
    by_cases hd : tk.delta ≠ (tk.nkeys + 1).tdiv tk.max_keys
    · rw [if_pos hd] at h
      obtain ⟨tk2, h1, hw, hl1, h2, h3, h4, h5, h6, h7⟩ :=
        lossy_sweep_spec (insert_by_counter n tk.list).length
          { tk with
            list := insert_by_counter n tk.list
            nkeys := tk.nkeys + 1
            delta := (tk.nkeys + 1).tdiv tk.max_keys } w (Nat.le_refl _)
      rw [h1] at h
      simp only [Option.some.injEq, Prod.mk.injEq] at h
      obtain ⟨rfl, rfl⟩ := h
      refine ⟨rfl, hm, hw, ?_, h2, h3, h4, h5, h6, h7⟩
      rw [hl1, lossy_list, if_pos hd]
    · rw [if_neg hd] at h
      simp only [Option.some.injEq, Prod.mk.injEq] at h
      obtain ⟨rfl, rfl⟩ := h
      refine ⟨rfl, hm, w, ?_, rfl, rfl, rfl, ?_, rfl, rfl⟩
      · rw [lossy_list, if_neg hd]
      · simpa using hd

theorem lossy_finish_total {tk : topkeys_t} {n : dnode}
    (w : WF (insert_by_counter n tk.list) tk.hash tk.brk) (hm : tk.max_keys ≠ 0) :
    ∃ tk1 r, lossy_finish tk n = some (tk1, r) := by
  unfold lossy_finish
  simp only []
  rw [if_neg hm]
  by_cases hd : tk.delta ≠ (tk.nkeys + 1).tdiv tk.max_keys
  · rw [if_pos hd]
    obtain ⟨tk2, h1, -⟩ :=
      lossy_sweep_spec (insert_by_counter n tk.list).length
        { tk with
          list := insert_by_counter n tk.list
          nkeys := tk.nkeys + 1
          delta := (tk.nkeys + 1).tdiv tk.max_keys } w (Nat.le_refl _)
    rw [h1]
    exact ⟨_, _, rfl⟩
  · rw [if_neg hd]
    exact ⟨_, _, rfl⟩

/-- What a returning call of `topkeys_lossy` does. -/
theorem lossy_spec {tk tk1 : topkeys_t} {c : Call} {r : Ref} (w : tk.wf)
    (h : topkeys_lossy tk c = some (tk1, r)) :
    ∃ n l0, lossy_node tk c n l0 ∧ r = .item n.addr ∧ tk.max_keys ≠ 0 ∧ tk1.wf ∧
      tk1.list = lossy_list { tk with list := l0 } n ∧
      tk1.nkeys = tk.nkeys + 1 ∧ tk1.max_keys = tk.max_keys ∧ tk1.N = tk.N + 1 ∧
      tk1.delta = (tk.nkeys + 1).tdiv tk.max_keys ∧ tk1.csm = tk.csm := by
  unfold topkeys_lossy at h
  cases hf : genhash_find tk.hash c.key with
  | some a =>
    obtain ⟨m, hd, hm, e1, e2⟩ := find_deref w hf
    rw [hf] at h
    simp only [hd] at h
    subst e1
    have hw : WF (insert_by_counter ⟨m.addr, { m.item with counter := m.item.counter + 1 }⟩
        (dlist_remove tk.list m.addr)) tk.hash tk.brk :=
      (w.relink hm { m.item with counter := m.item.counter + 1 } rfl).perm
        (insert_by_counter_perm _ _)
    obtain ⟨h1, h2, h3, h4, h5, h6, h7, h8, h9, -⟩ := lossy_finish_spec hw h
    exact ⟨_, _, Or.inl ⟨m, hm, e2, hf, rfl, rfl⟩, h1, h2, h3, h4, h5, h6, h7, h8, h9⟩
  | none =>
    rw [hf] at h
    cases hi : topkey_item_init c.key c.ctime c.calloc with
    | none => rw [hi] at h; cases h
    | some it =>
      obtain ⟨hc, rfl⟩ := item_init_some hi
      rw [hi] at h
      simp only [Call.item_key] at h
      have hw : WF (insert_by_counter ⟨tk.brk, { c.item with counter := tk.delta + 1 }⟩ tk.list)
          (genhash_update tk.hash c.key tk.brk) (tk.brk + 1) :=
        (w.link hf { c.item with counter := tk.delta + 1 } rfl).perm
          (insert_by_counter_perm _ _)
      obtain ⟨h1, h2, h3, h4, h5, h6, h7, h8, h9, -⟩ := lossy_finish_spec hw h
      exact ⟨_, _, Or.inr ⟨hf, hc, rfl, rfl⟩, h1, h2, h3, h4, h5, h6, h7, h8, h9⟩

/-! ## Index and list stay in correspondence (C2) -/

theorem length_dlist_remove {l : List dnode} {h : genhash_t} {b : Ptr} (w : WF l h b)
    {n : dnode} (hn : n ∈ l) : (dlist_remove l n.addr).length + 1 = l.length := by
  have hnd := (w.relink hn n.item rfl).addr_nodup
  have hp : (n :: dlist_remove l n.addr).Perm l := by
    rw [List.perm_ext_iff_of_nodup (List.Nodup.of_map _ hnd) (List.Nodup.of_map _ w.addr_nodup)]
    intro m
    simp only [List.mem_cons, mem_dlist_remove]
    constructor
    · rintro (rfl | ⟨hm, -⟩)
      · exact hn
      · exact hm
    · intro hm
      by_cases e : m.addr = n.addr
      · exact Or.inl (addr_inj w hm hn e)
      · exact Or.inr ⟨hm, e⟩
  simpa using hp.length_eq

theorem wf_tail {tk : topkeys_t} (w : tk.wf) {p : dnode} {t : List dnode}
    (hl : tk.list = p :: t) : WF t (genhash_delete tk.hash p.item.key) tk.brk := by
  have hp : p ∈ tk.list := hl ▸ List.mem_cons_self p t
  have h1 := WF.unlink w hp
  have hnd : ((p :: t).map (fun m => m.addr)).Nodup := hl ▸ w.addr_nodup
  rw [hl, dlist_remove_head hnd] at h1
  exact h1

theorem delete_none {h : genhash_t} {k k1 : Key} (hk : h k = none) :
    genhash_delete h k1 k = none := by
  simp [genhash_delete, hk]

/-- Every returning call keeps the tracker well formed. -/
theorem step_wf {cfg : Config} {tk tk1 : topkeys_t} {c : Call} {r : Ref} (w : tk.wf)
    (h : topkeys_item_get_or_create cfg tk c = some (tk1, r)) : tk1.wf := by
  unfold topkeys_item_get_or_create at h
  cases hp : cfg.policy with
  | LRU =>
    rw [hp] at h
    rcases recency_spec w h with ⟨n, hn, -, -, -, rfl⟩ | ⟨hf, -, -, -, rfl⟩ |
      ⟨hf, -, -, -, n, hl, rfl⟩
    · exact w.relink hn n.item rfl
    · exact w.link hf c.item rfl
    · exact (w.unlink (List.mem_of_getLast?_eq_some hl)).link (delete_none hf) c.item rfl
  | LC =>
    rw [hp] at h
    obtain ⟨n, l0, -, -, -, hw, -⟩ := lossy_spec w h
    exact hw
  | SSL =>
    rw [hp] at h
    rcases space_saving_spec w h with ⟨n, hn, -, -, -, rfl⟩ | ⟨hf, -, -, -, rfl⟩ |
      ⟨hf, -, -, -, p, t, hl, rfl⟩
    · exact (w.relink hn { n.item with counter := n.item.counter + 1 } rfl).perm
        (insert_by_counter_perm _ _)
    · exact (w.link hf { c.item with counter := 1 } rfl).perm (insert_by_counter_perm _ _)
    · exact ((wf_tail w hl).link (delete_none hf)
        { c.item with error_value := p.item.counter, counter := p.item.counter + 1 } rfl).perm
        (insert_by_counter_perm _ _)
  | CSM =>
    rw [hp] at h
    rcases count_sketch_min_spec w h with ⟨n, hn, -, -, -, rfl⟩ | ⟨hf, -, -, -, rfl⟩ |
      ⟨hf, -, -, -, p, t, hl, -, rfl⟩ | ⟨-, -, -, -, -, -, rfl⟩
    · exact (w.relink hn { n.item with counter := n.item.counter + 1 } rfl).perm
        (insert_by_counter_perm _ _)
    · exact (w.link hf
        { c.item with counter := estimate_count cfg (add_count cfg tk.csm c.key) c.key } rfl).perm
        (insert_by_counter_perm _ _)
    · exact ((wf_tail w hl).link (delete_none hf)
        { c.item with counter := estimate_count cfg (add_count cfg tk.csm c.key) c.key } rfl).perm
        (insert_by_counter_perm _ _)
    · exact WF.brk_mono w (Nat.le_succ _)

/-- Every tracker reached from `topkeys_init` is well formed. -/
theorem reach_wf {cfg : Config} {max_keys : Int} {calls : List Call} {tk : topkeys_t}
    (h : reach cfg max_keys calls = some tk) : tk.wf := by
  unfold reach at h
  cases h0 : topkeys_init cfg max_keys true true true with
  | none => rw [h0] at h; cases h
  | some tk0 =>
    rw [h0] at h
    have := run_invariant (fun t _ => t.wf) (fun _ _ _ _ _ hw hs => step_wf hw hs) calls tk0 []
      tk (init_wf h0) h
    exact this

/-- C2: in every tracker reached from `topkeys_init` by calls, under each of
the four variants, the keys stored in the hash index are exactly the keys of
the items linked in the order list, the index entry of a key points to the
linked item holding that key, and no key is linked twice. -/
theorem hash_index_matches_order_list (cfg : Config) (max_keys : Int) (calls : List Call)
    (tk : topkeys_t) (h : reach cfg max_keys calls = some tk) :
    (∀ k, (genhash_find tk.hash k).isSome ↔ k ∈ list_keys tk) ∧
    (∀ k a, genhash_find tk.hash k = some a ↔ ∃ n ∈ tk.list, n.addr = a ∧ n.item.key = k) ∧
    (list_keys tk).Nodup := by
  have w := reach_wf h
  refine ⟨fun k => ?_, w.hash_list, w.key_nodup⟩
  rw [Option.isSome_iff_exists]
  simp only [list_keys, List.mem_map]
  constructor
  · rintro ⟨a, ha⟩
    obtain ⟨n, hn, -, e⟩ := (w.hash_list k a).mp ha
    exact ⟨n, hn, e⟩
  · rintro ⟨n, hn, e⟩
    exact ⟨n.addr, (w.hash_list k n.addr).mpr ⟨n, hn, rfl, e⟩⟩

/-! ## The count field and the capacity (C3, C4) -/

theorem hash_index_matches_order_list_witness :
    ∃ tk, reach ⟨.LC, 0, 0⟩ 2
        [⟨[97], 1, true, 0⟩, ⟨[98], 2, true, 0⟩, ⟨[99], 3, true, 0⟩, ⟨[100], 4, true, 0⟩,
          ⟨[101], 5, true, 0⟩, ⟨[101], 6, true, 0⟩] = some tk ∧
      ((∀ k, (genhash_find tk.hash k).isSome ↔ k ∈ list_keys tk) ∧
       (∀ k a, genhash_find tk.hash k = some a ↔ ∃ n ∈ tk.list, n.addr = a ∧ n.item.key = k) ∧
       (list_keys tk).Nodup) := by
  have h : (reach ⟨.LC, 0, 0⟩ 2
        [⟨[97], 1, true, 0⟩, ⟨[98], 2, true, 0⟩, ⟨[99], 3, true, 0⟩, ⟨[100], 4, true, 0⟩,
          ⟨[101], 5, true, 0⟩, ⟨[101], 6, true, 0⟩]).isSome = true := by decide
  obtain ⟨tk, htk⟩ := Option.isSome_iff_exists.mp h
  exact ⟨tk, htk, hash_index_matches_order_list _ _ _ tk htk⟩

/-- The count invariant outside Lossy Counting: `nkeys` is the length of the
order list. -/
theorem step_count {cfg : Config} {tk tk1 : topkeys_t} {c : Call} {r : Ref} (w : tk.wf)
    (hp : cfg.policy ≠ .LC) (hc : tk.nkeys = tk.list.length)
    (h : topkeys_item_get_or_create cfg tk c = some (tk1, r)) :
    tk1.nkeys = tk1.list.length := by
  unfold topkeys_item_get_or_create at h
  cases hpol : cfg.policy with
  | LRU =>
    rw [hpol] at h
    rcases recency_spec w h with ⟨n, hn, -, -, -, rfl⟩ | ⟨hf, -, -, -, rfl⟩ |
      ⟨hf, -, -, -, n, hl, rfl⟩
    · have := length_dlist_remove w hn
      simp only [List.length_cons]
      omega
    · simp only [List.length_cons]
      push_cast
      omega
    · have := length_dlist_remove w (List.mem_of_getLast?_eq_some hl)
      simp only [List.length_cons]
      push_cast
      omega
  | LC => exact absurd hpol hp
  | SSL =>
    rw [hpol] at h
    rcases space_saving_spec w h with ⟨n, hn, -, -, -, rfl⟩ | ⟨hf, -, -, -, rfl⟩ |
      ⟨hf, -, -, -, p, t, hl, rfl⟩
    · have := length_dlist_remove w hn
      simp only [length_insert_by_counter]
      omega
    · simp only [length_insert_by_counter]
      push_cast
      omega
    · simp only [length_insert_by_counter]
      rw [hl] at hc
      simp only [List.length_cons] at hc
      push_cast at hc ⊢
      omega
  | CSM =>
    rw [hpol] at h
    rcases count_sketch_min_spec w h with ⟨n, hn, -, -, -, rfl⟩ | ⟨hf, -, -, -, rfl⟩ |
      ⟨hf, -, -, -, p, t, hl, -, rfl⟩ | ⟨-, -, -, -, -, -, rfl⟩
    · have := length_dlist_remove w hn
      simp only [length_insert_by_counter]
      omega
    · simp only [length_insert_by_counter]
      push_cast
      omega
    · simp only [length_insert_by_counter]
      rw [hl] at hc
      simp only [List.length_cons] at hc
      push_cast at hc ⊢
      omega
    · simp only
      omega

theorem step_capacity {cfg : Config} {tk tk1 : topkeys_t} {c : Call} {r : Ref} (w : tk.wf)
    (hp : cfg.policy ≠ .LC) (hb : within_capacity cfg.policy tk)
    (h : topkeys_item_get_or_create cfg tk c = some (tk1, r)) :
    within_capacity cfg.policy tk1 ∧ tk1.max_keys = tk.max_keys := by
  unfold topkeys_item_get_or_create at h
  unfold within_capacity at hb ⊢
  cases hpol : cfg.policy with
  | LRU =>
    rw [hpol] at h hb
    simp only [reduceCtorEq, if_false] at hb ⊢
    rcases recency_spec w h with ⟨n, hn, -, -, -, rfl⟩ | ⟨hf, -, -, hle, rfl⟩ |
      ⟨hf, -, -, -, n, hl, rfl⟩
    · exact ⟨hb, rfl⟩
    · exact ⟨hle, rfl⟩
    · exact ⟨by simp only; omega, rfl⟩
  | LC => exact absurd hpol hp
  | SSL =>
    rw [hpol] at h hb
    simp only [reduceCtorEq, if_false] at hb ⊢
    rcases space_saving_spec w h with ⟨n, hn, -, -, -, rfl⟩ | ⟨hf, -, -, hle, rfl⟩ |
      ⟨hf, -, -, -, p, t, hl, rfl⟩
    · exact ⟨hb, rfl⟩
    · exact ⟨hle, rfl⟩
    · exact ⟨by simp only; omega, rfl⟩
  | CSM =>
    rw [hpol] at h hb
    simp only [if_true] at hb ⊢
    rcases count_sketch_min_spec w h with ⟨n, hn, -, -, -, rfl⟩ | ⟨hf, -, -, hle, rfl⟩ |
      ⟨hf, -, -, -, p, t, hl, -, rfl⟩ | ⟨-, -, -, -, -, -, rfl⟩
    · exact ⟨hb, rfl⟩
    · exact ⟨hle, rfl⟩
    · exact ⟨by simp only; omega, rfl⟩
    · exact ⟨by simp only; omega, rfl⟩

theorem step_max_keys {cfg : Config} {tk tk1 : topkeys_t} {c : Call} {r : Ref} (w : tk.wf)
    (h : topkeys_item_get_or_create cfg tk c = some (tk1, r)) : tk1.max_keys = tk.max_keys := by
  unfold topkeys_item_get_or_create at h
  cases hpol : cfg.policy with
  | LRU =>
    rw [hpol] at h
    rcases recency_spec w h with ⟨n, hn, -, -, -, rfl⟩ | ⟨hf, -, -, hle, rfl⟩ |
      ⟨hf, -, -, -, n, hl, rfl⟩ <;> rfl
  | LC =>
    rw [hpol] at h
    obtain ⟨n, l0, -, -, -, -, -, -, hmk, -⟩ := lossy_spec w h
    exact hmk
  | SSL =>
    rw [hpol] at h
    rcases space_saving_spec w h with ⟨n, hn, -, -, -, rfl⟩ | ⟨hf, -, -, hle, rfl⟩ |
      ⟨hf, -, -, -, p, t, hl, rfl⟩ <;> rfl
  | CSM =>
    rw [hpol] at h
    rcases count_sketch_min_spec w h with ⟨n, hn, -, -, -, rfl⟩ | ⟨hf, -, -, hle, rfl⟩ |
      ⟨hf, -, -, -, p, t, hl, -, rfl⟩ | ⟨-, -, -, -, -, -, rfl⟩ <;> rfl

theorem reach_count {cfg : Config} {max_keys : Int} {calls : List Call} {tk : topkeys_t}
    (h : reach cfg max_keys calls = some tk) : CountInv cfg max_keys tk := by
  have hcap0 := reach_cap h
  unfold reach at h
  obtain ⟨tk0, h0, hl, hh, hn, hm, -, -, hb, -⟩ := init_some cfg max_keys hcap0
  rw [h0] at h
  have hP0 : CountInv cfg max_keys tk0 := by
    refine ⟨init_wf h0, hm, fun _ => by rw [hn, hl]; rfl, fun _ hcap => ?_⟩
    unfold within_capacity
    rw [hn, hm]
    split <;> omega
  exact run_invariant (fun t _ => CountInv cfg max_keys t)
    (fun t _ c t1 r hi hs =>
      ⟨step_wf hi.wf hs, (step_max_keys hi.wf hs).trans hi.cap,
        fun hp => step_count hi.wf hp (hi.count hp) hs,
        fun hp hcap => (step_capacity hi.wf hp (hi.bound hp hcap) hs).1⟩)
    calls tk0 [] tk hP0 h

/-- C3, amended: under the recency, Space-Saving and Count-Min-Sketch variants
with capacity at least 1, every tracker reached from `topkeys_init` by calls,
so the tracker at the end of every call, links at most `max_keys` items. -/
theorem tracked_items_within_capacity (cfg : Config) (max_keys : Int) (calls : List Call)
    (tk : topkeys_t) (hp : cfg.policy ≠ .LC) (hcap : 1 ≤ max_keys)
    (h : reach cfg max_keys calls = some tk) :
    (tk.list.length : Int) ≤ max_keys := by
  have inv := reach_count h
  have h1 := inv.count hp
  have h2 := inv.bound hp hcap
  have h3 := inv.cap
  unfold within_capacity at h2
  split at h2 <;> omega

theorem tracked_items_within_capacity_witness :
    Policy.SSL ≠ Policy.LC ∧ (1 : Int) ≤ 2 ∧
    ∃ tk, reach ⟨.SSL, 0, 0⟩ 2 [⟨[97], 1, true, 0⟩, ⟨[98], 2, true, 0⟩, ⟨[99], 3, true, 0⟩] = some tk ∧
      (tk.list.length : Int) ≤ 2 := by
  have h : (reach ⟨.SSL, 0, 0⟩ 2
      [⟨[97], 1, true, 0⟩, ⟨[98], 2, true, 0⟩, ⟨[99], 3, true, 0⟩]).isSome = true := by decide
  obtain ⟨tk, htk⟩ := Option.isSome_iff_exists.mp h
  exact ⟨by decide, by decide, tk, htk,
    tracked_items_within_capacity ⟨.SSL, 0, 0⟩ 2 _ tk (by decide) (by decide) htk⟩

/-- C3 fails under Lossy Counting: with capacity 2, after the three calls
a, b, c the order list links three items. -/
theorem lossy_exceeds_capacity :
    (reach ⟨.LC, 0, 0⟩ 2 [⟨[97], 1, true, 0⟩, ⟨[98], 2, true, 0⟩, ⟨[99], 3, true, 0⟩]).map
      (fun tk => (tk.list.length, tk.max_keys)) = some (3, 2) := by
  decide

/-- C4, amended: in every tracker reached from `topkeys_init` by calls, `nkeys`
is the number of items linked in the order list under the recency,
Space-Saving and Count-Min-Sketch variants; under Lossy Counting `nkeys` is the
number of calls made. -/
theorem nkeys_counts (cfg : Config) (max_keys : Int) (calls : List Call)
    (tk : topkeys_t) (h : reach cfg max_keys calls = some tk) :
    (cfg.policy ≠ .LC → tk.nkeys = tk.list.length) ∧
    (cfg.policy = .LC → tk.nkeys = calls.length) := by
  refine ⟨(reach_count h).count, fun hp => ?_⟩
  have hcap0 := reach_cap h
  unfold reach at h
  obtain ⟨tk0, h0, hl, hh, hn, hm, -, -, hb, -⟩ := init_some cfg max_keys hcap0
  rw [h0] at h
  have := run_invariant (fun t hist => t.wf ∧ t.nkeys = hist.length)
    (fun t hist c t1 r hi hs => by
      refine ⟨step_wf hi.1 hs, ?_⟩
      unfold topkeys_item_get_or_create at hs
      rw [hp] at hs
      obtain ⟨n, l0, -, -, -, -, -, hnk, -⟩ := lossy_spec hi.1 hs
      rw [hnk, hi.2]
      simp)
    calls tk0 [] tk ⟨init_wf h0, by rw [hn]; rfl⟩ h
  simpa using this.2

theorem nkeys_counts_witness :
    ∃ tk, reach ⟨.LC, 0, 0⟩ 2 [⟨[97], 1, true, 0⟩, ⟨[97], 2, true, 0⟩] = some tk ∧
      ((Policy.LC ≠ .LC → tk.nkeys = tk.list.length) ∧
       (Policy.LC = .LC → tk.nkeys = [(⟨[97], 1, true, 0⟩ : Call), ⟨[97], 2, true, 0⟩].length)) := by
  have h : (reach ⟨.LC, 0, 0⟩ 2 [⟨[97], 1, true, 0⟩, ⟨[97], 2, true, 0⟩]).isSome = true := by
    decide
  obtain ⟨tk, htk⟩ := Option.isSome_iff_exists.mp h
  exact ⟨tk, htk, nkeys_counts ⟨.LC, 0, 0⟩ 2 _ tk htk⟩

/-- C4 fails under Lossy Counting: with capacity 2, after two calls with the
same key `nkeys` is 2 while one item is linked. -/
theorem lossy_nkeys_counts_calls :
    (reach ⟨.LC, 0, 0⟩ 2 [⟨[97], 1, true, 0⟩, ⟨[97], 2, true, 0⟩]).map
      (fun tk => (tk.nkeys, tk.list.length)) = some (2, 1) := by
  decide

/-! ## Space-Saving counter bounds (C5) -/

theorem true_frequency_snoc (k : Key) (hist : List Call) (c : Call) :
    true_frequency k (hist ++ [c]) = true_frequency k hist + (if c.key = k then 1 else 0) := by
  unfold true_frequency
  rw [List.countP_append, List.countP_cons, List.countP_nil]
  simp

theorem true_frequency_snoc_self (hist : List Call) (c : Call) :
    true_frequency c.key (hist ++ [c]) = true_frequency c.key hist + 1 := by
  rw [true_frequency_snoc, if_pos rfl]

theorem true_frequency_snoc_ne {k : Key} (hist : List Call) {c : Call} (h : c.key ≠ k) :
    true_frequency k (hist ++ [c]) = true_frequency k hist := by
  rw [true_frequency_snoc, if_neg h, Nat.add_zero]

theorem counter_sorted_insert {n : dnode} {l : List dnode} (h : counter_sorted l) :
    counter_sorted (insert_by_counter n l) := by
  unfold counter_sorted at h ⊢
  induction l with
  | nil => simp [insert_by_counter]
  | cons p t ih =>
    rw [List.pairwise_cons] at h
    simp only [insert_by_counter]
    split
    · rename_i hge
      refine List.pairwise_cons.mpr ⟨fun m hm => ?_, List.pairwise_cons.mpr h⟩
      rcases List.mem_cons.mp hm with rfl | hm
      · exact hge
      · exact le_trans hge (h.1 m hm)
    · rename_i hlt
      refine List.pairwise_cons.mpr ⟨fun m hm => ?_, ih h.2⟩
      rcases mem_insert_by_counter.mp hm with rfl | hm
      · omega
      · exact h.1 m hm

theorem counter_sorted_remove {l : List dnode} (a : Ptr) (h : counter_sorted l) :
    counter_sorted (dlist_remove l a) :=
  List.Pairwise.filter _ h

theorem key_ne_of_removed {l : List dnode} {h : genhash_t} {b : Ptr} (w : WF l h b)
    {n m : dnode} (hn : n ∈ l) (hm : m ∈ dlist_remove l n.addr) : m.item.key ≠ n.item.key := by
  obtain ⟨hm1, hm2⟩ := mem_dlist_remove.mp hm
  exact fun e => hm2 (congrArg dnode.addr (key_inj w hm1 hn e))

theorem space_saving_step {tk tk1 : topkeys_t} {c : Call} {r : Ref} {hist : List Call}
    (inv : SpaceSavingInv tk hist) (h : topkeys_space_saving tk c = some (tk1, r)) :
    SpaceSavingInv tk1 (hist ++ [c]) := by
  have hcount := inv.count
  rcases space_saving_spec inv.wf h with ⟨n, hn, hk, hf, -, rfl⟩ | ⟨hf, hc, -, hle, rfl⟩ |
    ⟨hf, hc, -, hlt, p, t, hl, rfl⟩
  · have hw : WF (insert_by_counter ⟨n.addr, { n.item with counter := n.item.counter + 1 }⟩
        (dlist_remove tk.list n.addr)) tk.hash tk.brk :=
      (inv.wf.relink hn { n.item with counter := n.item.counter + 1 } rfl).perm
        (insert_by_counter_perm _ _)
    have hlen := length_dlist_remove inv.wf hn
    refine ⟨hw, ?_, counter_sorted_insert (counter_sorted_remove _ inv.sorted), ?_, ?_⟩
    · simp only [length_insert_by_counter]
      omega
    · intro m hm
      rcases mem_insert_by_counter.mp hm with rfl | hm
      · have := inv.est n hn
        simp only
        rw [hk, true_frequency_snoc_self, ← hk]
        push_cast
        omega
      · have hne := key_ne_of_removed inv.wf hn hm
        rw [true_frequency_snoc_ne hist (by rw [← hk]; exact fun e => hne e.symm)]
        exact inv.est m (mem_dlist_remove.mp hm).1
    · intro k hkn
      simp only at hkn
      have hne : c.key ≠ k := by
        rintro rfl
        rw [hf] at hkn
        cases hkn
      have hu := inv.untracked k hkn
      rw [true_frequency_snoc_ne hist hne]
      refine ⟨fun hlt => hu.1 (by simp only [length_insert_by_counter] at hlt; omega), ?_⟩
      intro m hm
      rcases mem_insert_by_counter.mp hm with rfl | hm
      · have := hu.2 n hn
        simp only
        omega
      · exact hu.2 m (mem_dlist_remove.mp hm).1
  · have hw : WF (insert_by_counter ⟨tk.brk, { c.item with counter := 1 }⟩ tk.list)
        (genhash_update tk.hash c.key tk.brk) (tk.brk + 1) :=
      (inv.wf.link hf { c.item with counter := 1 } rfl).perm (insert_by_counter_perm _ _)
    have hu0 := inv.untracked c.key hf
    have hf0 : true_frequency c.key hist = 0 := hu0.1 (by omega)
    refine ⟨hw, ?_, counter_sorted_insert inv.sorted, ?_, ?_⟩
    · simp only [length_insert_by_counter]
      push_cast
      omega
    · intro m hm
      rcases mem_insert_by_counter.mp hm with rfl | hm
      · simp only [Call.item_key]
        rw [true_frequency_snoc_self, hf0]
        simp [Call.item]
      · have hne : c.key ≠ m.item.key := fun e => head_key_ne inv.wf hf hm e.symm
        rw [true_frequency_snoc_ne hist hne]
        exact inv.est m hm
    · intro k hkn
      simp only [genhash_update] at hkn
      have hne : c.key ≠ k := by
        rintro rfl
        simp at hkn
      rw [if_neg (fun e => hne e.symm)] at hkn
      have hu := inv.untracked k hkn
      have hk0 : true_frequency k hist = 0 := hu.1 (by omega)
      rw [true_frequency_snoc_ne hist hne]
      refine ⟨fun _ => hk0, ?_⟩
      intro m hm
      rcases mem_insert_by_counter.mp hm with rfl | hm
      · rw [hk0]
        simp
      · exact hu.2 m hm
  · have hp : p ∈ tk.list := hl ▸ List.mem_cons_self p t
    have hw : WF (insert_by_counter
        ⟨tk.brk, { c.item with error_value := p.item.counter, counter := p.item.counter + 1 }⟩ t)
        (genhash_update (genhash_delete tk.hash p.item.key) c.key tk.brk) (tk.brk + 1) :=
      ((wf_tail inv.wf hl).link (delete_none hf)
        { c.item with error_value := p.item.counter, counter := p.item.counter + 1 } rfl).perm
        (insert_by_counter_perm _ _)
    have hlen : tk.list.length = t.length + 1 := by rw [hl]; rfl
    have hsort : counter_sorted (p :: t) := hl ▸ inv.sorted
    have hst := List.pairwise_cons.mp hsort
    have hu0 := inv.untracked c.key hf
    refine ⟨hw, ?_, counter_sorted_insert hst.2, ?_, ?_⟩
    · simp only [length_insert_by_counter]
      push_cast
      omega
    · intro m hm
      rcases mem_insert_by_counter.mp hm with rfl | hm
      · have := hu0.2 p hp
        simp only [Call.item_key]
        rw [true_frequency_snoc_self]
        push_cast
        omega
      · have hm1 : m ∈ tk.list := hl ▸ List.mem_cons_of_mem p hm
        have hne : c.key ≠ m.item.key := fun e => head_key_ne inv.wf hf hm1 e.symm
        rw [true_frequency_snoc_ne hist hne]
        exact inv.est m hm1
    · intro k hkn
      simp only [genhash_update, genhash_delete] at hkn
      have hne : c.key ≠ k := by
        rintro rfl
        simp at hkn
      rw [if_neg (fun e => hne e.symm)] at hkn
      rw [true_frequency_snoc_ne hist hne]
      refine ⟨fun hlt1 => ?_, ?_⟩
      · simp only [length_insert_by_counter] at hlt1
        omega
      · have hkp : (true_frequency k hist : Int) ≤ p.item.counter := by
          by_cases e : k = p.item.key
          · rw [e]; exact (inv.est p hp).1
          · rw [if_neg e] at hkn
            exact (inv.untracked k hkn).2 p hp
        intro m hm
        rcases mem_insert_by_counter.mp hm with rfl | hm
        · simp only
          omega
        · exact le_trans hkp (hst.1 m hm)

/-- C5: under Space-Saving, after any sequence of calls on a new tracker every
linked item satisfies `true_frequency key <= counter <= true_frequency key +
error_value`, the true frequency being the number of calls made with the key;
counters are the unbounded integers of the embedding. -/
theorem space_saving_counter_bounds (D W : Nat) (max_keys : Int) (calls : List Call)
    (tk : topkeys_t) (h : reach ⟨.SSL, D, W⟩ max_keys calls = some tk) :
    ∀ n ∈ tk.list, (true_frequency n.item.key calls : Int) ≤ n.item.counter ∧
      n.item.counter ≤ true_frequency n.item.key calls + n.item.error_value := by
  have hcap0 := reach_cap h
  unfold reach at h
  obtain ⟨tk0, h0, hl, hh, hn, hm, -, -, hb, -⟩ := init_some ⟨.SSL, D, W⟩ max_keys hcap0
  rw [h0] at h
  have hP0 : SpaceSavingInv tk0 [] := by
    refine ⟨init_wf h0, by rw [hn, hl]; rfl, by rw [hl]; exact List.Pairwise.nil, ?_, ?_⟩
    · rw [hl]; simp
    · intro k _
      rw [hl]
      simp [true_frequency]
  have := @run_invariant ⟨.SSL, D, W⟩ (fun t hist => SpaceSavingInv t hist)
    (fun t hist c t1 r hi hs => space_saving_step hi hs) calls tk0 [] tk hP0 h
  simpa using this.est

theorem space_saving_counter_bounds_witness :
    ∃ tk, reach ⟨.SSL, 0, 0⟩ 2
        [⟨[97], 1, true, 0⟩, ⟨[98], 2, true, 0⟩, ⟨[99], 3, true, 0⟩, ⟨[97], 4, true, 0⟩] = some tk ∧
      ∀ n ∈ tk.list, (true_frequency n.item.key
          [⟨[97], 1, true, 0⟩, ⟨[98], 2, true, 0⟩, ⟨[99], 3, true, 0⟩, ⟨[97], 4, true, 0⟩] : Int)
            ≤ n.item.counter ∧
        n.item.counter ≤ true_frequency n.item.key
          [⟨[97], 1, true, 0⟩, ⟨[98], 2, true, 0⟩, ⟨[99], 3, true, 0⟩, ⟨[97], 4, true, 0⟩]
            + n.item.error_value := by
  have h : (reach ⟨.SSL, 0, 0⟩ 2
      [⟨[97], 1, true, 0⟩, ⟨[98], 2, true, 0⟩, ⟨[99], 3, true, 0⟩, ⟨[97], 4, true, 0⟩]).isSome
        = true := by decide
  obtain ⟨tk, htk⟩ := Option.isSome_iff_exists.mp h
  exact ⟨tk, htk, space_saving_counter_bounds 0 0 2 _ tk htk⟩

/-! ## The invariant of Lossy Counting -/

theorem tdiv_succ_bounds {n c : Int} (hn : 0 ≤ n) (hc : 1 ≤ c) :
    n.tdiv c ≤ (n + 1).tdiv c ∧ (n + 1).tdiv c ≤ n.tdiv c + 1 ∧ 0 ≤ n.tdiv c := by
  rw [Int.tdiv_eq_ediv hn (by omega), Int.tdiv_eq_ediv (by omega) (by omega)]
  refine ⟨Int.ediv_le_ediv (by omega) (by omega), ?_, Int.ediv_nonneg hn (by omega)⟩
  have h1 : (n + 1) / c ≤ (n + 1 * c) / c := Int.ediv_le_ediv (by omega) (by nlinarith)
  rw [Int.add_mul_ediv_right n 1 (by omega)] at h1
  exact h1

theorem mem_dropWhile_of_not {α : Type} {p : α → Bool} {l : List α} {x : α}
    (hx : x ∈ l) (hp : p x = false) : x ∈ l.dropWhile p := by
  rw [← List.takeWhile_append_dropWhile p l] at hx
  rcases List.mem_append.mp hx with h | h
  · rw [List.mem_takeWhile_imp h] at hp
    cases hp
  · exact h

theorem swept_of_not_mem_dropWhile {α : Type} {p : α → Bool} {l : List α} {x : α}
    (hx : x ∈ l) (hn : x ∉ l.dropWhile p) : p x = true := by
  cases h : p x with
  | true => rfl
  | false => exact absurd (mem_dropWhile_of_not hx h) hn

theorem mem_of_mem_dropWhile {α : Type} {p : α → Bool} {l : List α} {x : α}
    (hx : x ∈ l.dropWhile p) : x ∈ l :=
  (List.dropWhile_sublist p).subset hx

theorem floor_dropWhile {d : Int} {l : List dnode} (hs : counter_sorted l) :
    ∀ m ∈ l.dropWhile (fun m => m.item.counter < d), d ≤ m.item.counter := by
  induction l with
  | nil => simp
  | cons p t ih =>
    have hst := List.pairwise_cons.mp hs
    by_cases hp : p.item.counter < d
    · rw [List.dropWhile_cons_of_pos (by simpa using hp)]
      exact ih hst.2
    · rw [List.dropWhile_cons_of_neg (by simpa using hp)]
      intro m hm
      rcases List.mem_cons.mp hm with rfl | hm
      · omega
      · have := hst.1 m hm
        omega

theorem mem_lossy_list {tk : topkeys_t} {n m : dnode} (h : m ∈ lossy_list tk n) :
    m = n ∨ m ∈ tk.list := by
  unfold lossy_list at h
  split at h
  · exact mem_insert_by_counter.mp (mem_of_mem_dropWhile h)
  · exact mem_insert_by_counter.mp h

theorem lossy_step {tk tk1 : topkeys_t} {c : Call} {r : Ref} {hist : List Call}
    (inv : LossyInv tk hist) (h : topkeys_lossy tk c = some (tk1, r)) :
    LossyStep tk tk1 c r hist := by
  obtain ⟨n, l0, hnode, hr, -, hw1, hl1, hnk, hmk, -, hd1, -⟩ := lossy_spec inv.wf h
  obtain ⟨hdlo, hdhi, hd0⟩ := tdiv_succ_bounds inv.nkeys_nonneg inv.cap
  rw [← inv.delta_eq] at hdlo hdhi
  -- facts about the linked node and the base list
  have hl0 : ∀ m ∈ l0, m ∈ tk.list ∧ m.item.key ≠ c.key := by
    rcases hnode with ⟨m0, hm0, hk0, -, -, rfl⟩ | ⟨hf, -, -, rfl⟩
    · intro m hm
      exact ⟨(mem_dlist_remove.mp hm).1, hk0 ▸ key_ne_of_removed inv.wf hm0 hm⟩
    · intro m hm
      exact ⟨hm, head_key_ne inv.wf hf hm⟩
  have hl0s : counter_sorted l0 := by
    rcases hnode with ⟨m0, hm0, hk0, -, -, rfl⟩ | ⟨hf, -, -, rfl⟩
    · exact counter_sorted_remove _ inv.sorted
    · exact inv.sorted
  have hnkey : n.item.key = c.key := by
    rcases hnode with ⟨m0, hm0, hk0, -, rfl, -⟩ | ⟨hf, -, rfl, -⟩
    · exact hk0
    · rfl
  have hnest : (true_frequency c.key (hist ++ [c]) : Int) ≤ n.item.counter ∧
      n.item.counter ≤ true_frequency c.key (hist ++ [c]) + tk.delta ∧
      tk.delta + 1 ≤ n.item.counter := by
    rw [true_frequency_snoc_self]
    rcases hnode with ⟨m0, hm0, hk0, -, rfl, -⟩ | ⟨hf, -, rfl, -⟩
    · have := inv.est m0 hm0
      have := inv.floor m0 hm0
      rw [hk0] at *
      simp only
      push_cast
      omega
    · have := inv.untracked c.key hf
      simp only
      push_cast
      omega
  have hmem : ∀ m ∈ tk1.list, m = n ∨ m ∈ l0 := by
    intro m hm
    rw [hl1] at hm
    exact mem_lossy_list hm
  have hsorted1 : counter_sorted (insert_by_counter n l0) := counter_sorted_insert hl0s
  have hnin : n ∈ tk1.list := by
    rw [hl1]
    unfold lossy_list
    simp only
    split
    · exact mem_dropWhile_of_not (mem_insert_by_counter.mpr (Or.inl rfl))
        (by simp only [decide_eq_false_iff_not]; omega)
    · exact mem_insert_by_counter.mpr (Or.inl rfl)
  have hest1 : ∀ m ∈ tk1.list, (true_frequency m.item.key (hist ++ [c]) : Int) ≤ m.item.counter ∧
      m.item.counter ≤ true_frequency m.item.key (hist ++ [c]) + tk.delta := by
    intro m hm
    rcases hmem m hm with rfl | hm0
    · rw [hnkey]
      exact ⟨hnest.1, hnest.2.1⟩
    · obtain ⟨hm1, hne⟩ := hl0 m hm0
      rw [true_frequency_snoc_ne hist (fun e => hne e.symm)]
      exact inv.est m hm1
  have hnn := inv.nkeys_nonneg
  have hcap1 : 1 ≤ tk1.max_keys := by rw [hmk]; exact inv.cap
  refine ⟨⟨hw1, hcap1, by omega, by rw [hd1, hnk, hmk], ?_, ?_, ?_, ?_, ?_⟩, hmk,
    by omega, ?_, ?_, ⟨n, hnin, hr, hnkey⟩⟩
  · -- sorted
    rw [hl1]
    unfold lossy_list
    split
    · exact List.Pairwise.sublist (List.dropWhile_sublist _) hsorted1
    · exact hsorted1
  · -- floor
    intro m hm
    rw [hd1]
    rw [hl1] at hm
    unfold lossy_list at hm
    simp only at hm
    split at hm
    · exact floor_dropWhile hsorted1 m hm
    · rename_i heq
      have heq1 : tk.delta = (tk.nkeys + 1).tdiv tk.max_keys := by
        by_contra hne
        exact heq hne
      rw [← heq1]
      rcases mem_insert_by_counter.mp hm with rfl | hm0
      · omega
      · exact inv.floor m (hl0 m hm0).1
  · -- est
    intro m hm
    have := hest1 m hm
    rw [hd1]
    omega
  · -- untracked
    intro k hk
    rw [hd1]
    by_cases hkc : k = c.key
    · subst hkc
      exfalso
      have : tk1.hash c.key = some n.addr := (hw1.hash_list c.key n.addr).mpr ⟨n, hnin, rfl, hnkey⟩
      rw [hk] at this
      cases this
    · rw [true_frequency_snoc_ne hist (fun e => hkc e.symm)]
      cases hold : tk.hash k with
      | none =>
        have := inv.untracked k hold
        omega
      | some a =>
        obtain ⟨m, hm, -, hmk1⟩ := (inv.wf.hash_list k a).mp hold
        have hml0 : m ∈ l0 := by
          rcases hnode with ⟨m0, hm0, hk0, -, -, rfl⟩ | ⟨hf, -, -, rfl⟩
          · refine mem_dlist_remove.mpr ⟨hm, fun e => ?_⟩
            have := addr_inj inv.wf hm hm0 e
            subst this
            exact hkc (hmk1.symm.trans hk0)
          · exact hm
        have hnot : m ∉ tk1.list := by
          intro hin
          have : tk1.hash k = some m.addr := (hw1.hash_list k m.addr).mpr ⟨m, hin, rfl, hmk1⟩
          rw [hk] at this
          cases this
        rw [hl1] at hnot
        unfold lossy_list at hnot
        simp only at hnot
        split at hnot
        · have := swept_of_not_mem_dropWhile (mem_insert_by_counter.mpr (Or.inr hml0)) hnot
          simp only [decide_eq_true_eq] at this
          have he := (inv.est m hm).1
          rw [hmk1] at he
          omega
        · exact absurd (mem_insert_by_counter.mpr (Or.inr hml0)) hnot
  · -- seen
    intro m hm
    rw [List.map_append, List.mem_append]
    rcases hmem m hm with rfl | hm0
    · right
      simp [hnkey]
    · left
      exact inv.seen m (hl0 m hm0).1
  · -- updated
    intro m hm hk
    have := hest1 m hm
    rw [hk] at this
    exact this
  · -- others
    intro m hm hk
    rcases hmem m hm with rfl | hm0
    · exact absurd hnkey hk
    · exact (hl0 m hm0).1

/-! ## Lossy Counting counter bounds (C6) -/

theorem run_cons_some {cfg : Config} {tk tk2 : topkeys_t} {c : Call} {cs : List Call}
    (h : run cfg tk (c :: cs) = some tk2) :
    ∃ tk1 r, topkeys_item_get_or_create cfg tk c = some (tk1, r) ∧ run cfg tk1 cs = some tk2 := by
  simp only [run] at h
  cases hs : topkeys_item_get_or_create cfg tk c with
  | none => rw [hs] at h; cases h
  | some res =>
    obtain ⟨tk1, r⟩ := res
    rw [hs] at h
    exact ⟨tk1, r, rfl, h⟩

theorem run_append_some {cfg : Config} : ∀ (a : List Call) {b : List Call} {tk tk2 : topkeys_t},
    run cfg tk (a ++ b) = some tk2 → ∃ tk1, run cfg tk a = some tk1 ∧ run cfg tk1 b = some tk2
  | [], _, tk, _, h => ⟨tk, rfl, h⟩
  | c :: cs, b, tk, tk2, h => by
    rw [List.cons_append] at h
    obtain ⟨t1, r, hs, hr⟩ := run_cons_some h
    obtain ⟨t2, h1, h2⟩ := run_append_some cs hr
    exact ⟨t2, by simp only [run, hs, h1], h2⟩

theorem last_call_split {k : Key} : ∀ (l : List Call), k ∈ l.map (fun c => c.key) →
    ∃ pre c post, l = pre ++ c :: post ∧ c.key = k ∧ ∀ d ∈ post, d.key ≠ k
  | [], h => by simp at h
  | c :: cs, h => by
    by_cases hk : k ∈ cs.map (fun c => c.key)
    · obtain ⟨pre, c1, post, e, hc, hp⟩ := last_call_split cs hk
      exact ⟨c :: pre, c1, post, by rw [e]; rfl, hc, hp⟩
    · have hck : c.key = k := by
        rcases List.mem_cons.mp (by simpa using h : k ∈ c.key :: cs.map (fun c => c.key)) with e | e
        · exact e.symm
        · exact absurd e hk
      refine ⟨[], c, cs, rfl, hck, fun d hd e => hk ?_⟩
      exact List.mem_map.mpr ⟨d, hd, e⟩

theorem true_frequency_untouched {k : Key} (pre : List Call) (c : Call) {post : List Call}
    (hp : ∀ d ∈ post, d.key ≠ k) :
    true_frequency k (pre ++ c :: post) = true_frequency k (pre ++ [c]) := by
  unfold true_frequency
  have h0 : post.countP (fun c => decide (c.key = k)) = 0 := by
    rw [List.countP_eq_zero]
    intro d hd
    simpa using hp d hd
  rw [List.countP_append, List.countP_cons, List.countP_append, List.countP_cons, h0,
    List.countP_nil]

theorem run_append_of {cfg : Config} : ∀ {a b : List Call} {tk tk1 tk2 : topkeys_t},
    run cfg tk a = some tk1 → run cfg tk1 b = some tk2 → run cfg tk (a ++ b) = some tk2
  | [], _, tk, tk1, _, h1, h2 => by
    simp only [run, Option.some.injEq] at h1
    subst h1
    exact h2
  | c :: cs, b, tk, tk1, tk2, h1, h2 => by
    obtain ⟨t1, r, hs, hr⟩ := run_cons_some h1
    rw [List.cons_append]
    simp only [run, hs]
    exact run_append_of hr h2

/-- The invariant of Lossy Counting holds in every tracker `run` reaches. -/
theorem lossy_run {D W : Nat} : ∀ (calls : List Call) {tk tk1 : topkeys_t} {hist : List Call},
    LossyInv tk hist → run ⟨.LC, D, W⟩ tk calls = some tk1 →
    LossyInv tk1 (hist ++ calls) ∧ tk1.max_keys = tk.max_keys ∧ tk.delta ≤ tk1.delta
  | [], tk, tk1, hist, inv, h => by
    simp only [run, Option.some.injEq] at h
    subst h
    exact ⟨by simpa using inv, rfl, le_refl _⟩
  | c :: cs, tk, tk1, hist, inv, h => by
    obtain ⟨t1, r, hs, hr⟩ := run_cons_some h
    have st := lossy_step inv hs
    obtain ⟨h1, h2, h3⟩ := lossy_run cs st.inv hr
    exact ⟨by simpa using h1, h2.trans st.cap, le_trans st.delta_mono h3⟩

/-- Calls with other keys leave an item as it is, when they leave it linked. -/
theorem lossy_untouched {D W : Nat} {k : Key} : ∀ (post : List Call) {tk tk1 : topkeys_t}
    {hist : List Call}, LossyInv tk hist → run ⟨.LC, D, W⟩ tk post = some tk1 →
    (∀ d ∈ post, d.key ≠ k) → ∀ n ∈ tk1.list, n.item.key = k → n ∈ tk.list
  | [], tk, tk1, hist, _, h, _ => by
    simp only [run, Option.some.injEq] at h
    subst h
    exact fun n hn _ => hn
  | c :: cs, tk, tk1, hist, inv, h, hp => by
    obtain ⟨t1, r, hs, hr⟩ := run_cons_some h
    have st := lossy_step inv hs
    intro n hn hk
    have h1 := lossy_untouched cs st.inv hr (fun d hd => hp d (List.mem_cons_of_mem _ hd)) n hn hk
    exact st.others n h1 (by rw [hk]; exact fun e => hp c (List.mem_cons_self _ _) e.symm)

theorem lossy_init {D W : Nat} {max_keys : Int} {tk0 : topkeys_t} (hcap : 1 ≤ max_keys)
    (h0 : topkeys_init ⟨.LC, D, W⟩ max_keys true true true = some tk0) :
    LossyInv tk0 [] ∧ tk0.max_keys = max_keys := by
  obtain ⟨t, ht, hl, hh, hn, hm, -, hd, hb, -⟩ := init_some ⟨.LC, D, W⟩ max_keys hcap
  rw [ht] at h0
  cases h0
  refine ⟨⟨init_wf ht, by rw [hm]; exact hcap, by rw [hn], ?_, by rw [hl]; exact List.Pairwise.nil,
    by rw [hl]; simp, by rw [hl]; simp, ?_, by rw [hl]; simp⟩, hm⟩
  · rw [hd, hn]
    simp
  · intro k _
    rw [hd]
    simp [true_frequency]

/-- C6: under Lossy Counting with capacity at least 1, after any sequence of
calls on a new tracker every linked item has a last call `c` made with its key,
and with `tk0` the tracker in which that call was made and `tk1` the tracker it
left, the item satisfies
`true_frequency key <= counter <= true_frequency key + tk0.delta`: the bound is
the tracker's `delta` as the call that last updated the item read it, which is
at most the `delta` that call left and the current one. Counters are the
unbounded integers of the embedding. -/
theorem lossy_counter_bounds (D W : Nat) (max_keys : Int) (calls : List Call)
    (tk : topkeys_t) (hcap : 1 ≤ max_keys) (h : reach ⟨.LC, D, W⟩ max_keys calls = some tk) :
    ∀ n ∈ tk.list, ∃ pre c post tk0 tk1,
      calls = pre ++ c :: post ∧ c.key = n.item.key ∧ (∀ d ∈ post, d.key ≠ n.item.key) ∧
      reach ⟨.LC, D, W⟩ max_keys pre = some tk0 ∧
      reach ⟨.LC, D, W⟩ max_keys (pre ++ [c]) = some tk1 ∧
      (true_frequency n.item.key calls : Int) ≤ n.item.counter ∧
      n.item.counter ≤ true_frequency n.item.key calls + tk0.delta ∧
      tk0.delta ≤ tk1.delta ∧ tk1.delta ≤ tk.delta := by
  intro n hn
  unfold reach at h
  cases h0 : topkeys_init ⟨.LC, D, W⟩ max_keys true true true with
  | none => rw [h0] at h; cases h
  | some tki =>
    rw [h0] at h
    simp only at h
    obtain ⟨inv0, -⟩ := lossy_init hcap h0
    obtain ⟨inv, -, -⟩ := lossy_run calls inv0 h
    have hseen := inv.seen n hn
    simp only [List.nil_append] at hseen
    obtain ⟨pre, c, post, rfl, hck, hpost⟩ := last_call_split calls hseen
    obtain ⟨tk0, hpre, hrest⟩ := run_append_some pre h
    obtain ⟨tk1, r, hs, hpo⟩ := run_cons_some hrest
    obtain ⟨invpre, -, -⟩ := lossy_run pre inv0 hpre
    simp only [List.nil_append] at invpre
    have st := lossy_step invpre hs
    obtain ⟨-, -, hmono⟩ := lossy_run post st.inv hpo
    have hn1 := lossy_untouched post st.inv hpo hpost n hn rfl
    have hb := st.updated n hn1 hck.symm
    refine ⟨pre, c, post, tk0, tk1, rfl, hck, hpost, ?_, ?_, ?_, ?_, st.delta_mono, hmono⟩
    · simp only [reach, h0, hpre]
    · simp only [reach, h0]
      exact run_append_of hpre (by simp only [run, hs])
    · rw [true_frequency_untouched pre c hpost, ← hck]
      exact hb.1
    · rw [true_frequency_untouched pre c hpost, ← hck]
      exact hb.2

theorem lossy_counter_bounds_witness :
    (1 : Int) ≤ 2 ∧
    ∃ tk, reach ⟨.LC, 0, 0⟩ 2
        [⟨[97], 1, true, 0⟩, ⟨[98], 2, true, 0⟩, ⟨[99], 3, true, 0⟩, ⟨[100], 4, true, 0⟩,
          ⟨[101], 5, true, 0⟩, ⟨[101], 6, true, 0⟩] = some tk ∧
      ∀ n ∈ tk.list, ∃ pre c post tk0 tk1,
        [⟨[97], 1, true, 0⟩, ⟨[98], 2, true, 0⟩, ⟨[99], 3, true, 0⟩, ⟨[100], 4, true, 0⟩,
          ⟨[101], 5, true, 0⟩, ⟨[101], 6, true, 0⟩] = pre ++ c :: post ∧
        c.key = n.item.key ∧ (∀ d ∈ post, d.key ≠ n.item.key) ∧
        reach ⟨.LC, 0, 0⟩ 2 pre = some tk0 ∧
        reach ⟨.LC, 0, 0⟩ 2 (pre ++ [c]) = some tk1 ∧
        (true_frequency n.item.key
          [⟨[97], 1, true, 0⟩, ⟨[98], 2, true, 0⟩, ⟨[99], 3, true, 0⟩, ⟨[100], 4, true, 0⟩,
            ⟨[101], 5, true, 0⟩, ⟨[101], 6, true, 0⟩] : Int) ≤ n.item.counter ∧
        n.item.counter ≤ true_frequency n.item.key
          [⟨[97], 1, true, 0⟩, ⟨[98], 2, true, 0⟩, ⟨[99], 3, true, 0⟩, ⟨[100], 4, true, 0⟩,
            ⟨[101], 5, true, 0⟩, ⟨[101], 6, true, 0⟩] + tk0.delta ∧
        tk0.delta ≤ tk1.delta ∧ tk1.delta ≤ tk.delta := by
  have h : (reach ⟨.LC, 0, 0⟩ 2
        [⟨[97], 1, true, 0⟩, ⟨[98], 2, true, 0⟩, ⟨[99], 3, true, 0⟩, ⟨[100], 4, true, 0⟩,
          ⟨[101], 5, true, 0⟩, ⟨[101], 6, true, 0⟩]).isSome = true := by decide
  obtain ⟨tk, htk⟩ := Option.isSome_iff_exists.mp h
  exact ⟨by decide, tk, htk, lossy_counter_bounds 0 0 2 _ tk (by decide) htk⟩

/-! ## The sketch never undercounts (C7) -/

theorem bump_fold_spec (cfg : Config) (key : Key) (csm : csm_t) : ∀ (n : Nat),
    ((List.range n).foldl (bump_cell cfg key) csm).hash = csm.hash ∧
    ∀ r col, ((List.range n).foldl (bump_cell cfg key) csm).cm r col =
      if r < n ∧ col = csm_index cfg csm r key then csm.cm r col + 1 else csm.cm r col
  | 0 => by simp
  | n + 1 => by
    obtain ⟨hh, hc⟩ := bump_fold_spec cfg key csm n
    rw [List.range_succ, List.foldl_append, List.foldl_cons, List.foldl_nil]
    refine ⟨by simp only [bump_cell]; exact hh, fun r col => ?_⟩
    have hidx : csm_index cfg ((List.range n).foldl (bump_cell cfg key) csm) n key =
        csm_index cfg csm n key := by
      simp only [csm_index, hh]
    simp only [bump_cell, hidx, hc]
    by_cases h1 : r = n
    · subst h1
      by_cases h2 : col = csm_index cfg csm r key
      · simp [h2]
      · simp [h2]
    · have h3 : (r < n + 1) = (r < n) := by
        apply propext
        omega
      simp only [h1, false_and, if_false, h3]

theorem add_count_hash (cfg : Config) (csm : csm_t) (key : Key) :
    (add_count cfg csm key).hash = csm.hash :=
  (bump_fold_spec cfg key csm cfg.CSM_D).1

theorem add_count_cm (cfg : Config) (csm : csm_t) (key : Key) (r col : Nat) :
    (add_count cfg csm key).cm r col =
      if r < cfg.CSM_D ∧ col = csm_index cfg csm r key then csm.cm r col + 1 else csm.cm r col :=
  (bump_fold_spec cfg key csm cfg.CSM_D).2 r col

theorem add_count_index (cfg : Config) (csm : csm_t) (key k : Key) (i : Nat) :
    csm_index cfg (add_count cfg csm key) i k = csm_index cfg csm i k := by
  simp only [csm_index, add_count_hash]

theorem le_fold_min (v : Int) (g : Nat → Int) : ∀ (l : List Nat) (m0 : Int), v ≤ m0 →
    (∀ i ∈ l, v ≤ g i) → v ≤ l.foldl (fun m i => if m > g i then g i else m) m0
  | [], _, h0, _ => h0
  | i :: t, m0, h0, hl => by
    rw [List.foldl_cons]
    apply le_fold_min v g t
    · split
      · exact hl i (List.mem_cons_self _ _)
      · exact h0
    · exact fun j hj => hl j (List.mem_cons_of_mem _ hj)

theorem le_estimate_count {cfg : Config} {csm : csm_t} {key : Key} {v : Int}
    (h0 : v ≤ 0x7fffffff) (h : ∀ i < cfg.CSM_D, v ≤ csm.cm i (csm_index cfg csm i key)) :
    v ≤ estimate_count cfg csm key := by
  unfold estimate_count
  exact le_fold_min v (fun i => csm.cm i (csm_index cfg csm i key)) _ _ h0
    (fun i hi => h i (List.mem_range.mp hi))

theorem sketch_step {cfg : Config} {tk tk1 : topkeys_t} {c : Call} {r : Ref} {hist : List Call}
    (w : tk.wf) (inv : sketch_covers cfg tk hist)
    (h : topkeys_count_sketch_min cfg tk c = some (tk1, r)) :
    sketch_covers cfg tk1 (hist ++ [c]) := by
  have hcsm : tk1.csm = add_count cfg tk.csm c.key := by
    rcases count_sketch_min_spec w h with ⟨n, hn, -, -, -, rfl⟩ | ⟨hf, -, -, -, rfl⟩ |
      ⟨hf, -, -, -, p, t, hl, -, rfl⟩ | ⟨-, -, -, -, -, -, rfl⟩ <;> rfl
  intro i hi k
  rw [hcsm, add_count_index, add_count_cm, true_frequency_snoc]
  have := inv i hi k
  by_cases e : c.key = k
  · subst e
    rw [if_pos rfl, if_pos ⟨hi, rfl⟩]
    push_cast
    omega
  · rw [if_neg e]
    split <;> simp only [Nat.add_zero] <;> omega

/-- C7: under Count-Min-Sketch, after any sequence of fewer than `2^31` calls
on a new tracker (so that no cell leaves the range of `int`), the estimate of
every key, linked or not, is at least the number of calls made with the key. -/
theorem sketch_never_undercounts (D W : Nat) (max_keys : Int) (calls : List Call)
    (tk : topkeys_t) (hlen : calls.length < 2 ^ 31)
    (h : reach ⟨.CSM, D, W⟩ max_keys calls = some tk) :
    ∀ k, (true_frequency k calls : Int) ≤ estimate_count ⟨.CSM, D, W⟩ tk.csm k := by
  have hcap0 := reach_cap h
  unfold reach at h
  obtain ⟨tk0, h0, hl, hh, hn, hm, -, -, hb, hcm⟩ := init_some ⟨.CSM, D, W⟩ max_keys hcap0
  rw [h0] at h
  have hP0 : tk0.wf ∧ sketch_covers ⟨.CSM, D, W⟩ tk0 [] := by
    refine ⟨init_wf h0, fun i _ k => ?_⟩
    rw [hcm rfl]
    simp [true_frequency]
  have := @run_invariant ⟨.CSM, D, W⟩ (fun t hist => t.wf ∧ sketch_covers ⟨.CSM, D, W⟩ t hist)
    (fun t hist c t1 r hi hs => ⟨step_wf hi.1 hs, sketch_step hi.1 hi.2 hs⟩)
    calls tk0 [] tk hP0 h
  simp only [List.nil_append] at this
  intro k
  apply le_estimate_count
  · have h1 : true_frequency k calls ≤ calls.length := List.countP_le_length _
    have h2 : (true_frequency k calls : Int) < 2 ^ 31 := by exact_mod_cast lt_of_le_of_lt h1 hlen
    norm_num at h2 ⊢
    omega
  · exact fun i hi => this.2 i hi k

theorem sketch_never_undercounts_witness :
    [(⟨[1], 1, true, 0⟩ : Call), ⟨[2], 2, true, 0⟩, ⟨[3], 3, true, 0⟩, ⟨[3], 4, true, 0⟩,
      ⟨[1], 5, true, 0⟩, ⟨[1], 6, true, 0⟩].length < 2 ^ 31 ∧
    ∃ tk, reach ⟨.CSM, 2, 4⟩ 3
        [⟨[1], 1, true, 0⟩, ⟨[2], 2, true, 0⟩, ⟨[3], 3, true, 0⟩, ⟨[3], 4, true, 0⟩,
          ⟨[1], 5, true, 0⟩, ⟨[1], 6, true, 0⟩] = some tk ∧
      ∀ k, (true_frequency k
          [⟨[1], 1, true, 0⟩, ⟨[2], 2, true, 0⟩, ⟨[3], 3, true, 0⟩, ⟨[3], 4, true, 0⟩,
            ⟨[1], 5, true, 0⟩, ⟨[1], 6, true, 0⟩] : Int) ≤ estimate_count ⟨.CSM, 2, 4⟩ tk.csm k := by
  have h : (reach ⟨.CSM, 2, 4⟩ 3
        [⟨[1], 1, true, 0⟩, ⟨[2], 2, true, 0⟩, ⟨[3], 3, true, 0⟩, ⟨[3], 4, true, 0⟩,
          ⟨[1], 5, true, 0⟩, ⟨[1], 6, true, 0⟩]).isSome = true := by decide
  obtain ⟨tk, htk⟩ := Option.isSome_iff_exists.mp h
  exact ⟨by decide, tk, htk, sketch_never_undercounts 2 4 3 _ tk (by decide) htk⟩

/-! ## The returned item is tracked (C8) -/

theorem bind_isSome_split {α β : Type} {o : Option α} {f : α → Option β}
    (h : (o.bind f).isSome = true) : ∃ a b, o = some a ∧ f a = some b := by
  obtain ⟨b, hb⟩ := Option.isSome_iff_exists.mp h
  obtain ⟨a, ha, hf⟩ := Option.bind_eq_some.mp hb
  exact ⟨a, b, ha, hf⟩

theorem lossy_reach {D W : Nat} {max_keys : Int} {calls : List Call} {tk : topkeys_t}
    (hcap : 1 ≤ max_keys) (h : reach ⟨.LC, D, W⟩ max_keys calls = some tk) :
    LossyInv tk calls := by
  unfold reach at h
  cases h0 : topkeys_init ⟨.LC, D, W⟩ max_keys true true true with
  | none => rw [h0] at h; cases h
  | some tki =>
    rw [h0] at h
    obtain ⟨inv0, -⟩ := lossy_init hcap h0
    obtain ⟨inv, -, -⟩ := lossy_run calls inv0 h
    simpa using inv

/-- C8: under the recency, Lossy Counting and Space-Saving variants with
capacity at least 1, a call that returns on a reached tracker returns an item
that holds the requested key and is, when the call returns, linked in the
order list and stored in the hash index under that key: neither the eviction
nor the sweep of the same call removes it. -/
theorem returned_item_is_tracked (cfg : Config) (max_keys : Int) (calls : List Call)
    (tk tk1 : topkeys_t) (c : Call) (r : Ref) (hp : cfg.policy ≠ .CSM) (hcap : 1 ≤ max_keys)
    (h : reach cfg max_keys calls = some tk)
    (hs : topkeys_item_get_or_create cfg tk c = some (tk1, r)) :
    ∃ n ∈ tk1.list, r = .item n.addr ∧ n.item.key = c.key ∧
      genhash_find tk1.hash c.key = some n.addr := by
  have w := reach_wf h
  have w1 := step_wf w hs
  suffices hsuf : ∃ n ∈ tk1.list, r = .item n.addr ∧ n.item.key = c.key by
    obtain ⟨n, hn, hr, hk⟩ := hsuf
    exact ⟨n, hn, hr, hk, (w1.hash_list c.key n.addr).mpr ⟨n, hn, rfl, hk⟩⟩
  obtain ⟨pol, D, W⟩ := cfg
  simp only at hp
  unfold topkeys_item_get_or_create at hs
  cases pol with
  | LRU =>
    simp only at hs
    rcases recency_spec w hs with ⟨n, hn, hk, -, hr, rfl⟩ | ⟨hf, -, hr, -, rfl⟩ |
      ⟨hf, -, hr, -, n, hl, rfl⟩
    · exact ⟨n, List.mem_cons_self _ _, hr, hk⟩
    · exact ⟨⟨tk.brk, c.item⟩, List.mem_cons_self _ _, hr, rfl⟩
    · exact ⟨⟨tk.brk, c.item⟩, List.mem_cons_self _ _, hr, rfl⟩
  | LC =>
    simp only at hs
    exact (lossy_step (lossy_reach hcap h) hs).returned
  | SSL =>
    simp only at hs
    rcases space_saving_spec w hs with ⟨n, hn, hk, -, hr, rfl⟩ | ⟨hf, -, hr, -, rfl⟩ |
      ⟨hf, -, hr, -, p, t, hl, rfl⟩
    · exact ⟨_, mem_insert_by_counter.mpr (Or.inl rfl), hr, hk⟩
    · exact ⟨_, mem_insert_by_counter.mpr (Or.inl rfl), hr, rfl⟩
    · exact ⟨_, mem_insert_by_counter.mpr (Or.inl rfl), hr, rfl⟩
  | CSM => exact absurd rfl hp

theorem returned_item_is_tracked_witness :
    Policy.LC ≠ Policy.CSM ∧ (1 : Int) ≤ 2 ∧
    ∃ tk tk1 r, reach ⟨.LC, 0, 0⟩ 2
        [⟨[97], 1, true, 0⟩, ⟨[98], 2, true, 0⟩, ⟨[99], 3, true, 0⟩] = some tk ∧
      topkeys_item_get_or_create ⟨.LC, 0, 0⟩ tk ⟨[100], 4, true, 0⟩ = some (tk1, r) ∧
      ∃ n ∈ tk1.list, r = .item n.addr ∧ n.item.key = [100] ∧
        genhash_find tk1.hash [100] = some n.addr := by
  have h : ((reach ⟨.LC, 0, 0⟩ 2
      [⟨[97], 1, true, 0⟩, ⟨[98], 2, true, 0⟩, ⟨[99], 3, true, 0⟩]).bind
        (fun t => topkeys_item_get_or_create ⟨.LC, 0, 0⟩ t ⟨[100], 4, true, 0⟩)).isSome = true := by
    decide
  obtain ⟨tk, ⟨tk1, r⟩, h1, h2⟩ := bind_isSome_split h
  exact ⟨by decide, by decide, tk, tk1, r, h1, h2,
    returned_item_is_tracked ⟨.LC, 0, 0⟩ 2 _ tk tk1 ⟨[100], 4, true, 0⟩ r (by decide) (by decide)
      h1 h2⟩

/-- An instance of the sweep keeping the returned item: with capacity 2 the
calls a, b, c, d sweep a and b in the fourth call and leave d, c linked. -/
theorem lossy_sweep_keeps_returned :
    (reach ⟨.LC, 0, 0⟩ 2
      [⟨[97], 1, true, 0⟩, ⟨[98], 2, true, 0⟩, ⟨[99], 3, true, 0⟩, ⟨[100], 4, true, 0⟩]).map
      list_keys = some [[100], [99]] := by
  decide

/-! ## The sentinel result of the sketch variant (C9) and access times (C10) -/

/-- C9, at the failing input: under Count-Min-Sketch with capacity 1 the first
call on a new tracker (key x, the stray read being 0) takes the at-capacity
branch on the empty list, returns the list sentinel and links nothing. -/
theorem sketch_capacity_one_returns_sentinel :
    (reach ⟨.CSM, 2, 4⟩ 1 []).bind (fun t =>
      (topkeys_item_get_or_create ⟨.CSM, 2, 4⟩ t ⟨[120], 1, true, 0⟩).map
        (fun res => (res.2, res.1.list.length, res.1.nkeys))) = some (.sentinel, 0, 0) := by
  decide

/-- Under Count-Min-Sketch with capacity 1 no call on a new tracker returns an
item: whatever the stray read, the call returns the sentinel or does not
return. -/
theorem sketch_capacity_one_first_call (D W : Nat) (c : Call) (tk tk1 : topkeys_t) (r : Ref)
    (h : reach ⟨.CSM, D, W⟩ 1 [] = some tk)
    (hs : topkeys_item_get_or_create ⟨.CSM, D, W⟩ tk c = some (tk1, r)) :
    r = .sentinel ∧ tk1.list = [] := by
  have w := reach_wf h
  obtain ⟨tk0, h0, hl, hh, hn, hm, -⟩ := init_some ⟨.CSM, D, W⟩ 1 (le_refl 1)
  simp only [reach, h0, run, Option.some.injEq] at h
  subst h
  unfold topkeys_item_get_or_create at hs
  simp only at hs
  rcases count_sketch_min_spec w hs with ⟨n, hn1, -⟩ | ⟨-, -, -, hlt, -⟩ |
    ⟨-, -, -, -, p, t, hpt, -⟩ | ⟨-, -, hr, -, -, -, rfl⟩
  · rw [hl] at hn1; cases hn1
  · rw [hn, hm] at hlt; omega
  · rw [hl] at hpt; cases hpt
  · exact ⟨by rw [hr]; simp [topkeys_head, hl], hl⟩

/-- With capacity at least 2 the result of a returning Count-Min-Sketch call on
a reached tracker is a linked item stored in the index: the defect of C9 is
confined to capacity 1. -/
theorem sketch_result_tracked_of_capacity_two (D W : Nat) (max_keys : Int) (calls : List Call)
    (tk tk1 : topkeys_t) (c : Call) (r : Ref) (hcap : 2 ≤ max_keys)
    (h : reach ⟨.CSM, D, W⟩ max_keys calls = some tk)
    (hs : topkeys_item_get_or_create ⟨.CSM, D, W⟩ tk c = some (tk1, r)) :
    ∃ n ∈ tk1.list, r = .item n.addr ∧ genhash_find tk1.hash n.item.key = some n.addr := by
  have inv := reach_count h
  have w := inv.wf
  have w1 := step_wf w hs
  suffices hsuf : ∃ n ∈ tk1.list, r = .item n.addr by
    obtain ⟨n, hn, hr⟩ := hsuf
    exact ⟨n, hn, hr, (w1.hash_list n.item.key n.addr).mpr ⟨n, hn, rfl, rfl⟩⟩
  have hcount := inv.count (by simp)
  have hmax := inv.cap
  unfold topkeys_item_get_or_create at hs
  simp only at hs
  rcases count_sketch_min_spec w hs with ⟨n, hn, hk, -, hr, rfl⟩ | ⟨hf, -, hr, -, rfl⟩ |
    ⟨hf, -, hr, -, p, t, hl, -, rfl⟩ | ⟨-, -, hr, hge, -, -, rfl⟩
  · exact ⟨_, mem_insert_by_counter.mpr (Or.inl rfl), hr⟩
  · exact ⟨_, mem_insert_by_counter.mpr (Or.inl rfl), hr⟩
  · exact ⟨_, mem_insert_by_counter.mpr (Or.inl rfl), hr⟩
  · cases hl : tk.list with
    | nil =>
      rw [hl] at hcount
      simp only [List.length_nil, Nat.cast_zero] at hcount
      omega
    | cons p t =>
      refine ⟨p, by simp [hl], ?_⟩
      rw [hr]
      simp [topkeys_head, hl]

/-- What the returned pointer points to after a returning call: on a miss that
returns the requested key, the new item stamped with the time of the call; on a
hit, the item found, its two times unchanged. -/
theorem step_returned {cfg : Config} {tk tk1 : topkeys_t} {c : Call} {r : Ref} (w : tk.wf)
    (hs : topkeys_item_get_or_create cfg tk c = some (tk1, r)) :
    ∀ m ∈ tk1.list, r = .item m.addr →
      (genhash_find tk.hash c.key = none → m.item.key = c.key →
        m.item.atime = c.ctime ∧ m.item.ctime = c.ctime) ∧
      (∀ a, genhash_find tk.hash c.key = some a →
        ∃ n0 ∈ tk.list, n0.addr = a ∧ n0.item.key = c.key ∧ m.addr = a ∧
          m.item.atime = n0.item.atime ∧ m.item.ctime = n0.item.ctime) := by
  have w1 := step_wf w hs
  -- the two shapes of a linked result
  have hit : ∀ (n0 : dnode) (it : topkey_item), n0 ∈ tk.list → n0.item.key = c.key →
      tk.hash c.key = some n0.addr → r = .item n0.addr → (⟨n0.addr, it⟩ : dnode) ∈ tk1.list →
      it.atime = n0.item.atime → it.ctime = n0.item.ctime →
      ∀ m ∈ tk1.list, r = .item m.addr →
      (genhash_find tk.hash c.key = none → m.item.key = c.key →
        m.item.atime = c.ctime ∧ m.item.ctime = c.ctime) ∧
      (∀ a, genhash_find tk.hash c.key = some a →
        ∃ n0 ∈ tk.list, n0.addr = a ∧ n0.item.key = c.key ∧ m.addr = a ∧
          m.item.atime = n0.item.atime ∧ m.item.ctime = n0.item.ctime) := by
    intro n0 it hn0 hk hf hr hin ha hc m hm hrm
    have haddr : m.addr = n0.addr := by
      rw [hr] at hrm
      exact (Ref.item.inj hrm).symm
    have hmeq : m = ⟨n0.addr, it⟩ := addr_inj w1 hm hin haddr
    subst hmeq
    refine ⟨fun hnone => ?_, fun a hfa => ?_⟩
    · unfold genhash_find at hnone
      rw [hf] at hnone
      cases hnone
    · unfold genhash_find at hfa
      rw [hf] at hfa
      cases hfa
      exact ⟨n0, hn0, rfl, hk, rfl, ha, hc⟩
  have miss : ∀ (it : topkey_item), tk.hash c.key = none → r = .item tk.brk →
      (⟨tk.brk, it⟩ : dnode) ∈ tk1.list → it.atime = c.ctime → it.ctime = c.ctime →
      ∀ m ∈ tk1.list, r = .item m.addr →
      (genhash_find tk.hash c.key = none → m.item.key = c.key →
        m.item.atime = c.ctime ∧ m.item.ctime = c.ctime) ∧
      (∀ a, genhash_find tk.hash c.key = some a →
        ∃ n0 ∈ tk.list, n0.addr = a ∧ n0.item.key = c.key ∧ m.addr = a ∧
          m.item.atime = n0.item.atime ∧ m.item.ctime = n0.item.ctime) := by
    intro it hf hr hin ha hc m hm hrm
    have haddr : m.addr = tk.brk := by
      rw [hr] at hrm
      exact (Ref.item.inj hrm).symm
    have hmeq : m = ⟨tk.brk, it⟩ := addr_inj w1 hm hin haddr
    subst hmeq
    refine ⟨fun _ _ => ⟨ha, hc⟩, fun a hfa => ?_⟩
    unfold genhash_find at hfa
    rw [hf] at hfa
    cases hfa
  unfold topkeys_item_get_or_create at hs
  cases hpol : cfg.policy with
  | LRU =>
    rw [hpol] at hs
    simp only at hs
    rcases recency_spec w hs with ⟨n, hn, hk, hf, hr, rfl⟩ | ⟨hf, -, hr, -, rfl⟩ |
      ⟨hf, -, hr, -, n, hl, rfl⟩
    · exact hit n n.item hn hk hf hr (List.mem_cons_self _ _) rfl rfl
    · exact miss c.item hf hr (List.mem_cons_self _ _) rfl rfl
    · exact miss c.item hf hr (List.mem_cons_self _ _) rfl rfl
  | SSL =>
    rw [hpol] at hs
    simp only at hs
    rcases space_saving_spec w hs with ⟨n, hn, hk, hf, hr, rfl⟩ | ⟨hf, -, hr, -, rfl⟩ |
      ⟨hf, -, hr, -, p, t, hl, rfl⟩
    · exact hit n _ hn hk hf hr (mem_insert_by_counter.mpr (Or.inl rfl)) rfl rfl
    · exact miss _ hf hr (mem_insert_by_counter.mpr (Or.inl rfl)) rfl rfl
    · exact miss _ hf hr (mem_insert_by_counter.mpr (Or.inl rfl)) rfl rfl
  | CSM =>
    rw [hpol] at hs
    simp only at hs
    rcases count_sketch_min_spec w hs with ⟨n, hn, hk, hf, hr, rfl⟩ | ⟨hf, -, hr, -, rfl⟩ |
      ⟨hf, -, hr, -, p, t, hl, -, rfl⟩ | ⟨hf, -, hr, -, -, -, rfl⟩
    · exact hit n _ hn hk hf hr (mem_insert_by_counter.mpr (Or.inl rfl)) rfl rfl
    · exact miss _ hf hr (mem_insert_by_counter.mpr (Or.inl rfl)) rfl rfl
    · exact miss _ hf hr (mem_insert_by_counter.mpr (Or.inl rfl)) rfl rfl
    · intro m hm _
      refine ⟨fun _ hk => absurd hk (head_key_ne w hf hm), fun a hfa => ?_⟩
      unfold genhash_find at hfa
      rw [hf] at hfa
      cases hfa
  | LC =>
    rw [hpol] at hs
    simp only at hs
    obtain ⟨n, l0, hnode, hr, -, -, hl1, -⟩ := lossy_spec w hs
    intro m hm hrm
    have haddr : m.addr = n.addr := by
      rw [hr] at hrm
      exact (Ref.item.inj hrm).symm
    have hmn : m = n := by
      rw [hl1] at hm
      rcases mem_lossy_list hm with e | hm0
      · exact e
      · exfalso
        simp only at hm0
        rcases hnode with ⟨m0, hm0', hk0, -, rfl, rfl⟩ | ⟨hf, -, rfl, rfl⟩
        · exact (mem_dlist_remove.mp hm0).2 haddr
        · have := w.fresh m hm0
          simp only at haddr
          exact absurd haddr (Nat.ne_of_lt this)
    subst hmn
    rcases hnode with ⟨m0, hm0, hk0, hf, rfl, rfl⟩ | ⟨hf, -, rfl, rfl⟩
    · refine ⟨fun hnone => ?_, fun a hfa => ?_⟩
      · unfold genhash_find at hnone
        rw [hf] at hnone
        cases hnone
      · unfold genhash_find at hfa
        rw [hf] at hfa
        cases hfa
        exact ⟨m0, hm0, rfl, hk0, rfl, rfl, rfl⟩
    · refine ⟨fun _ _ => ⟨rfl, rfl⟩, fun a hfa => ?_⟩
      unfold genhash_find at hfa
      rw [hf] at hfa
      cases hfa

/-- C10, amended: for every variant, after a returning call on a reached
tracker the item the result points to has `atime` (and `ctime`) equal to the
time of the call when the call created it (the key was not in the index and the
item holds the key); on a hit the result is the item found and its `atime` is
the one it had before the call. -/
theorem returned_atime (cfg : Config) (max_keys : Int) (calls : List Call)
    (tk tk1 : topkeys_t) (c : Call) (r : Ref)
    (h : reach cfg max_keys calls = some tk)
    (hs : topkeys_item_get_or_create cfg tk c = some (tk1, r)) :
    ∀ m ∈ tk1.list, r = .item m.addr →
      (genhash_find tk.hash c.key = none → m.item.key = c.key →
        m.item.atime = c.ctime ∧ m.item.ctime = c.ctime) ∧
      (∀ a, genhash_find tk.hash c.key = some a →
        ∃ n0 ∈ tk.list, n0.addr = a ∧ n0.item.key = c.key ∧ m.addr = a ∧
          m.item.atime = n0.item.atime ∧ m.item.ctime = n0.item.ctime) :=
  step_returned (reach_wf h) hs

theorem returned_atime_witness :
    ∃ tk tk1 r, reach ⟨.LRU, 0, 0⟩ 1 [⟨[97], 5, true, 0⟩] = some tk ∧
      topkeys_item_get_or_create ⟨.LRU, 0, 0⟩ tk ⟨[97], 9, true, 0⟩ = some (tk1, r) ∧
      ∀ m ∈ tk1.list, r = .item m.addr →
        (genhash_find tk.hash [97] = none → m.item.key = [97] →
          m.item.atime = 9 ∧ m.item.ctime = 9) ∧
        (∀ a, genhash_find tk.hash [97] = some a →
          ∃ n0 ∈ tk.list, n0.addr = a ∧ n0.item.key = [97] ∧ m.addr = a ∧
            m.item.atime = n0.item.atime ∧ m.item.ctime = n0.item.ctime) := by
  have h : ((reach ⟨.LRU, 0, 0⟩ 1 [⟨[97], 5, true, 0⟩]).bind
      (fun t => topkeys_item_get_or_create ⟨.LRU, 0, 0⟩ t ⟨[97], 9, true, 0⟩)).isSome = true := by
    decide
  obtain ⟨tk, ⟨tk1, r⟩, h1, h2⟩ := bind_isSome_split h
  exact ⟨tk, tk1, r, h1, h2, returned_atime ⟨.LRU, 0, 0⟩ 1 _ tk tk1 ⟨[97], 9, true, 0⟩ r h1 h2⟩

/-- C10 fails on a hit: under the default variant with capacity 1, after a call
with key a at time 5, a call with key a at time 9 returns the item with `atime`
still 5. -/
theorem hit_keeps_atime :
    (reach ⟨.LRU, 0, 0⟩ 1 [⟨[97], 5, true, 0⟩]).bind (fun t =>
      (topkeys_item_get_or_create ⟨.LRU, 0, 0⟩ t ⟨[97], 9, true, 0⟩).bind (fun res =>
        (returned_item res).map (fun it => (it.key, it.atime)))) = some ([97], 5) := by
  decide

/-! ## Served calls return -/

theorem space_saving_total {tk : topkeys_t} {c : Call} (w : tk.wf) (hc : c.ok)
    (hcount : tk.nkeys = tk.list.length) (hcap : 1 ≤ tk.max_keys) :
    ∃ tk1 r, topkeys_space_saving tk c = some (tk1, r) := by
  unfold topkeys_space_saving
  cases hf : genhash_find tk.hash c.key with
  | some a =>
    obtain ⟨n, hd, -⟩ := find_deref w hf
    simp only [hd]
    exact ⟨_, _, rfl⟩
  | none =>
    simp only [item_init_ok hc]
    by_cases hb : tk.nkeys + 1 ≤ tk.max_keys
    · rw [if_pos hb]
      exact ⟨_, _, rfl⟩
    · rw [if_neg hb]
      cases hl : tk.list with
      | nil =>
        rw [hl] at hcount
        simp only [List.length_nil, Nat.cast_zero] at hcount
        omega
      | cons p t =>
        simp only [topkeys_item_delete, deref_head]
        exact ⟨_, _, rfl⟩

theorem lossy_total {tk : topkeys_t} {c : Call} (w : tk.wf) (hc : c.ok)
    (hcap : tk.max_keys ≠ 0) : ∃ tk1 r, topkeys_lossy tk c = some (tk1, r) := by
  unfold topkeys_lossy
  cases hf : genhash_find tk.hash c.key with
  | some a =>
    obtain ⟨m, hd, hm, e1, -⟩ := find_deref w hf
    simp only [hd]
    subst e1
    exact lossy_finish_total
      ((w.relink hm { m.item with counter := m.item.counter + 1 } rfl).perm
        (insert_by_counter_perm _ _)) hcap
  | none =>
    simp only [item_init_ok hc, Call.item_key]
    exact lossy_finish_total
      ((w.link hf { c.item with counter := tk.delta + 1 } rfl).perm
        (insert_by_counter_perm _ _)) hcap

theorem count_sketch_min_total {cfg : Config} {tk : topkeys_t} {c : Call} (w : tk.wf)
    (hc : c.ok) (hs : tk.list = [] → 0 ≤ c.stray ∨ tk.nkeys + 1 < tk.max_keys) :
    ∃ tk1 r, topkeys_count_sketch_min cfg tk c = some (tk1, r) := by
  unfold topkeys_count_sketch_min
  cases hf : genhash_find tk.hash c.key with
  | some a =>
    obtain ⟨n, hd, -⟩ := find_deref w hf
    simp only [hd]
    exact ⟨_, _, rfl⟩
  | none =>
    simp only [item_init_ok hc]
    by_cases hb : tk.nkeys + 1 < tk.max_keys
    · rw [if_pos hb]
      exact ⟨_, _, rfl⟩
    · rw [if_neg hb]
      have hic : c.item.counter = 0 := rfl
      cases hl : tk.list with
      | nil =>
        have h0 : 0 ≤ c.stray := by
          rcases hs hl with h | h
          · exact h
          · exact absurd h hb
        simp only [hic]
        rw [if_neg (by omega)]
        exact ⟨_, _, rfl⟩
      | cons p t =>
        simp only [hic]
        by_cases hp : p.item.counter < 0
        · rw [if_pos hp]
          simp only [topkeys_head, hl, topkeys_item_delete, deref_head]
          exact ⟨_, _, rfl⟩
        · rw [if_neg hp]
          exact ⟨_, _, rfl⟩

/-- A served call returns: on a reached tracker with capacity at least 1, a
call with a non-empty key whose allocation succeeds returns under the recency,
Lossy Counting and Space-Saving variants, and under Count-Min-Sketch when the
capacity is at least 2 or the stray read is not negative. -/
theorem served_call_returns (cfg : Config) (max_keys : Int) (calls : List Call)
    (tk : topkeys_t) (c : Call) (hcap : 1 ≤ max_keys) (hc : c.ok)
    (hs : cfg.policy = .CSM → 2 ≤ max_keys ∨ 0 ≤ c.stray)
    (h : reach cfg max_keys calls = some tk) :
    ∃ tk1 r, topkeys_item_get_or_create cfg tk c = some (tk1, r) := by
  have inv := reach_count h
  have hm := inv.cap
  unfold topkeys_item_get_or_create
  cases hpol : cfg.policy with
  | LRU =>
    simp only
    exact recency_total inv.wf hc (inv.count (by rw [hpol]; simp)) (by omega)
  | LC =>
    simp only
    exact lossy_total inv.wf hc (by omega)
  | SSL =>
    simp only
    exact space_saving_total inv.wf hc (inv.count (by rw [hpol]; simp)) (by omega)
  | CSM =>
    simp only
    apply count_sketch_min_total inv.wf hc
    intro hl
    have hcount := inv.count (by rw [hpol]; simp)
    rw [hl] at hcount
    simp only [List.length_nil, Nat.cast_zero] at hcount
    rcases hs hpol with h2 | h0
    · right; omega
    · left; exact h0

/-! ## Allocation failure (C11) -/

/-- A miss whose allocation fails does not return, whatever the variant: the
assertion of `topkey_item_init` stops the call before any `NULL` test. -/
theorem miss_without_memory_aborts (cfg : Config) (tk : topkeys_t) (c : Call)
    (hf : genhash_find tk.hash c.key = none) (hc : c.calloc = false) :
    topkeys_item_get_or_create cfg tk c = none := by
  have hi : topkey_item_init c.key c.ctime c.calloc = none := by
    simp [topkey_item_init, hc]
  unfold topkeys_item_get_or_create
  cases cfg.policy with
  | LRU => simp only [topkeys_recency, hf, hi]
  | LC => simp only [topkeys_lossy, hf, hi]
  | SSL => simp only [topkeys_space_saving, hf, hi]
  | CSM => simp only [topkeys_count_sketch_min, hf, hi]

/-- No returning call on a well-formed tracker returns `NULL`. -/
theorem result_never_null {cfg : Config} {tk tk1 : topkeys_t} {c : Call} {r : Ref} (w : tk.wf)
    (hs : topkeys_item_get_or_create cfg tk c = some (tk1, r)) : r ≠ .null := by
  unfold topkeys_item_get_or_create at hs
  cases hpol : cfg.policy with
  | LRU =>
    rw [hpol] at hs
    simp only at hs
    rcases recency_spec w hs with ⟨n, -, -, -, hr, -⟩ | ⟨-, -, hr, -⟩ | ⟨-, -, hr, -⟩ <;>
      rw [hr] <;> simp
  | LC =>
    rw [hpol] at hs
    simp only at hs
    obtain ⟨n, l0, -, hr, -⟩ := lossy_spec w hs
    rw [hr]
    simp
  | SSL =>
    rw [hpol] at hs
    simp only at hs
    rcases space_saving_spec w hs with ⟨n, -, -, -, hr, -⟩ | ⟨-, -, hr, -⟩ | ⟨-, -, hr, -⟩ <;>
      rw [hr] <;> simp
  | CSM =>
    rw [hpol] at hs
    simp only at hs
    rcases count_sketch_min_spec w hs with ⟨n, -, -, -, hr, -⟩ | ⟨-, -, hr, -⟩ | ⟨-, -, hr, -⟩ |
      ⟨-, -, hr, -⟩
    · rw [hr]; simp
    · rw [hr]; simp
    · rw [hr]; simp
    · rw [hr]
      unfold topkeys_head
      split <;> simp

/-- C11, at the failing input: on a new tracker of capacity 2 the first call,
a miss whose `calloc` fails, does not return under any of the four variants
(no `NULL` result, no tracker handed back). -/
theorem allocation_failure_does_not_return :
    [Policy.LRU, Policy.LC, Policy.SSL, Policy.CSM].map (fun p =>
      ((reach ⟨p, 2, 4⟩ 2 []).bind (fun t =>
        topkeys_item_get_or_create ⟨p, 2, 4⟩ t ⟨[97], 1, false, 0⟩)).isSome)
      = [false, false, false, false] := by
  decide

/-! ## Statistics (C12, C13) -/

theorem dlist_iter_spec {σ : Type} (tk_ops : topkey_item → List Int) (add_stat : stat_call → σ → σ)
    (now : Nat) : ∀ (l : List dnode) (cookie : σ),
    dlist_iter l (tk_iterfunc tk_ops)
        { cookie := cookie, add_stat := add_stat, current_time := now } =
      { cookie := (l.map (stat_line tk_ops now)).foldl (fun s line => add_stat line s) cookie
        add_stat := add_stat
        current_time := now }
  | [], cookie => rfl
  | n :: t, cookie => by
    have ih := dlist_iter_spec tk_ops add_stat now t
      (add_stat (stat_line tk_ops now n) cookie)
    unfold dlist_iter at ih ⊢
    rw [List.foldl_cons, List.map_cons, List.foldl_cons]
    exact ih

theorem foldl_record {α : Type} : ∀ (l acc : List α),
    l.foldl (fun s line => s ++ [line]) acc = acc ++ l
  | [], acc => by simp
  | a :: t, acc => by
    rw [List.foldl_cons, foldl_record t (acc ++ [a])]
    simp

/-- C12: `topkeys_stats` returns `ENGINE_SUCCESS`, leaves the tracker as it
was, and applies the sink exactly to the lines of the linked items, one per
item with that item's key and key length, from the head to the tail: whatever
the sink, and, for the sink that records its calls, the record is the list of
the items' lines, as long as the order list and empty on an empty tracker. -/
theorem stats_calls_sink_once_per_item {σ : Type} (tk_ops : topkey_item → List Int)
    (tk : topkeys_t) (cookie : σ) (now : Nat) (add_stat : stat_call → σ → σ) :
    topkeys_stats tk_ops tk cookie now add_stat =
      (.ENGINE_SUCCESS, tk,
        (tk.list.map (stat_line tk_ops now)).foldl (fun s line => add_stat line s) cookie) ∧
    (topkeys_stats tk_ops tk ([] : List stat_call) now (fun line s => s ++ [line])).2.2 =
      tk.list.map (stat_line tk_ops now) ∧
    (topkeys_stats tk_ops tk ([] : List stat_call) now (fun line s => s ++ [line])).2.2.length =
      tk.list.length ∧
    ((topkeys_stats tk_ops tk ([] : List stat_call) now (fun line s => s ++ [line])).2.2.map
      (fun line => (line.key, line.nkey))) = tk.list.map (fun n => (n.item.key, n.item.key.length)) ∧
    topkeys_stats tk_ops { tk with list := [] } cookie now add_stat =
      (.ENGINE_SUCCESS, { tk with list := [] }, cookie) := by
  have h1 : ∀ {τ : Type} (ck : τ) (f : stat_call → τ → τ), topkeys_stats tk_ops tk ck now f =
      (.ENGINE_SUCCESS, tk,
        (tk.list.map (stat_line tk_ops now)).foldl (fun s line => f line s) ck) := by
    intro τ ck f
    unfold topkeys_stats
    simp only [dlist_iter_spec]
  have h2 : (topkeys_stats tk_ops tk ([] : List stat_call) now (fun line s => s ++ [line])).2.2 =
      tk.list.map (stat_line tk_ops now) := by
    rw [h1]
    simp only [foldl_record, List.nil_append]
  refine ⟨h1 cookie add_stat, h2, ?_, ?_, ?_⟩
  · rw [h2, List.length_map]
  · rw [h2, List.map_map]
    rfl
  · rfl

theorem rel_time_sub_eq {a b : Nat} (ha : a < 2 ^ 32) (hb : b < 2 ^ 32) :
    rel_time_sub a b = if b ≤ a then a - b else 2 ^ 32 - (b - a) := by
  unfold rel_time_sub
  rw [Nat.mod_eq_of_lt ha, Nat.mod_eq_of_lt hb]
  split
  · rename_i h
    have : a + 2 ^ 32 - b = (a - b) + 2 ^ 32 := by omega
    rw [this, Nat.add_mod_right, Nat.mod_eq_of_lt (by omega)]
  · rename_i h
    rw [Nat.mod_eq_of_lt (by omega)]
    omega

/-- C13, amended: for 32-bit timestamps the two ages `tk_iterfunc` hands to
the sink are the unsigned 32-bit differences `now - ctime` and `now - atime`:
the plain difference when `now` is not earlier than the timestamp, and the
wrapped value `2^32 - (timestamp - now)`, not 0, when `now` is earlier. -/
theorem stats_ages_wrap {σ : Type} (tk_ops : topkey_item → List Int) (n : dnode)
    (c : tk_context σ)
    (hnow : c.current_time < 2 ^ 32) (hct : n.item.ctime < 2 ^ 32) (hat : n.item.atime < 2 ^ 32) :
    (tk_iterfunc tk_ops n c).cookie =
      c.add_stat
        ⟨n.item.key, n.item.key.length, tk_ops n.item,
          if n.item.ctime ≤ c.current_time then c.current_time - n.item.ctime
            else 2 ^ 32 - (n.item.ctime - c.current_time),
          if n.item.atime ≤ c.current_time then c.current_time - n.item.atime
            else 2 ^ 32 - (n.item.atime - c.current_time)⟩
        c.cookie := by
  unfold tk_iterfunc
  simp only [rel_time_sub_eq hnow hct, rel_time_sub_eq hnow hat]

theorem stats_ages_wrap_witness :
    (5 : Nat) < 2 ^ 32 ∧ (9 : Nat) < 2 ^ 32 ∧ (3 : Nat) < 2 ^ 32 ∧
    (tk_iterfunc (fun _ => []) ⟨0, ⟨[97], 9, 3, 1, 0⟩⟩
      (⟨[], fun l s => s ++ [l], 5⟩ : tk_context (List stat_call))).cookie =
        [] ++ [⟨[97], [97].length, [],
          if 9 ≤ 5 then 5 - 9 else 2 ^ 32 - (9 - 5),
          if 3 ≤ 5 then 5 - 3 else 2 ^ 32 - (3 - 5)⟩] :=
  ⟨by decide, by decide, by decide,
    stats_ages_wrap (fun _ => []) ⟨0, ⟨[97], 9, 3, 1, 0⟩⟩
      (⟨[], fun l s => s ++ [l], 5⟩ : tk_context (List stat_call))
      (by decide) (by decide) (by decide)⟩

/-- C13 fails when `now` is earlier: for an item created at time 9 (default
variant, capacity 2), `topkeys_stats` at time 5 reports both ages as
4294967292, not 0. -/
theorem stats_age_wraps_when_now_is_earlier :
    (reach ⟨.LRU, 0, 0⟩ 2 [⟨[97], 9, true, 0⟩]).map (fun t =>
      ((topkeys_stats (fun _ => []) t ([] : List stat_call) 5 (fun l s => s ++ [l])).2.2.map
        (fun l => (l.key, l.ctime, l.atime)))) = some [([97], 4294967292, 4294967292)] := by
  decide

/-! ## Construction (C14) -/

/-- C14: `topkeys_init` returns no tracker when `max_keys <= 0`, whatever the
allocations do, and when `max_keys > 0` and every allocation succeeds it
returns a tracker with an empty order list, count 0 and capacity `max_keys`
(and an empty index). The rejection of `max_keys <= 0` is the one of
`genhash_init`, modelled from the spec. -/
theorem topkeys_init_contract (cfg : Config) (max_keys : Int) :
    (max_keys ≤ 0 → ∀ a b c, topkeys_init cfg max_keys a b c = none) ∧
    (0 < max_keys → ∃ tk, topkeys_init cfg max_keys true true true = some tk ∧
      tk.list = [] ∧ tk.nkeys = 0 ∧ tk.max_keys = max_keys ∧
      ∀ k, genhash_find tk.hash k = none) := by
  constructor
  · intro hle a b c
    cases h : topkeys_init cfg max_keys a b c with
    | none => rfl
    | some tk =>
      have := init_cap h
      omega
  · intro hpos
    obtain ⟨tk, h0, hl, hh, hn, hm, -⟩ := init_some cfg max_keys (by omega)
    exact ⟨tk, h0, hl, hn, hm, fun k => by rw [genhash_find, hh]⟩

theorem topkeys_init_contract_witness :
    ((0 : Int) ≤ 0 ∧ ∀ a b c, topkeys_init ⟨.SSL, 0, 0⟩ 0 a b c = none) ∧
    ((0 : Int) < 2 ∧ ∃ tk, topkeys_init ⟨.SSL, 0, 0⟩ 2 true true true = some tk ∧
      tk.list = [] ∧ tk.nkeys = 0 ∧ tk.max_keys = 2 ∧
      ∀ k, genhash_find tk.hash k = none) :=
  ⟨⟨by decide, (topkeys_init_contract ⟨.SSL, 0, 0⟩ 0).1 (by decide)⟩,
    ⟨by decide, (topkeys_init_contract ⟨.SSL, 0, 0⟩ 2).2 (by decide)⟩⟩

/-! ## The capacity test of the sketch variant (C16) -/

/-- The at-capacity branch on a reached tracker: under Count-Min-Sketch with
capacity 2 (sketch 2 by 4), after the calls x, y (one item linked) a second
call with y is a miss with estimate 2 for y and counter 1 for the head x; the
call returns x, leaves x the only linked item and does not track y. -/
theorem sketch_rejects_larger_estimate :
    (reach ⟨.CSM, 2, 4⟩ 2 [⟨[120], 1, true, 0⟩, ⟨[121], 2, true, 0⟩]).bind (fun t =>
      (topkeys_item_get_or_create ⟨.CSM, 2, 4⟩ t ⟨[121], 3, true, 0⟩).map (fun res =>
        (res.2, res.1.list.map (fun n => (n.item.key, n.item.counter)),
          estimate_count ⟨.CSM, 2, 4⟩ res.1.csm [121]))) =
      some (Ref.item 0, [([120], 1)], 2) := by
  decide

/-- C16, at the failing input: under Count-Min-Sketch the first call on a new
tracker of capacity 1 (0 items linked, fewer than the capacity) leaves nothing
linked, and with capacity 2 after the call x the miss y (1 item linked, fewer
than the capacity) leaves only x linked. -/
theorem sketch_miss_below_capacity_not_tracked :
    (reach ⟨.CSM, 2, 4⟩ 1 [⟨[120], 1, true, 0⟩]).map (fun t => (list_keys t, t.nkeys))
      = some ([], 0) ∧
    (reach ⟨.CSM, 2, 4⟩ 2 [⟨[120], 1, true, 0⟩, ⟨[121], 2, true, 0⟩]).map
      (fun t => (list_keys t, t.nkeys)) = some ([[120]], 1) := by
  decide

/-! ## Invariants reused by the behaviour claims -/

theorem space_saving_reach {D W : Nat} {max_keys : Int} {calls : List Call} {tk : topkeys_t}
    (h : reach ⟨.SSL, D, W⟩ max_keys calls = some tk) : SpaceSavingInv tk calls := by
  have hcap0 := reach_cap h
  unfold reach at h
  obtain ⟨tk0, h0, hl, hh, hn, hm, -, -, hb, -⟩ := init_some ⟨.SSL, D, W⟩ max_keys hcap0
  rw [h0] at h
  have hP0 : SpaceSavingInv tk0 [] := by
    refine ⟨init_wf h0, by rw [hn, hl]; rfl, by rw [hl]; exact List.Pairwise.nil, ?_, ?_⟩
    · rw [hl]; simp
    · intro k _
      rw [hl]
      simp [true_frequency]
  have := @run_invariant ⟨.SSL, D, W⟩ (fun t hist => SpaceSavingInv t hist)
    (fun t hist c t1 r hi hs => space_saving_step hi hs) calls tk0 [] tk hP0 h
  simpa using this

theorem sketch_inv_step {cfg : Config} {tk tk1 : topkeys_t} {c : Call} {r : Ref}
    {hist : List Call} (inv : SketchInv cfg tk hist)
    (h : topkeys_count_sketch_min cfg tk c = some (tk1, r)) :
    SketchInv cfg tk1 (hist ++ [c]) := by
  have hw1 : tk1.wf := by
    have : topkeys_item_get_or_create ⟨.CSM, cfg.CSM_D, cfg.CSM_W⟩ tk c = some (tk1, r) := by
      simp only [topkeys_item_get_or_create]
      exact h
    exact step_wf inv.wf this
  have hcov := sketch_step inv.wf inv.covers h
  have hest : 1 ≤ estimate_count cfg (add_count cfg tk.csm c.key) c.key := by
    apply le_estimate_count (by norm_num)
    intro i hi
    rw [add_count_index, add_count_cm, if_pos ⟨hi, rfl⟩]
    have := inv.covers i hi c.key
    omega
  refine ⟨hw1, hcov, ?_, ?_⟩
  · rcases count_sketch_min_spec inv.wf h with ⟨n, hn, -, -, -, rfl⟩ | ⟨hf, -, -, -, rfl⟩ |
      ⟨hf, -, -, -, p, t, hl, -, rfl⟩ | ⟨-, -, -, -, -, -, rfl⟩
    · exact counter_sorted_insert (counter_sorted_remove _ inv.sorted)
    · exact counter_sorted_insert inv.sorted
    · have hs : counter_sorted (p :: t) := hl ▸ inv.sorted
      exact counter_sorted_insert (List.pairwise_cons.mp hs).2
    · exact inv.sorted
  · rcases count_sketch_min_spec inv.wf h with ⟨n, hn, -, -, -, rfl⟩ | ⟨hf, -, -, -, rfl⟩ |
      ⟨hf, -, -, -, p, t, hl, -, rfl⟩ | ⟨-, -, -, -, -, -, rfl⟩
    · intro m hm
      rcases mem_insert_by_counter.mp hm with rfl | hm
      · have := inv.positive n hn
        simp only
        omega
      · exact inv.positive m (mem_dlist_remove.mp hm).1
    · intro m hm
      rcases mem_insert_by_counter.mp hm with rfl | hm
      · exact hest
      · exact inv.positive m hm
    · intro m hm
      rcases mem_insert_by_counter.mp hm with rfl | hm
      · exact hest
      · exact inv.positive m (hl ▸ List.mem_cons_of_mem p hm)
    · exact inv.positive

theorem sketch_reach {D W : Nat} {max_keys : Int} {calls : List Call} {tk : topkeys_t}
    (h : reach ⟨.CSM, D, W⟩ max_keys calls = some tk) : SketchInv ⟨.CSM, D, W⟩ tk calls := by
  have hcap0 := reach_cap h
  unfold reach at h
  obtain ⟨tk0, h0, hl, hh, hn, hm, -, -, hb, hcm⟩ := init_some ⟨.CSM, D, W⟩ max_keys hcap0
  rw [h0] at h
  have hP0 : SketchInv ⟨.CSM, D, W⟩ tk0 [] := by
    refine ⟨init_wf h0, fun i _ k => ?_, by rw [hl]; exact List.Pairwise.nil, by rw [hl]; simp⟩
    rw [hcm rfl]
    simp [true_frequency]
  have := @run_invariant ⟨.CSM, D, W⟩ (fun t hist => SketchInv ⟨.CSM, D, W⟩ t hist)
    (fun t hist c t1 r hi hs => sketch_inv_step hi hs) calls tk0 [] tk hP0 h
  simpa using this

/-- In the at-capacity branch the sketch variant never evicts: on a reached
tracker a served miss with `nkeys + 1 >= max_keys` and a non-empty list returns
the head and leaves the list, the index and the count as they were, whatever
the estimate of the new key. The comparison reads the new item's counter, which
is still 0, and every linked counter is at least 1. -/
theorem sketch_at_capacity_never_evicts (D W : Nat) (max_keys : Int) (calls : List Call)
    (tk : topkeys_t) (c : Call) (p : dnode) (t : List dnode)
    (h : reach ⟨.CSM, D, W⟩ max_keys calls = some tk) (hc : c.ok)
    (hmiss : genhash_find tk.hash c.key = none) (hfull : tk.max_keys ≤ tk.nkeys + 1)
    (hl : tk.list = p :: t) :
    ∃ tk1, topkeys_item_get_or_create ⟨.CSM, D, W⟩ tk c = some (tk1, .item p.addr) ∧
      tk1.list = tk.list ∧ tk1.hash = tk.hash ∧ tk1.nkeys = tk.nkeys := by
  have inv := sketch_reach h
  have hpos := inv.positive p (hl ▸ List.mem_cons_self p t)
  obtain ⟨tk1, r, hs⟩ := @count_sketch_min_total ⟨.CSM, D, W⟩ tk c inv.wf hc
    (fun hn => by rw [hl] at hn; cases hn)
  refine ⟨tk1, ?_, ?_⟩
  · simp only [topkeys_item_get_or_create]
    rcases count_sketch_min_spec inv.wf hs with ⟨n, hn, -, hf, -, -⟩ | ⟨-, -, -, hlt, -⟩ |
      ⟨-, -, -, -, p1, t1, hl1, hneg, -⟩ | ⟨-, -, hr, -, -, -, -⟩
    · unfold genhash_find at hmiss
      rw [hmiss] at hf
      cases hf
    · omega
    · rw [hl] at hl1
      cases hl1
      omega
    · rw [hs, hr]
      simp [topkeys_head, hl]
  · rcases count_sketch_min_spec inv.wf hs with ⟨n, hn, -, hf, -, -⟩ | ⟨-, -, -, hlt, -⟩ |
      ⟨-, -, -, -, p1, t1, hl1, hneg, -⟩ | ⟨-, -, -, -, -, -, rfl⟩
    · unfold genhash_find at hmiss
      rw [hmiss] at hf
      cases hf
    · omega
    · rw [hl] at hl1
      cases hl1
      omega
    · exact ⟨rfl, rfl, by simp only; omega⟩

/-! ## Space-Saving misses (C17) and counter sum (C20) -/

theorem reach_with {cfg : Config} {max_keys : Int} {calls : List Call}
    (P : topkeys_t → Prop) [DecidablePred P]
    (h : ((reach cfg max_keys calls).bind (fun t => if P t then some t else none)).isSome = true) :
    ∃ tk, reach cfg max_keys calls = some tk ∧ P tk := by
  obtain ⟨tk, t1, h1, h2⟩ := bind_isSome_split h
  by_cases hp : P tk
  · exact ⟨tk, h1, hp⟩
  · rw [if_neg hp] at h2
    cases h2

theorem head_is_min {l : List dnode} (hs : counter_sorted l) {p : dnode}
    (hp : l.head? = some p) : ∀ m ∈ l, p.item.counter ≤ m.item.counter := by
  cases l with
  | nil => cases hp
  | cons a t =>
    simp only [List.head?_cons, Option.some.injEq] at hp
    subst hp
    intro m hm
    rcases List.mem_cons.mp hm with rfl | hm
    · exact le_refl _
    · exact (List.pairwise_cons.mp hs).1 m hm

/-- C17: under Space-Saving, on a reached tracker a served miss returns the new
item holding the key. While fewer than `max_keys` items are linked the item has
counter 1 and error value 0 and is placed into the unchanged list. While exactly
`max_keys` items are linked the head, whose counter `m` is the least of all
linked counters, is unlinked and dropped from the index, and the new item has
error value `m` and counter `m + 1`; `max_keys` items are linked afterwards. -/
theorem space_saving_miss_behaviour (D W : Nat) (max_keys : Int) (calls : List Call)
    (tk : topkeys_t) (c : Call) (h : reach ⟨.SSL, D, W⟩ max_keys calls = some tk)
    (hc : c.ok) (hmiss : genhash_find tk.hash c.key = none) :
    ((tk.list.length : Int) < max_keys →
      ∃ tk1 n, topkeys_item_get_or_create ⟨.SSL, D, W⟩ tk c = some (tk1, .item n.addr) ∧
        n.item.key = c.key ∧ n.item.counter = 1 ∧ n.item.error_value = 0 ∧
        tk1.list = insert_by_counter n tk.list ∧
        genhash_find tk1.hash c.key = some n.addr) ∧
    ((tk.list.length : Int) = max_keys →
      ∃ tk1 n p t, tk.list = p :: t ∧ (∀ m ∈ tk.list, p.item.counter ≤ m.item.counter) ∧
        topkeys_item_get_or_create ⟨.SSL, D, W⟩ tk c = some (tk1, .item n.addr) ∧
        n.item.key = c.key ∧ n.item.error_value = p.item.counter ∧
        n.item.counter = p.item.counter + 1 ∧
        tk1.list = insert_by_counter n t ∧ (tk1.list.length : Int) = max_keys ∧
        genhash_find tk1.hash p.item.key = none ∧
        genhash_find tk1.hash c.key = some n.addr) := by
  have inv := space_saving_reach h
  have cinv := reach_count h
  have hcap := reach_cap h
  have hmk := cinv.cap
  have hcount := inv.count
  obtain ⟨tk1, r, hs⟩ := space_saving_total inv.wf hc hcount (by omega)
  have hstep : topkeys_item_get_or_create ⟨.SSL, D, W⟩ tk c = some (tk1, r) := by
    simp only [topkeys_item_get_or_create]
    exact hs
  unfold genhash_find at hmiss
  constructor
  · intro hlt
    rcases space_saving_spec inv.wf hs with ⟨n, hn, -, hf, -, -⟩ | ⟨hf, -, hr, hle, rfl⟩ |
      ⟨hf, -, hr, hgt, p, t, hl, rfl⟩
    · rw [hmiss] at hf; cases hf
    · refine ⟨_, ⟨tk.brk, { c.item with counter := 1 }⟩, by rw [hstep, hr], rfl, rfl, rfl, rfl, ?_⟩
      simp [genhash_find, genhash_update]
    · omega
  · intro heq
    rcases space_saving_spec inv.wf hs with ⟨n, hn, -, hf, -, -⟩ | ⟨hf, -, hr, hle, rfl⟩ |
      ⟨hf, -, hr, hgt, p, t, hl, rfl⟩
    · rw [hmiss] at hf; cases hf
    · omega
    · have hne : p.item.key ≠ c.key := head_key_ne inv.wf hf (hl ▸ List.mem_cons_self p t)
      let it : topkey_item :=
        { c.item with error_value := p.item.counter, counter := p.item.counter + 1 }
      refine ⟨_, ⟨tk.brk, it⟩, p, t, hl,
        head_is_min inv.sorted (by rw [hl]; rfl), by rw [hstep, hr], rfl, rfl, rfl, rfl, ?_, ?_, ?_⟩
      · simp only [length_insert_by_counter]
        rw [hl] at heq
        simpa using heq
      · simp [genhash_find, genhash_update, genhash_delete, hne]
      · simp [genhash_find, genhash_update]

theorem space_saving_miss_behaviour_witness :
    ∃ tk, reach ⟨.SSL, 0, 0⟩ 2 [⟨[97], 1, true, 0⟩, ⟨[98], 2, true, 0⟩] = some tk ∧
      (⟨[99], 3, true, 0⟩ : Call).ok ∧ genhash_find tk.hash [99] = none ∧
      (((tk.list.length : Int) < 2 →
        ∃ tk1 n, topkeys_item_get_or_create ⟨.SSL, 0, 0⟩ tk ⟨[99], 3, true, 0⟩ =
            some (tk1, .item n.addr) ∧
          n.item.key = [99] ∧ n.item.counter = 1 ∧ n.item.error_value = 0 ∧
          tk1.list = insert_by_counter n tk.list ∧
          genhash_find tk1.hash [99] = some n.addr) ∧
      ((tk.list.length : Int) = 2 →
        ∃ tk1 n p t, tk.list = p :: t ∧ (∀ m ∈ tk.list, p.item.counter ≤ m.item.counter) ∧
          topkeys_item_get_or_create ⟨.SSL, 0, 0⟩ tk ⟨[99], 3, true, 0⟩ =
            some (tk1, .item n.addr) ∧
          n.item.key = [99] ∧ n.item.error_value = p.item.counter ∧
          n.item.counter = p.item.counter + 1 ∧
          tk1.list = insert_by_counter n t ∧ (tk1.list.length : Int) = 2 ∧
          genhash_find tk1.hash p.item.key = none ∧
          genhash_find tk1.hash [99] = some n.addr)) := by
  have h : ((reach ⟨.SSL, 0, 0⟩ 2 [⟨[97], 1, true, 0⟩, ⟨[98], 2, true, 0⟩]).bind
      (fun t => if genhash_find t.hash [99] = none then some t else none)).isSome = true := by
    decide
  obtain ⟨tk, h1, h2⟩ := reach_with (fun t => genhash_find t.hash [99] = none) h
  exact ⟨tk, h1, by decide, h2,
    space_saving_miss_behaviour 0 0 2 _ tk ⟨[99], 3, true, 0⟩ h1 (by decide) h2⟩

/-- The scenario of C17: capacity 2 and accesses a, b, c evict b (the head, with
counter 1) and link c with counter 2 and error value 1 after a. -/
theorem space_saving_scenario :
    (reach ⟨.SSL, 0, 0⟩ 2 [⟨[97], 1, true, 0⟩, ⟨[98], 2, true, 0⟩, ⟨[99], 3, true, 0⟩]).map
      (fun t => t.list.map (fun n => (n.item.key, n.item.counter, n.item.error_value))) =
      some [([97], 1, 0), ([99], 2, 1)] := by
  decide

theorem counter_sum_insert (n : dnode) (l : List dnode) :
    counter_sum (insert_by_counter n l) = n.item.counter + counter_sum l := by
  unfold counter_sum
  rw [((insert_by_counter_perm n l).map _).sum_eq, List.map_cons, List.sum_cons]

theorem perm_dlist_remove {l : List dnode} {h : genhash_t} {b : Ptr} (w : WF l h b)
    {n : dnode} (hn : n ∈ l) : (n :: dlist_remove l n.addr).Perm l := by
  have hnd := (w.relink hn n.item rfl).addr_nodup
  rw [List.perm_ext_iff_of_nodup (List.Nodup.of_map _ hnd) (List.Nodup.of_map _ w.addr_nodup)]
  intro m
  simp only [List.mem_cons, mem_dlist_remove]
  constructor
  · rintro (rfl | ⟨hm, -⟩)
    · exact hn
    · exact hm
  · intro hm
    by_cases e : m.addr = n.addr
    · exact Or.inl (addr_inj w hm hn e)
    · exact Or.inr ⟨hm, e⟩

theorem counter_sum_remove {l : List dnode} {h : genhash_t} {b : Ptr} (w : WF l h b)
    {n : dnode} (hn : n ∈ l) :
    n.item.counter + counter_sum (dlist_remove l n.addr) = counter_sum l := by
  unfold counter_sum
  rw [← ((perm_dlist_remove w hn).map _).sum_eq, List.map_cons, List.sum_cons]

/-- What one returning call of `topkeys_space_saving` does to the sum, the call
count and, on a full tracker, the head. -/
theorem space_saving_sum_step {tk tk1 : topkeys_t} {c : Call} {r : Ref} {hist : List Call}
    (inv : SpaceSavingInv tk hist) (h : topkeys_space_saving tk c = some (tk1, r)) :
    counter_sum tk1.list = counter_sum tk.list + 1 ∧ tk1.N = tk.N + 1 ∧
    tk1.max_keys = tk.max_keys ∧
    ((tk.list.length : Int) = tk.max_keys → (tk1.list.length : Int) = tk.max_keys ∧
      ∀ p q, tk.list.head? = some p → tk1.list.head? = some q →
        p.item.counter ≤ q.item.counter) := by
  have hcount := inv.count
  rcases space_saving_spec inv.wf h with ⟨n, hn, -, hf, -, rfl⟩ | ⟨hf, -, hr, hle, rfl⟩ |
    ⟨hf, -, hr, hgt, p, t, hl, rfl⟩
  · refine ⟨?_, rfl, rfl, fun hfull => ⟨?_, ?_⟩⟩
    · have := counter_sum_remove inv.wf hn
      rw [counter_sum_insert]
      simp only
      omega
    · have := length_dlist_remove inv.wf hn
      simp only [length_insert_by_counter]
      omega
    · intro p q hp hq
      have hmin := head_is_min inv.sorted hp
      have hq1 : q ∈ insert_by_counter
          ⟨n.addr, { n.item with counter := n.item.counter + 1 }⟩ (dlist_remove tk.list n.addr) :=
        List.mem_of_mem_head? hq
      rcases mem_insert_by_counter.mp hq1 with rfl | hq2
      · have := hmin n hn
        simp only
        omega
      · exact hmin q (mem_dlist_remove.mp hq2).1
  · refine ⟨?_, rfl, rfl, fun hfull => ?_⟩
    · rw [counter_sum_insert]
      simp only
      omega
    · omega
  · refine ⟨?_, rfl, rfl, fun hfull => ⟨?_, ?_⟩⟩
    · rw [counter_sum_insert, hl]
      simp only [counter_sum, List.map_cons, List.sum_cons]
      omega
    · simp only [length_insert_by_counter]
      rw [hl] at hfull
      simpa using hfull
    · intro p1 q hp hq
      rw [hl] at hp
      simp only [List.head?_cons, Option.some.injEq] at hp
      subst hp
      have hs : counter_sorted (p :: t) := hl ▸ inv.sorted
      have hq1 := List.mem_of_mem_head? hq
      rcases mem_insert_by_counter.mp hq1 with rfl | hq2
      · simp only
        omega
      · exact (List.pairwise_cons.mp hs).1 q hq2

/-- C20: under Space-Saving, in every tracker reached from a new one the sum of
the counters of the linked items is `N`, the number of calls made; every
returning call raises the sum by exactly 1; and once `max_keys` items are
linked a call leaves `max_keys` items linked and a head whose counter is not
below the one of the head before. Counters are the unbounded integers of the
embedding. -/
theorem space_saving_counter_sum (D W : Nat) (max_keys : Int) (calls : List Call)
    (tk : topkeys_t) (h : reach ⟨.SSL, D, W⟩ max_keys calls = some tk) :
    counter_sum tk.list = tk.N ∧ tk.N = calls.length ∧
    ∀ c tk1 r, topkeys_item_get_or_create ⟨.SSL, D, W⟩ tk c = some (tk1, r) →
      counter_sum tk1.list = counter_sum tk.list + 1 ∧
      ((tk.list.length : Int) = max_keys → (tk1.list.length : Int) = max_keys ∧
        ∀ p q, tk.list.head? = some p → tk1.list.head? = some q →
          p.item.counter ≤ q.item.counter) := by
  have inv := space_saving_reach h
  have hmk := (reach_count h).cap
  have hcap0 := reach_cap h
  have hsum : counter_sum tk.list = tk.N ∧ tk.N = calls.length := by
    unfold reach at h
    obtain ⟨tk0, h0, hl, hh, hn, hm, hN, -, hb, -⟩ := init_some ⟨.SSL, D, W⟩ max_keys hcap0
    rw [h0] at h
    have hP0 : SpaceSavingInv tk0 [] ∧ counter_sum tk0.list = tk0.N ∧
        tk0.N = (([] : List Call).length : Int) := by
      refine ⟨?_, by rw [hl, hN]; rfl, by rw [hN]; rfl⟩
      refine ⟨init_wf h0, by rw [hn, hl]; rfl, by rw [hl]; exact List.Pairwise.nil, ?_, ?_⟩
      · rw [hl]; simp
      · intro k _
        rw [hl]
        simp [true_frequency]
    have := @run_invariant ⟨.SSL, D, W⟩
      (fun t hist => SpaceSavingInv t hist ∧ counter_sum t.list = t.N ∧ t.N = (hist.length : Int))
      (fun t hist c t1 r hi hs => by
        have hs1 : topkeys_space_saving t c = some (t1, r) := hs
        obtain ⟨h1, h2, -, -⟩ := space_saving_sum_step hi.1 hs1
        refine ⟨space_saving_step hi.1 hs1, by rw [h1, h2, hi.2.1], ?_⟩
        rw [h2, hi.2.2]
        simp)
      calls tk0 [] tk hP0 h
    simpa using this.2
  refine ⟨hsum.1, hsum.2, fun c tk1 r hs => ?_⟩
  have hs1 : topkeys_space_saving tk c = some (tk1, r) := hs
  obtain ⟨h1, -, -, h4⟩ := space_saving_sum_step inv hs1
  refine ⟨h1, fun hfull => ?_⟩
  rw [← hmk]
  exact h4 (by rw [hmk]; exact hfull)

theorem space_saving_counter_sum_witness :
    ∃ tk, reach ⟨.SSL, 0, 0⟩ 2
        [⟨[97], 1, true, 0⟩, ⟨[98], 2, true, 0⟩, ⟨[99], 3, true, 0⟩, ⟨[97], 4, true, 0⟩] = some tk ∧
      (counter_sum tk.list = tk.N ∧
       tk.N = [(⟨[97], 1, true, 0⟩ : Call), ⟨[98], 2, true, 0⟩, ⟨[99], 3, true, 0⟩,
          ⟨[97], 4, true, 0⟩].length ∧
       ∀ c tk1 r, topkeys_item_get_or_create ⟨.SSL, 0, 0⟩ tk c = some (tk1, r) →
        counter_sum tk1.list = counter_sum tk.list + 1 ∧
        ((tk.list.length : Int) = 2 → (tk1.list.length : Int) = 2 ∧
          ∀ p q, tk.list.head? = some p → tk1.list.head? = some q →
            p.item.counter ≤ q.item.counter)) := by
  have h : (reach ⟨.SSL, 0, 0⟩ 2
      [⟨[97], 1, true, 0⟩, ⟨[98], 2, true, 0⟩, ⟨[99], 3, true, 0⟩, ⟨[97], 4, true, 0⟩]).isSome
        = true := by decide
  obtain ⟨tk, htk⟩ := Option.isSome_iff_exists.mp h
  exact ⟨tk, htk, space_saving_counter_sum 0 0 2 _ tk htk⟩

/-! ## Sorted order and placement (C18), the sweep (C19) -/

theorem insert_by_counter_placed (n : dnode) : ∀ (l : List dnode),
    placed_before_first_ge n l (insert_by_counter n l)
  | [] => ⟨[], [], rfl, rfl, by simp, by simp⟩
  | p :: t => by
    simp only [insert_by_counter]
    split
    · rename_i hge
      refine ⟨[], p :: t, rfl, rfl, by simp, ?_⟩
      intro m hm
      simp only [List.head?_cons, Option.some.injEq] at hm
      subst hm
      exact hge
    · rename_i hlt
      obtain ⟨before, after, h1, h2, h3, h4⟩ := insert_by_counter_placed n t
      refine ⟨p :: before, after, by rw [h1]; rfl, by rw [h2]; rfl, ?_, h4⟩
      intro m hm
      rcases List.mem_cons.mp hm with rfl | hm
      · omega
      · exact h3 m hm

theorem last_is_max {l : List dnode} (hs : counter_sorted l) {q : dnode}
    (hq : l.getLast? = some q) : ∀ m ∈ l, m.item.counter ≤ q.item.counter := by
  obtain ⟨l0, rfl⟩ : ∃ l0, l = l0 ++ [q] := by
    rcases List.eq_nil_or_concat l with rfl | ⟨l0, m, rfl⟩
    · simp at hq
    · simp only [List.concat_eq_append, List.getLast?_append, List.getLast?_singleton,
        Option.or_some, Option.some.injEq] at hq
      exact ⟨l0, by simp [hq]⟩
  intro m hm
  rcases List.mem_append.mp hm with h | h
  · exact (List.pairwise_append.mp hs).2.2 m h q (by simp)
  · simp only [List.mem_singleton] at h
    rw [h]

theorem dropWhile_eq_filter {d : Int} : ∀ {l : List dnode}, counter_sorted l →
    l.dropWhile (fun m => m.item.counter < d) = l.filter (fun m => d ≤ m.item.counter)
  | [], _ => rfl
  | p :: t, hs => by
    have hst := List.pairwise_cons.mp hs
    by_cases hp : p.item.counter < d
    · rw [List.dropWhile_cons_of_pos (by simpa using hp),
        List.filter_cons_of_neg (by simp only [decide_eq_true_eq]; omega)]
      exact dropWhile_eq_filter hst.2
    · rw [List.dropWhile_cons_of_neg (by simpa using hp),
        List.filter_cons_of_pos (by simp only [decide_eq_true_eq]; omega)]
      congr 1
      symm
      rw [List.filter_eq_self]
      intro m hm
      have := hst.1 m hm
      simp only [decide_eq_true_eq]
      omega

theorem reach_sorted {cfg : Config} {max_keys : Int} {calls : List Call} {tk : topkeys_t}
    (hp : cfg.policy ≠ .LRU) (h : reach cfg max_keys calls = some tk) :
    counter_sorted tk.list := by
  obtain ⟨pol, D, W⟩ := cfg
  simp only at hp
  cases pol with
  | LRU => exact absurd rfl hp
  | LC => exact (lossy_reach (reach_cap h) h).sorted
  | SSL => exact (space_saving_reach h).sorted
  | CSM => exact (sketch_reach h).sorted

/-- C18: under Lossy Counting, Space-Saving and Count-Min-Sketch the order list
of every reached tracker is sorted by counter, lowest first, so the head holds
a least and the tail a greatest counter; and a returning call either links
nothing (the rejected miss of the sketch variant, list unchanged) or links the
returned item, holding the requested key, right before the first item whose
counter is at least its own, in a sublist `l0` of the list before (under Lossy
Counting the sweep may then drop the leading items below the new `delta`). -/
theorem order_list_sorted_by_counter (cfg : Config) (max_keys : Int) (calls : List Call)
    (tk : topkeys_t) (hp : cfg.policy ≠ .LRU) (h : reach cfg max_keys calls = some tk) :
    counter_sorted tk.list ∧
    (∀ p, tk.list.head? = some p → ∀ m ∈ tk.list, p.item.counter ≤ m.item.counter) ∧
    (∀ q, tk.list.getLast? = some q → ∀ m ∈ tk.list, m.item.counter ≤ q.item.counter) ∧
    ∀ c tk1 r, topkeys_item_get_or_create cfg tk c = some (tk1, r) →
      (cfg.policy = .CSM ∧ genhash_find tk.hash c.key = none ∧ tk1.list = tk.list) ∨
      ∃ n l0 L, r = .item n.addr ∧ n.item.key = c.key ∧ l0.Sublist tk.list ∧
        placed_before_first_ge n l0 L ∧
        (tk1.list = L ∨
          (cfg.policy = .LC ∧ tk1.list = L.dropWhile (fun m => m.item.counter < tk1.delta))) := by
  have hs := reach_sorted hp h
  have w := reach_wf h
  refine ⟨hs, fun p hp1 => head_is_min hs hp1, fun q hq => last_is_max hs hq, ?_⟩
  intro c tk1 r hstep
  unfold topkeys_item_get_or_create at hstep
  cases hpol : cfg.policy with
  | LRU => exact absurd hpol hp
  | SSL =>
    rw [hpol] at hstep
    simp only at hstep
    right
    rcases space_saving_spec w hstep with ⟨n, hn, hk, -, hr, rfl⟩ | ⟨hf, -, hr, -, rfl⟩ |
      ⟨hf, -, hr, -, p, t, hl, rfl⟩
    · let it : topkey_item := { n.item with counter := n.item.counter + 1 }
      exact ⟨⟨n.addr, it⟩, dlist_remove tk.list n.addr, _, hr, hk, List.filter_sublist _,
        insert_by_counter_placed _ _, Or.inl rfl⟩
    · exact ⟨_, _, _, hr, rfl, List.Sublist.refl _, insert_by_counter_placed _ _, Or.inl rfl⟩
    · exact ⟨_, _, _, hr, rfl, hl ▸ List.sublist_cons_self p t, insert_by_counter_placed _ _,
        Or.inl rfl⟩
  | CSM =>
    rw [hpol] at hstep
    simp only at hstep
    rcases count_sketch_min_spec w hstep with ⟨n, hn, hk, -, hr, rfl⟩ | ⟨hf, -, hr, -, rfl⟩ |
      ⟨hf, -, hr, -, p, t, hl, -, rfl⟩ | ⟨hf, -, -, -, -, -, rfl⟩
    · let it : topkey_item := { n.item with counter := n.item.counter + 1 }
      exact Or.inr ⟨⟨n.addr, it⟩, dlist_remove tk.list n.addr, _, hr, hk, List.filter_sublist _,
        insert_by_counter_placed _ _, Or.inl rfl⟩
    · exact Or.inr ⟨_, _, _, hr, rfl, List.Sublist.refl _, insert_by_counter_placed _ _,
        Or.inl rfl⟩
    · exact Or.inr ⟨_, _, _, hr, rfl, hl ▸ List.sublist_cons_self p t,
        insert_by_counter_placed _ _, Or.inl rfl⟩
    · exact Or.inl ⟨rfl, hf, rfl⟩
  | LC =>
    rw [hpol] at hstep
    simp only at hstep
    right
    obtain ⟨n, l0, hnode, hr, -, -, hl1, -, -, -, hd1, -⟩ := lossy_spec w hstep
    have hkey : n.item.key = c.key := by
      rcases hnode with ⟨m0, hm0, hk0, -, rfl, -⟩ | ⟨hf, -, rfl, -⟩
      · exact hk0
      · rfl
    have hsub : l0.Sublist tk.list := by
      rcases hnode with ⟨m0, hm0, hk0, -, -, rfl⟩ | ⟨hf, -, -, rfl⟩
      · exact List.filter_sublist _
      · exact List.Sublist.refl _
    refine ⟨n, l0, insert_by_counter n l0, hr, hkey, hsub, insert_by_counter_placed _ _, ?_⟩
    rw [hl1, hd1]
    unfold lossy_list
    simp only
    split
    · exact Or.inr ⟨trivial, rfl⟩
    · exact Or.inl rfl

theorem order_list_sorted_by_counter_witness :
    Policy.LC ≠ Policy.LRU ∧
    ∃ tk, reach ⟨.LC, 0, 0⟩ 2
        [⟨[97], 1, true, 0⟩, ⟨[98], 2, true, 0⟩, ⟨[99], 3, true, 0⟩] = some tk ∧
      (counter_sorted tk.list ∧
      (∀ p, tk.list.head? = some p → ∀ m ∈ tk.list, p.item.counter ≤ m.item.counter) ∧
      (∀ q, tk.list.getLast? = some q → ∀ m ∈ tk.list, m.item.counter ≤ q.item.counter) ∧
      ∀ c tk1 r, topkeys_item_get_or_create ⟨.LC, 0, 0⟩ tk c = some (tk1, r) →
        (Policy.LC = .CSM ∧ genhash_find tk.hash c.key = none ∧ tk1.list = tk.list) ∨
        ∃ n l0 L, r = .item n.addr ∧ n.item.key = c.key ∧ l0.Sublist tk.list ∧
          placed_before_first_ge n l0 L ∧
          (tk1.list = L ∨
            (Policy.LC = .LC ∧
              tk1.list = L.dropWhile (fun m => m.item.counter < tk1.delta)))) := by
  have h : (reach ⟨.LC, 0, 0⟩ 2
      [⟨[97], 1, true, 0⟩, ⟨[98], 2, true, 0⟩, ⟨[99], 3, true, 0⟩]).isSome = true := by decide
  obtain ⟨tk, htk⟩ := Option.isSome_iff_exists.mp h
  exact ⟨by decide, tk, htk, order_list_sorted_by_counter ⟨.LC, 0, 0⟩ 2 _ tk (by decide) htk⟩

/-- C19: under Lossy Counting, for a returning call on a reached tracker, with
`n` the item the call links into `l0` (see `lossy_node`): `delta` does not
decrease; when the call changes `delta` the list it leaves is the list after
the sorted insertion without exactly the items whose counter is below the new
`delta`, the others in their order, and when it does not the list is the one
after the insertion; the index holds exactly the items left linked; and no
linked item has a counter below `delta` when the call returns. -/
theorem lossy_sweep_behaviour (D W : Nat) (max_keys : Int) (calls : List Call)
    (tk tk1 : topkeys_t) (c : Call) (r : Ref)
    (h : reach ⟨.LC, D, W⟩ max_keys calls = some tk)
    (hs : topkeys_item_get_or_create ⟨.LC, D, W⟩ tk c = some (tk1, r)) :
    tk.delta ≤ tk1.delta ∧
    (∀ m ∈ tk1.list, tk1.delta ≤ m.item.counter) ∧
    (∀ k a, genhash_find tk1.hash k = some a ↔ ∃ m ∈ tk1.list, m.addr = a ∧ m.item.key = k) ∧
    ∃ n l0, lossy_node tk c n l0 ∧
      (tk1.delta ≠ tk.delta →
        tk1.list = (insert_by_counter n l0).filter (fun m => tk1.delta ≤ m.item.counter)) ∧
      (tk1.delta = tk.delta → tk1.list = insert_by_counter n l0) := by
  have inv := lossy_reach (reach_cap h) h
  have hs1 : topkeys_lossy tk c = some (tk1, r) := hs
  have st := lossy_step inv hs1
  obtain ⟨n, l0, hnode, -, -, hw1, hl1, -, -, -, hd1, -⟩ := lossy_spec inv.wf hs1
  refine ⟨st.delta_mono, st.inv.floor, hw1.hash_list, n, l0, hnode, ?_, ?_⟩
  · intro hne
    have hl0s : counter_sorted l0 := by
      rcases hnode with ⟨m0, hm0, hk0, -, -, rfl⟩ | ⟨hf, -, -, rfl⟩
      · exact counter_sorted_remove _ inv.sorted
      · exact inv.sorted
    rw [hl1]
    unfold lossy_list
    simp only
    rw [if_pos (by rw [← hd1]; exact fun e => hne e.symm), ← hd1]
    exact dropWhile_eq_filter (counter_sorted_insert hl0s)
  · intro heq
    rw [hl1]
    unfold lossy_list
    simp only
    rw [if_neg (by rw [← hd1, heq]; simp)]

theorem lossy_sweep_behaviour_witness :
    ∃ tk tk1 r, reach ⟨.LC, 0, 0⟩ 2
        [⟨[97], 1, true, 0⟩, ⟨[98], 2, true, 0⟩, ⟨[99], 3, true, 0⟩] = some tk ∧
      topkeys_item_get_or_create ⟨.LC, 0, 0⟩ tk ⟨[100], 4, true, 0⟩ = some (tk1, r) ∧
      (tk.delta ≤ tk1.delta ∧
      (∀ m ∈ tk1.list, tk1.delta ≤ m.item.counter) ∧
      (∀ k a, genhash_find tk1.hash k = some a ↔
        ∃ m ∈ tk1.list, m.addr = a ∧ m.item.key = k) ∧
      ∃ n l0, lossy_node tk ⟨[100], 4, true, 0⟩ n l0 ∧
        (tk1.delta ≠ tk.delta →
          tk1.list = (insert_by_counter n l0).filter (fun m => tk1.delta ≤ m.item.counter)) ∧
        (tk1.delta = tk.delta → tk1.list = insert_by_counter n l0)) := by
  have h : ((reach ⟨.LC, 0, 0⟩ 2
      [⟨[97], 1, true, 0⟩, ⟨[98], 2, true, 0⟩, ⟨[99], 3, true, 0⟩]).bind
        (fun t => topkeys_item_get_or_create ⟨.LC, 0, 0⟩ t ⟨[100], 4, true, 0⟩)).isSome = true := by
    decide
  obtain ⟨tk, ⟨tk1, r⟩, h1, h2⟩ := bind_isSome_split h
  exact ⟨tk, tk1, r, h1, h2,
    lossy_sweep_behaviour 0 0 2 _ tk tk1 ⟨[100], 4, true, 0⟩ r h1 h2⟩

/-- An instance of C19: with capacity 2, the fourth call raises `delta` from 1
to 2 and the sweep drops the two items with counter 1. -/
theorem lossy_sweep_scenario :
    (reach ⟨.LC, 0, 0⟩ 2
      [⟨[97], 1, true, 0⟩, ⟨[98], 2, true, 0⟩, ⟨[99], 3, true, 0⟩]).map
      (fun t => (t.delta, t.list.map (fun n => (n.item.key, n.item.counter)))) =
      some (1, [([98], 1), ([97], 1), ([99], 2)]) ∧
    (reach ⟨.LC, 0, 0⟩ 2
      [⟨[97], 1, true, 0⟩, ⟨[98], 2, true, 0⟩, ⟨[99], 3, true, 0⟩, ⟨[100], 4, true, 0⟩]).map
      (fun t => (t.delta, t.list.map (fun n => (n.item.key, n.item.counter)))) =
      some (2, [([100], 2), ([99], 2)]) := by
  decide

/-! ## The sketch variant on a tracker that holds `max_keys` items (C15) -/

/-- Under Count-Min-Sketch no reached tracker links `max_keys` items. -/
theorem sketch_never_holds_capacity (D W : Nat) (max_keys : Int) (calls : List Call)
    (tk : topkeys_t) (h : reach ⟨.CSM, D, W⟩ max_keys calls = some tk) :
    (tk.list.length : Int) < max_keys := by
  have inv := reach_count h
  have h1 := inv.count (by simp)
  have h2 := inv.bound (by simp) (reach_cap h)
  have h3 := inv.cap
  unfold within_capacity at h2
  simp only [if_true] at h2
  omega

/-- On any well-formed tracker, a served miss of the sketch variant in the
at-capacity branch (`max_keys <= nkeys + 1`, so also when `max_keys` items are
linked and counted) with a head whose counter is not negative is rejected,
whatever the estimate of the new key: the head is returned and the list, the
index and the count are as before. -/
theorem sketch_at_capacity_rejects_any_estimate (cfg : Config) (tk : topkeys_t) (c : Call)
    (p : dnode) (t : List dnode) (w : tk.wf) (hc : c.ok)
    (hmiss : genhash_find tk.hash c.key = none) (hfull : tk.max_keys ≤ tk.nkeys + 1)
    (hl : tk.list = p :: t) (hpos : 0 ≤ p.item.counter) :
    ∃ tk1, topkeys_count_sketch_min cfg tk c = some (tk1, .item p.addr) ∧
      tk1.list = tk.list ∧ tk1.hash = tk.hash ∧ tk1.nkeys = tk.nkeys ∧
      tk1.csm = add_count cfg tk.csm c.key := by
  obtain ⟨tk1, r, hs⟩ := @count_sketch_min_total cfg tk c w hc
    (fun hn => by rw [hl] at hn; cases hn)
  unfold genhash_find at hmiss
  rcases count_sketch_min_spec w hs with ⟨n, hn, -, hf, -, -⟩ | ⟨-, -, -, hlt, -⟩ |
    ⟨-, -, -, -, p1, t1, hl1, hneg, -⟩ | ⟨-, -, hr, -, -, -, htk1⟩
  · rw [hmiss] at hf
    cases hf
  · omega
  · rw [hl] at hl1
    cases hl1
    omega
  · refine ⟨tk1, ?_, by rw [htk1], by rw [htk1], by rw [htk1]; simp only; omega, by rw [htk1]⟩
    rw [hs, hr]
    simp [topkeys_head, hl]

/-- The tracker `sketch_full_tracker` is well formed: one linked item, indexed
under its key at its address, below the allocation cursor. -/
theorem sketch_full_tracker_wf : ∀ t, sketch_full_tracker = some t → t.wf := by
  intro t ht
  unfold sketch_full_tracker at ht
  obtain ⟨t0, h0, hl, hh, -⟩ := init_some ⟨.CSM, 2, 4⟩ 1 (le_refl 1)
  rw [h0] at ht
  simp only [Option.map_some', Option.some.injEq] at ht
  subst ht
  unfold topkeys_t.wf
  simp only
  rw [hh]
  exact (WF.nil 0).link rfl
    { key := [120], ctime := 1, atime := 1, counter := 1, error_value := 0 } rfl

end Topkeys
